import Mathlib

/-!
Verification development for the SCPI command server.

Each section embeds (shallowly) the relevant Python functions of the
repository into Lean and proves or refutes one specified property about
them.  Python strings are modelled as Lean `String`/`List Char`, Python
exceptions as `Except` values, and module-level mutable state as
explicit state records threaded through the operations.  All
definitions are kept executable so that every theorem can be checked on
concrete inputs by reduction.
-/

namespace Scpi

/-- Python exception kinds that occur on the modelled paths.  An
uncaught Python exception is modelled as `Except.error (e : PyErr)`. -/
inductive PyErr where
  /-- `KeyError` from a failed dict lookup. -/
  | keyError (key : String)
  /-- `ValueError`, e.g. `int()` on a non-numeric string or unpacking a
  tuple of the wrong arity. -/
  | valueError (msg : String)
  /-- `TypeError`, e.g. subscripting a non-subscriptable value. -/
  | typeError
  /-- `IndexError` from an out-of-range sequence index. -/
  | indexError
  /-- `NameError` from reading an unbound local name. -/
  | nameError (name : String)
  /-- An SCPI `CommandError` subclass raised by the session layer
  (e.g. `VariableSyntax`, `InsufficientAccess`). -/
  | commandError (kind : String)
deriving DecidableEq, Repr

instance {ε α : Type} [DecidableEq ε] [DecidableEq α] : DecidableEq (Except ε α) := fun x y =>
  match x, y with
  | .ok a, .ok b =>
    if h : a = b then isTrue (by rw [h]) else isFalse (by intro hh; cases hh; exact h rfl)
  | .error a, .error b =>
    if h : a = b then isTrue (by rw [h]) else isFalse (by intro hh; cases hh; exact h rfl)
  | .ok _, .error _ => isFalse (by intro hh; cases hh)
  | .error _, .ok _ => isFalse (by intro hh; cases hh)

/-! ### String helpers

Python string primitives, re-implemented over `List Char` so that they
reduce by `rfl`/`decide`.  Python `str.lower` on the identifiers in
this code base only involves ASCII, matching `Char.toLower`. -/

/-- `post` is a suffix of `s` (Python `s.endswith(post)`). -/
def strEndsWith (s post : String) : Bool :=
  post.data.isSuffixOf s.data

/-- `pre` is a prefix of `s` (Python `s.startswith(pre)`). -/
def strStartsWith (s pre : String) : Bool :=
  pre.data.isPrefixOf s.data

/-- Python `s[:-n]` for `n ≤ len(s)`. -/
def strDropRight (s : String) (n : Nat) : String :=
  String.mk (s.data.take (s.data.length - n))

/-- Python `s[n:]`. -/
def strDrop (s : String) (n : Nat) : String :=
  String.mk (s.data.drop n)

/-- Python `s.lower()` (ASCII). -/
def strLower (s : String) : String :=
  String.mk (s.data.map Char.toLower)

/-- Python `len(s)`. -/
def strLen (s : String) : Nat := s.data.length

/-! ## §C8: class-identifier / SCPI-name translation (`base.py`)

`prefixMap`, `suffixMap`, `Base.scpiName` and `Base.className` from
`src/scpi/server/base/base.py`. -/

/-- `suffixMap` from `base.py`: trailing identifier token to suffix symbol. -/
def suffixMap : List (String × Char) := [
  ("Set", '='), ("Add", '+'), ("Remove", '-'), ("Clear", '~'),
  ("Query", '?'), ("Count", '#'), ("Enumerate", '*'), ("List", '@'),
  ("Exists", '!'), ("Load", '<'), ("Save", '>')]

/-- `prefixMap` from `base.py`: leading identifier token to prefix symbol. -/
def prefixMap : List (String × Char) := [("Common", '*')]

/-- `suffixRevMap[c]` (`none` models a `KeyError`). -/
def suffixRevMap (c : Char) : Option String :=
  (suffixMap.find? (fun p => p.2 = c)).map (fun p => p.1)

/-- `prefixRevMap[c]` (`none` models a `KeyError`). -/
def prefixRevMap (c : Char) : Option String :=
  (prefixMap.find? (fun p => p.2 = c)).map (fun p => p.1)

/-- The suffix substitution step of `Base.scpiName`: the regular
expression `_(Set|Add|...)$` replaces a trailing `_Word` (for `Word` a
key of `suffixMap`) by the mapped symbol.  No key of `suffixMap` is a
suffix of another, so the alternation is unambiguous. -/
def scpiNameSuffixStep (name : String) : String :=
  match suffixMap.find? (fun p => strEndsWith name ("_" ++ p.1)) with
  | some p => strDropRight name (strLen p.1 + 1) ++ String.mk [p.2]
  | none => name

/-- The prefix substitution step of `Base.scpiName`: the regular
expression `^(Common)_` replaces a leading `Common_` by `*`. -/
def scpiNamePrefixStep (name : String) : String :=
  match prefixMap.find? (fun p => strStartsWith name (p.1 ++ "_")) with
  | some p => String.mk [p.2] ++ strDrop name (strLen p.1 + 1)
  | none => name

/-- `Base.scpiName(ident)`: suffix substitution, then prefix
substitution (the `assert False` branches are unreachable because the
matched group is by construction a key of the corresponding map). -/
def scpiName (ident : String) : String :=
  scpiNamePrefixStep (scpiNameSuffixStep ident)

/-- `Base.className(command)`, translated line by line.  Both `try`
blocks catch only `(IndexError, TypeError)`; the `KeyError` raised by
`suffixRevMap[name[-1]]` or `prefixRevMap[name[0]]` when the character
is not a mapped symbol propagates to the caller. -/
def className (command : String) : Except PyErr String := do
  let name := command
  -- try: suffix = suffixRevMap[name[-1]] ... except (IndexError, TypeError): pass
  let name ← (
    match name.data.getLast? with
    | none => pure name        -- name[-1] raises IndexError, which is caught
    | some last =>
      match suffixRevMap last with
      | some suffix => pure (strDropRight name 1 ++ "_" ++ suffix)
      | none => throw (PyErr.keyError (String.mk [last])))
  -- try: prefix = prefixRevMap[name[0]] ... except (IndexError, TypeError): pass
  let name ← (
    match name.data.head? with
    | none => pure name        -- name[0] raises IndexError, which is caught
    | some first =>
      match prefixRevMap first with
      | some pre => pure (pre ++ "_" ++ strDrop name 1)
      | none => throw (PyErr.keyError (String.mk [first])))
  pure name

end Scpi

namespace Scpi

/-- Sanity example: the forward translation on a composite identifier. -/
example : scpiName "Common_FOO_Set" = "*FOO=" := by decide

/-- Sanity example: `className` succeeds only when the command both ends
with a suffix symbol and begins with `*`. -/
example : className "*FOO=" = Except.ok "Common_FOO_Set" := by decide

/-- Sanity example: `className` on an ordinary command raises `KeyError`. -/
example : className "VERSion" = Except.error (PyErr.keyError "n") := by decide

end Scpi

namespace Scpi

/-! ## §C2: command-tree name resolution (`branch.py`, `base.py`)

`Base.alternateNames`, `Branch.addDefaultChildren`, `Branch.getChild`,
`Branch.locate` / `Branch._locate`.  A fixed command tree is modelled
as the hierarchy of class-derived children: each branch carries the
list of its children keyed by their primary (class-derived, already
SCPI-translated) names, in registration order.  Lazy incarnation
registers the instantiated child under exactly the same three
lowercased alias keys that `addDefaultChildren` put into
`childclasses`, so resolution through the pure lookup below coincides
with resolution through the stateful instance/class maps. -/

/-- `_lowerCaseX.sub('', name)`: maps a name to its all-lowercase strip
(Python character class `[a-z]`, ASCII). -/
def shortName (s : String) : String :=
  String.mk (s.data.filter (fun c => !c.isLower))

/-- Worker for `interName`; `fuel` bounds recursion depth (call sites
pass the length of the list, which always suffices since each step
consumes at least one character). -/
def interNameGo : Nat → List Char → List Char
  | 0, cs => cs
  | _ + 1, [] => []
  | fuel + 1, c :: rest =>
    if c.isLower then
      -- a maximal lowercase run: the regex [a-z]+([^a-z]) matches iff a
      -- non-lowercase character follows the run
      match rest.dropWhile Char.isLower with
      | [] => c :: rest
      | d :: tail => d :: interNameGo fuel tail
    else
      c :: interNameGo fuel rest

/-- `_interCaseX.sub(r'\1', name)` with `_interCaseX = [a-z]+([^a-z])`:
strips every maximal lowercase run that is followed by a non-lowercase
character (trailing lowercase runs survive). -/
def interName (s : String) : String :=
  String.mk (interNameGo s.data.length s.data)

/-- `Base.alternateNames(name)` returns `(name, intername, shortname)`;
the `NoUpperCaseLetters` check (raised when the shortname is empty) is
carried as a hypothesis by the theorems, since a fixed tree can only
contain children whose registration did not raise. -/
def altNames (name : String) : List String :=
  [name, interName name, shortName name]

/-- The lowercased keys under which `addDefaultChildren` registers one
child in `childclasses` (`childclasses[n.lower()] = ...` for each of
the three alternate names). -/
def aliasKeys (n : String) : List String :=
  (altNames n).map strLower

/-- A command tree node: a node identity plus the class-derived
children in registration order, keyed by primary name. -/
inductive CmdTree where
  | node (id : Nat) (children : List (String × CmdTree))

/-- All `(lowercased key, child)` registrations of a branch, in
registration order. -/
def childEntries (cs : List (String × CmdTree)) : List (String × CmdTree) :=
  cs.flatMap (fun p => (aliasKeys p.1).map (fun a => (a, p.2)))

/-- Lookup in the registration dict: as for a Python dict, a later
registration of the same key wins, hence the search over the reversed
entry list. -/
def lookupChild (cs : List (String × CmdTree)) (key : String) : Option CmdTree :=
  ((childEntries cs).reverse.find? (fun p => p.1 = key)).map (fun p => p.2)

/-- Python `name.lower().rstrip(":")`. -/
def rstripColon (s : String) : String :=
  String.mk ((s.data.reverse.dropWhile (fun c => c = ':')).reverse)

/-- `Branch.getChild(name)` on a fixed tree: the instance map starts
empty, so the lookup falls through to `'.'`/`'..'` handling and then to
the class map (`childclasses[key]`), whose hit incarnates and returns
the child.  Parent links are not carried by the model, so `'..'`
resolves as at the root (`self.parent or self` with no parent); the
theorems below never exercise the `'.'`/`'..'` branches. -/
def getChild (b : CmdTree) (name : String) : Option CmdTree :=
  let key := rstripColon (strLower name)
  if name = "." then some b
  else if name = ".." then some b
  else match b with
  | CmdTree.node _ cs => lookupChild cs key

/-- `Branch._locate`: resolve the remaining path segments one
`getChild` at a time (an unresolvable segment raises
`UnknownCommand`, modelled as `none`). -/
def resolveSegs : CmdTree → List String → Option CmdTree
  | t, [] => some t
  | t, s :: rest =>
    match getChild t s with
    | some c => resolveSegs c rest
    | none => none

/-- `Branch.locate(command)` on the root branch of the model: split on
`:`, drop a leading empty segment (rewind to the root, which the model
branch already is), drop a trailing empty segment, then walk. -/
def locate (t : CmdTree) (command : String) : Option CmdTree :=
  let e0 := (command.data.splitOn ':').map String.mk
  let e1 := if e0.head? = some "" then e0.tail else e0
  let e2 := if e1 ≠ [] ∧ e1.getLast? = some "" then e1.dropLast else e1
  match e2 with
  | [] => some t
  | s :: _ => if s = "" then some t else resolveSegs t e2

/-- The alias keys of distinct children of one branch do not collide
(a collision would make the registration dict silently drop one of
them; the source rejects short-form collisions with
`DuplicateShortName`). -/
def wfChildren (cs : List (String × CmdTree)) : Prop :=
  cs.Pairwise (fun p q => ∀ k, k ∈ aliasKeys p.1 → k ∉ aliasKeys q.1)

/-- Well-formedness of a fixed tree: at every node the alias keys of
distinct children are disjoint and every child has a nonempty
all-lowercase strip (otherwise registration would have raised
`NoUpperCaseLetters`). -/
inductive CmdTree.WF : CmdTree → Prop
  | node {i : Nat} {cs : List (String × CmdTree)}
      (hdisj : wfChildren cs)
      (hshort : ∀ p ∈ cs, shortName p.1 ≠ "")
      (hchild : ∀ p ∈ cs, CmdTree.WF p.2) : CmdTree.WF (CmdTree.node i cs)

/-- `Spells t segs r`: the path `segs` spells the node `r` starting
from `t` — every segment is, up to letter case and trailing colons,
one of the three alternate names of the child followed. -/
inductive Spells : CmdTree → List String → CmdTree → Prop
  | nil (t : CmdTree) : Spells t [] t
  | cons {i : Nat} {cs : List (String × CmdTree)} {rest : List String}
      {r c : CmdTree} {s n a : String}
      (hmem : (n, c) ∈ cs)
      (halias : a ∈ altNames n)
      (hspell : rstripColon (strLower s) = strLower a)
      (hdot : s ≠ "." ∧ s ≠ "..")
      (htail : Spells c rest r) :
      Spells (CmdTree.node i cs) (s :: rest) r

theorem mem_childEntries {cs : List (String × CmdTree)} {e : String × CmdTree}
    (h : e ∈ childEntries cs) :
    ∃ p ∈ cs, e.1 ∈ aliasKeys p.1 ∧ e.2 = p.2 := by
  unfold childEntries at h
  rcases List.mem_flatMap.mp h with ⟨p, hp, he⟩
  rcases List.mem_map.mp he with ⟨a, ha, rfl⟩
  exact ⟨p, hp, ha, rfl⟩

theorem lookupChild_of_mem {cs : List (String × CmdTree)} {n : String} {c : CmdTree}
    {key : String} (hwf : wfChildren cs) (hmem : (n, c) ∈ cs)
    (hkey : key ∈ aliasKeys n) :
    lookupChild cs key = some c := by
  induction cs with
  | nil => cases hmem
  | cons hd tl ih =>
    have hwf' : wfChildren tl := (List.pairwise_cons.mp hwf).2
    have hhd : ∀ q ∈ tl, ∀ k, k ∈ aliasKeys hd.1 → k ∉ aliasKeys q.1 :=
      fun q hq k hk => (List.pairwise_cons.mp hwf).1 q hq k hk
    show (((hd :: tl).flatMap (fun p => (aliasKeys p.1).map (fun a => (a, p.2)))).reverse.find?
        (fun p => p.1 = key)).map (fun p => p.2) = some c
    rw [List.flatMap_cons, List.reverse_append, List.find?_append]
    rcases List.mem_cons.mp hmem with heq | htl
    · -- the child is the head: no later (tail) registration carries the key
      have hnone : (childEntries tl).reverse.find? (fun p => (p.1 = key : Bool)) = none := by
        rw [List.find?_eq_none]
        intro e he hp
        have hek : e.1 = key := by simpa using hp
        rcases mem_childEntries (List.mem_reverse.mp he) with ⟨q, hq, hkq, _⟩
        exact hhd q hq e.1 (by rw [hek, ← heq]; exact hkey) hkq
      rw [show (tl.flatMap (fun p => (aliasKeys p.1).map (fun a => (a, p.2))))
            = childEntries tl from rfl, hnone]
      simp only [Option.none_or]
      -- the head's own entry list contains the key, and every entry maps to hd.2 = c
      have hex : (((aliasKeys hd.1).map (fun a => (a, hd.2))).reverse.find?
          (fun p => (p.1 = key : Bool))).isSome := by
        rw [List.find?_isSome]
        refine ⟨(key, hd.2), List.mem_reverse.mpr (List.mem_map.mpr ⟨key, ?_, rfl⟩), by simp⟩
        rw [← heq]; exact hkey
      rcases Option.isSome_iff_exists.mp hex with ⟨e, he⟩
      have heme := List.mem_of_find?_eq_some he
      rcases List.mem_map.mp (List.mem_reverse.mp heme) with ⟨a, _, rfl⟩
      rw [he]
      simp [← heq]
    · -- the child is in the tail: the (later) tail registration wins
      have hih := ih hwf' htl
      show ((((childEntries tl).reverse.find? (fun p => (p.1 = key : Bool))).or
        (((aliasKeys hd.1).map (fun a => (a, hd.2))).reverse.find?
          (fun p => (p.1 = key : Bool)))).map (fun p => p.2)) = some c
      rcases hfind : (childEntries tl).reverse.find? (fun p => (p.1 = key : Bool)) with _ | e
      · exfalso
        unfold lookupChild at hih
        rw [hfind] at hih
        simp at hih
      · unfold lookupChild at hih
        rw [hfind] at hih
        rw [hfind]
        simpa [Option.or] using hih

/-- Helper: a spelled path resolves to the node it spells. -/
theorem resolveSegs_of_spells {t r : CmdTree} {segs : List String}
    (hwf : t.WF) (hs : Spells t segs r) : resolveSegs t segs = some r := by
  induction hs with
  | nil => rfl
  | cons hmem halias hspell hdot htail ih =>
    rename_i i cs rest r c s n a
    cases hwf with
    | node hdisj hshort hchild =>
      have hget : getChild (CmdTree.node i cs) s = some c := by
        unfold getChild
        rw [if_neg hdot.1, if_neg hdot.2]
        exact lookupChild_of_mem hdisj hmem
          (by rw [hspell]; exact List.mem_map.mpr ⟨a, halias, rfl⟩)
      unfold resolveSegs
      rw [hget]
      exact ih (hchild (n, c) hmem)

end Scpi

namespace Scpi

/-- The segment preprocessing of `Branch.locate`: split on `:`, drop a
leading empty segment (rewind to the root) and a trailing empty
segment. -/
def pathElements (command : String) : List String :=
  let e0 := (command.data.splitOn ':').map String.mk
  let e1 := if e0.head? = some "" then e0.tail else e0
  if e1 ≠ [] ∧ e1.getLast? = some "" then e1.dropLast else e1

theorem interNameGo_ne_nil {fuel : Nat} {cs : List Char} (h : cs ≠ []) :
    interNameGo fuel cs ≠ [] := by
  match fuel, cs with
  | 0, cs => simpa [interNameGo] using h
  | _ + 1, [] => exact absurd rfl h
  | fuel + 1, c :: rest =>
    unfold interNameGo
    by_cases hc : c.isLower
    · simp only [hc, if_true]
      match rest.dropWhile Char.isLower with
      | [] => simp
      | d :: tail => simp
    · simp [hc]

theorem strmk_ne_empty {cs : List Char} (h : cs ≠ []) : String.mk cs ≠ "" := by
  intro hh
  apply h
  simpa using congrArg String.data hh

theorem altNames_ne_empty {n a : String} (hshort : shortName n ≠ "")
    (ha : a ∈ altNames n) : a ≠ "" := by
  have hn : n ≠ "" := by
    intro h
    apply hshort
    rw [h]
    rfl
  have hnd : n.data ≠ [] := by
    intro h
    apply hn
    rw [show n = String.mk n.data from rfl, h]
  simp only [altNames, List.mem_cons, List.not_mem_nil, or_false] at ha
  rcases ha with rfl | rfl | rfl
  · exact hn
  · exact strmk_ne_empty (interNameGo_ne_nil hnd)
  · exact hshort

theorem spells_head_ne_empty {i : Nat} {cs : List (String × CmdTree)}
    {s : String} {rest : List String} {r : CmdTree}
    (hwf : (CmdTree.node i cs).WF) (h : Spells (CmdTree.node i cs) (s :: rest) r) :
    s ≠ "" := by
  cases h with
  | cons hmem halias hspell hdot htail =>
    rename_i c n a
    cases hwf with
    | node hdisj hshort hchild =>
      have hane : a ≠ "" := altNames_ne_empty (hshort (n, c) hmem) halias
      intro hs
      subst hs
      have : strLower a = "" := by
        rw [← hspell]; rfl
      apply hane
      cases a with
      | mk d =>
        have := congrArg String.data this
        simp [strLower] at this
        simp [this]

/-- Helper: on a well-formed tree, `locate` of any command whose
preprocessed segments spell `r` returns `some r`. -/
theorem locate_of_spells {t r : CmdTree} {cmd : String}
    (hwf : t.WF) (h : Spells t (pathElements cmd) r) :
    locate t cmd = some r := by
  have hloc : locate t cmd = (match pathElements cmd with
      | [] => some t
      | s :: _ => if s = "" then some t else resolveSegs t (pathElements cmd)) := rfl
  rcases hseg : pathElements cmd with _ | ⟨s, rest⟩
  · rw [hseg] at h
    cases h
    rw [hloc, hseg]
  · rw [hseg] at h
    have hres := resolveSegs_of_spells hwf h
    cases t with
    | node i cs =>
      have hne : s ≠ "" := spells_head_ne_empty hwf h
      rw [hloc, hseg]
      simp only [hne, if_false, if_neg hne]
      rw [← hseg] at hres ⊢
      exact hres

/-- **C2** (confirmed): *Resolution stability.*  On a fixed, well-formed
command tree, `locate` resolves to the same node for every spelling of
each path segment: if the preprocessed segments of two commands both
spell the node `r` — each segment being an upper/lower-case variation
(with optional trailing colons) of the primary class-derived name, the
intermediate-lowercase vowel-stripped alias, or the all-lowercase
stripped alias of the child followed — then both commands locate the
same node, namely `r`. -/
theorem c2_resolution_stability {t r : CmdTree} {cmd1 cmd2 : String}
    (hwf : t.WF)
    (h1 : Spells t (pathElements cmd1) r) (h2 : Spells t (pathElements cmd2) r) :
    locate t cmd1 = locate t cmd2 ∧ locate t cmd1 = some r := by
  have e1 := locate_of_spells hwf h1
  have e2 := locate_of_spells hwf h2
  exact ⟨e1.trans e2.symm, e1⟩

/-- A tiny concrete tree for the C2 witness: `LASer:POWer`. -/
def c2tree : CmdTree :=
  CmdTree.node 0 [("LASer", CmdTree.node 1 [("POWer", CmdTree.node 2 [])])]

theorem c2tree_wf : c2tree.WF := by
  refine CmdTree.WF.node ?_ ?_ ?_
  · exact List.pairwise_singleton _ _
  · intro p hp
    rcases List.mem_singleton.mp hp with rfl
    decide
  · intro p hp
    rcases List.mem_singleton.mp hp with rfl
    refine CmdTree.WF.node ?_ ?_ ?_
    · exact List.pairwise_singleton _ _
    · intro q hq
      rcases List.mem_singleton.mp hq with rfl
      decide
    · intro q hq
      rcases List.mem_singleton.mp hq with rfl
      exact CmdTree.WF.node (List.Pairwise.nil) (by intro x hx; cases hx) (by intro x hx; cases hx)

/-- Witness for C2: the full spelling `LASer:POWer` and the abbreviated
mixed-case spelling `las:POW:` locate the same node. -/
theorem c2_resolution_stability_witness :
    locate c2tree "LASer:POWer" = locate c2tree "las:POW:" ∧
    locate c2tree "LASer:POWer" = some (CmdTree.node 2 []) := by
  have h1 : Spells c2tree (pathElements "LASer:POWer") (CmdTree.node 2 []) := by
    have hseg : pathElements "LASer:POWer" = ["LASer", "POWer"] := by decide
    rw [hseg]
    refine Spells.cons (n := "LASer") (a := "LASer") (List.Mem.head _) ?_ (by decide)
      (by decide) ?_
    · decide
    · exact Spells.cons (n := "POWer") (a := "POWer") (List.Mem.head _) (by decide) (by decide)
        (by decide) (Spells.nil _)
  have h2 : Spells c2tree (pathElements "las:POW:") (CmdTree.node 2 []) := by
    have hseg : pathElements "las:POW:" = ["las", "POW"] := by decide
    rw [hseg]
    refine Spells.cons (n := "LASer") (a := "LAS") (List.Mem.head _) ?_ (by decide)
      (by decide) ?_
    · decide
    · exact Spells.cons (n := "POWer") (a := "POW") (List.Mem.head _) (by decide) (by decide)
        (by decide) (Spells.nil _)
  exact c2_resolution_stability c2tree_wf h1 h2

end Scpi

namespace Scpi

/-- **C8** (code bug): the claimed two-way name translation fails on the
code as written.  `scpiName` maps the plain identifier `FOO` (no
prefix, no suffix — both are optional in the claim) to the command
name `FOO`, but `className "FOO"` raises `KeyError('O')` instead of
returning `FOO`: the `try` block around `suffixRevMap[name[-1]]`
catches only `(IndexError, TypeError)`.  Likewise `className` raises
for every command name whose last character is not a suffix symbol
(`VERSion`) or whose first character is not `*` (`FOO?`), so
`scpiName(className(cmd)) == cmd` is unattainable for ordinary command
names; the translation only completes on commands that both start with
`*` and end with a suffix symbol. -/
theorem c8_name_translation_failure :
    scpiName "FOO" = "FOO" ∧
    className "FOO" = Except.error (PyErr.keyError "O") ∧
    className "VERSion" = Except.error (PyErr.keyError "n") ∧
    className "FOO?" = Except.error (PyErr.keyError "F") ∧
    className "*FOO=" = Except.ok "Common_FOO_Set" := by decide

/-! ## §C4: leaf invocation hook contract (`leaf.py`)

`Leaf.invoke`, `Leaf.execute` and `Leaf.invokeNext`.  The behaviors of
the user-supplied hooks are abstracted as `Beh` (return a value or
raise); `Leaf.execute` simply calls `run`, while the `Asynchronous` /
`Background` mix-ins may raise the `NextReply` control signal from
`execute` — both shapes are covered by an `execB` of
`Beh.exc (RunExc.nextReply _)`.  The model records the order in which
the hooks are entered. -/

/-- An exception escaping a hook: either the `NextReply` control
signal (carrying the deferred method and arguments, abstracted as a
list) or any other exception. -/
inductive RunExc where
  | nextReply (args : List Nat)
  | other (code : Nat)
deriving DecidableEq, Repr

/-- Behavior of one hook invocation. -/
inductive Beh where
  | ret (v : Nat)
  | exc (e : RunExc)
deriving DecidableEq, Repr

/-- Observable hook entries, in call order. -/
inductive HookEv where
  | prerunCall | runCall | postrunCall | deferredCall
deriving DecidableEq, Repr

/-- Result of `Leaf.invoke`: normal return, escaped exception, or the
re-raised `NextReply(self, self.invokeNext, ...)` handing the deferred
work to the session. -/
inductive InvokeOut where
  | ok (v : Nat)
  | raised (e : RunExc)
  | deferred (args : List Nat)
deriving DecidableEq, Repr

/-- `Leaf.invoke` (after `checkAccess`/`parseInputs`): call `prerun`;
if it raises, propagate without any further hook.  Otherwise run
`execute` inside `try`: on `NextReply` re-raise a `NextReply` that
defers `invokeNext` (no `postrun` yet); on any other exception call
`postrun` and re-raise; on normal return call `postrun` and return. -/
def invokeTrace (preB execB : Beh) : List HookEv × InvokeOut :=
  match preB with
  | .exc e => ([.prerunCall], .raised e)
  | .ret _ =>
    match execB with
    | .ret v => ([.prerunCall, .runCall, .postrunCall], .ok v)
    | .exc (.nextReply a) => ([.prerunCall, .runCall], .deferred a)
    | .exc (.other c) => ([.prerunCall, .runCall, .postrunCall], .raised (.other c))

/-- `Leaf.invokeNext`: run the deferred method inside `try ... finally
postrun`. -/
def invokeNextTrace (methodB : Beh) : List HookEv × InvokeOut :=
  match methodB with
  | .ret v => ([.deferredCall, .postrunCall], .ok v)
  | .exc e => ([.deferredCall, .postrunCall], .raised e)

/-- A complete invocation: `invoke`, then — if it deferred via
`NextReply` — the session eventually runs `invokeNext`. -/
def fullInvokeTrace (preB execB methodB : Beh) : List HookEv × InvokeOut :=
  match invokeTrace preB execB with
  | (tr, .deferred _) =>
    (tr ++ (invokeNextTrace methodB).1, (invokeNextTrace methodB).2)
  | (tr, out) => (tr, out)

/-- **C4** (confirmed): *Hook execution contract.*  If `prerun` raises,
neither `run` nor `postrun` is entered; if `prerun` returns normally,
`postrun` is entered exactly once on every exit path — normal return,
exception, or deferral via the `NextReply` signal, in which case
`postrun` runs only when the deferred method finishes. -/
theorem c4_hook_contract (preB execB methodB : Beh) :
    (∀ e, preB = .exc e →
      (fullInvokeTrace preB execB methodB).1.count HookEv.postrunCall = 0 ∧
      (fullInvokeTrace preB execB methodB).1.count HookEv.runCall = 0) ∧
    (∀ v, preB = .ret v →
      (fullInvokeTrace preB execB methodB).1.count HookEv.postrunCall = 1) ∧
    (∀ a, (invokeTrace preB execB).2 = .deferred a →
      (invokeTrace preB execB).1.count HookEv.postrunCall = 0) := by
  refine ⟨fun e he => ?_, fun v hv => ?_, fun a hd => ?_⟩
  · subst he
    cases execB with
    | ret v => exact ⟨rfl, rfl⟩
    | exc e2 => cases e2 <;> exact ⟨rfl, rfl⟩
  · subst hv
    cases execB with
    | ret w => rfl
    | exc e2 =>
      cases e2 with
      | nextReply a => cases methodB <;> rfl
      | other c => rfl
  · cases preB with
    | exc e => cases hd
    | ret v =>
      cases execB with
      | ret w => cases hd
      | exc e2 => cases e2 with
        | nextReply b => rfl
        | other c => cases hd

/-- Witness for C4 at concrete behaviors: `prerun` succeeds, `execute`
defers via `NextReply`, the deferred method raises — `postrun` still
runs exactly once. -/
theorem c4_hook_contract_witness :
    (fullInvokeTrace (Beh.ret 0) (Beh.exc (RunExc.nextReply [1]))
      (Beh.exc (RunExc.other 2))).1.count HookEv.postrunCall = 1 :=
  (c4_hook_contract (Beh.ret 0) (Beh.exc (RunExc.nextReply [1]))
    (Beh.exc (RunExc.other 2))).2.1 0 rfl

end Scpi

namespace Scpi

/-! ## §C5: exclusive-access safety (`client_session.py`, `base_session.py`)

`ClientSession.setAccessLevel`, `ClientSession.nonExclusiveLimit` and
`BaseSession.setAccessLevel`.  The process-wide state is the registry
of live client sessions (`BaseSession.instances`, restricted to
`ClientSession`s as by `getInstances(ClientSession)`) plus the single
class attribute `BaseSession.exclusive`, modelled as an optional
session identifier.  Access levels are the indices of
`AccessLevels = (Guest, Observer, Controller, Administrator, Full)`. -/

/-- The per-session access-control fields. -/
structure Sess where
  accessLevel : Nat
  accessLimit : Nat
  stealthAccess : Bool
deriving DecidableEq, Repr

/-- The process-wide access-control state. -/
structure AccState where
  /-- Live client sessions, keyed by session id. -/
  sessions : List (Nat × Sess)
  /-- `BaseSession.exclusive`: the session currently holding the
  exclusive grant, if any. -/
  excl : Option Nat
deriving DecidableEq, Repr

/-- Errors raised by `setAccessLevel`. -/
inductive AccErr where
  /-- `ClientSession.ExclusiveAccessGiven`. -/
  | exclusiveAccessGiven
  /-- `ClientSession.AccessGiven`. -/
  | accessGiven
  /-- `BaseSession.AccessLevelExceeded`. -/
  | accessLevelExceeded
  /-- The requester or the recorded exclusive holder is not in the
  registry (cannot happen in reachable states). -/
  | missingSession
deriving DecidableEq, Repr

/-- Replace the fields of session `sid`. -/
def updSession (ss : List (Nat × Sess)) (sid : Nat) (f : Sess → Sess) :
    List (Nat × Sess) :=
  ss.map (fun p => if p.1 = sid then (p.1, f p.2) else p)

/-- `BaseSession.setAccessLevel(self, level, exclusive, stealth)`:
check the `accessLimit`, store the level and stealth flag, then update
the exclusive slot — taken when `exclusive and not stealth`, released
when the requester previously held it. -/
def baseSetAccessLevel (st : AccState) (sid : Nat) (self : Sess)
    (level : Nat) (exclusive stealth : Bool) : Except AccErr AccState :=
  if level > self.accessLimit then
    throw AccErr.accessLevelExceeded
  else
    let sessions := updSession st.sessions sid
      (fun s => { s with accessLevel := level, stealthAccess := stealth })
    let excl :=
      if exclusive ∧ ¬ stealth then some sid
      else if st.excl = some sid then none
      else st.excl
    pure { sessions := sessions, excl := excl }

/-- The access level of the current exclusive holder
(`BaseSession.exclusive.accessLevel`); `0` when nobody holds the grant
(the expression is then short-circuited away in the source). -/
def exclHolderLevel (st : AccState) : Except AccErr Nat :=
  match st.excl with
  | none => pure 0
  | some hid =>
    match st.sessions.lookup hid with
    | some h => pure h.accessLevel
    | none => throw AccErr.missingSession

/-- `ClientSession.setAccessLevel(self, level, exclusive, stealth)`:
refuse when another session holds the exclusive grant and the request
is not stealth and either asks for exclusivity or for a level at or
above the holder's; refuse an exclusive request while any other
non-stealth client session sits at or above the requested level; then
delegate to `BaseSession.setAccessLevel`. -/
def setAccessLevel (st : AccState) (sid : Nat) (level : Nat)
    (exclusive stealth : Bool) : Except AccErr AccState :=
  match st.sessions.lookup sid with
  | none => throw AccErr.missingSession
  | some self =>
    match exclHolderLevel st with
    | .error e => .error e
    | .ok exclLevel =>
      if ¬ stealth ∧ ¬ (st.excl = some sid ∨ st.excl = none) ∧
          (exclusive ∨ level ≥ exclLevel) then
        .error AccErr.exclusiveAccessGiven
      else if exclusive ∧ st.sessions.any
          (fun p => p.1 ≠ sid ∧ p.2.accessLevel ≥ level ∧ ¬ p.2.stealthAccess) then
        .error AccErr.accessGiven
      else
        baseSetAccessLevel st sid self level exclusive stealth

/-- Session `sid` holds the exclusive grant in state `st`. -/
def holdsExclusive (st : AccState) (sid : Nat) : Prop :=
  st.excl = some sid

/-- **C5** (confirmed): *Exclusive-access safety.*
(1) At every state at most one session holds exclusive access — the
grant is a single process-wide slot.
(2) A request by a client session to set an access level with the
exclusive flag fails with an error whenever some other non-stealth
session currently holds access at or above the requested level.
(3) While the exclusive grant is held by another session, a
non-stealth session cannot obtain a level at or above the holder's
level: the request fails with an error. -/
theorem c5_exclusive_access_safety (st : AccState) (sid level : Nat)
    (exclusive stealth : Bool) :
    (∀ a b, holdsExclusive st a → holdsExclusive st b → a = b) ∧
    ((∃ p ∈ st.sessions, p.1 ≠ sid ∧ p.2.accessLevel ≥ level ∧ p.2.stealthAccess = false) →
      exclusive = true →
      ∃ e, setAccessLevel st sid level exclusive stealth = .error e) ∧
    (∀ hid h self, st.excl = some hid → hid ≠ sid →
      st.sessions.lookup sid = some self →
      st.sessions.lookup hid = some h →
      stealth = false → level ≥ h.accessLevel →
      setAccessLevel st sid level exclusive stealth = .error AccErr.exclusiveAccessGiven) := by
  refine ⟨?_, ?_, ?_⟩
  · intro a b ha hb
    unfold holdsExclusive at ha hb
    exact Option.some.inj (ha.symm.trans hb)
  · rintro ⟨p, hp, hne, hge, hst⟩ hex
    subst hex
    unfold setAccessLevel
    cases hself : st.sessions.lookup sid with
    | none => exact ⟨AccErr.missingSession, rfl⟩
    | some self =>
      have hany : st.sessions.any
          (fun q => q.1 ≠ sid ∧ q.2.accessLevel ≥ level ∧ ¬ q.2.stealthAccess) = true := by
        rw [List.any_eq_true]
        exact ⟨p, hp, by simp [hne, hge, hst]⟩
      cases hlev : exclHolderLevel st with
      | error e => exact ⟨e, by simp only [hself, hlev]⟩
      | ok exclLevel =>
        by_cases hb : ¬ (stealth = true) ∧ ¬ (st.excl = some sid ∨ st.excl = none) ∧
            (True ∨ level ≥ exclLevel)
        · exact ⟨AccErr.exclusiveAccessGiven, by simp only [hself, hlev]; rw [if_pos hb]⟩
        · refine ⟨AccErr.accessGiven, ?_⟩
          simp only [hself, hlev]
          rw [if_neg hb, if_pos (by exact ⟨trivial, hany⟩)]
  · intro hid h self hexc hne hself hhold hst hge
    have hlev : exclHolderLevel st = .ok h.accessLevel := by
      simp only [exclHolderLevel, hexc, hhold]
      rfl
    unfold setAccessLevel
    simp only [hself, hlev]
    rw [if_pos]
    refine ⟨by simp [hst], ?_, Or.inr hge⟩
    rw [hexc]
    simp only [not_or]
    exact ⟨by simpa using fun hcontra => hne hcontra, by simp⟩

end Scpi

namespace Scpi

/-- Witness for C5 at a concrete state: session 2 holds the exclusive
grant at level 3; non-stealth session 1 asking for level 3 fails, and
the exclusive holder is unique. -/
theorem c5_exclusive_access_safety_witness :
    setAccessLevel
      { sessions := [(1, ⟨2, 4, false⟩), (2, ⟨3, 4, false⟩)], excl := some 2 }
      1 3 false false = .error AccErr.exclusiveAccessGiven :=
  (c5_exclusive_access_safety
      { sessions := [(1, ⟨2, 4, false⟩), (2, ⟨3, 4, false⟩)], excl := some 2 }
      1 3 false false).2.2 2 ⟨3, 4, false⟩ ⟨2, 4, false⟩
    rfl (by decide) rfl rfl rfl (by decide)

/-! ## §C6 / §C9: publish/subscribe bus (`publication.py`)

Module state `_subscriptions` / `_delayedMessages` / `_futureFilters` /
`MinSubscriptionLevel` and the functions `addTopic`, `getSubscribers`,
`publishMessage`, `_publishMessage`, `publishPending`, `subscribe`,
`unsubscribe`, `_removeSubscriptions`.  Callbacks are identified by a
numeric id with their bound extra arguments; invoking a callback is
recorded as a delivery event (callback behaviors, including the
`StopIteration` early stop, are outside the queueing logic under
test).  Compiled patterns are identified with their source masks
(`_compile` is injective on masks, and both `x == rx` on the
interpreter's cached pattern objects and `rx2.pattern == rx.pattern`
coincide with mask equality); only the default glob (`fnmatch`) path
is modelled, as used by the session layer. -/

/-- A subscription record `(mask, level, callback, args)`. -/
structure SubRec where
  mask : String
  level : Nat
  cb : Nat
  args : List String
deriving DecidableEq, Repr

/-- One topic registration `(topic, level, subscribers)`. -/
structure TopicRec where
  topic : String
  level : Nat
  subscribers : List SubRec
deriving DecidableEq, Repr

/-- The fields of a `Message` used by the publication machinery. -/
structure Msg where
  topic : String
  level : Nat
  content : Nat
deriving DecidableEq, Repr

/-- Python objects stored in the `_delayedMessages` tuples. -/
inductive PyObj where
  | str (s : String)
  | msg (m : Msg)
  | subs (rs : List (Nat × List String))
  | pair (a b : PyObj)
deriving DecidableEq, Repr

/-- Errors out of the publication module. -/
inductive PubErr where
  | noSuchTopic (topic : String)
  | py (e : PyErr)
deriving DecidableEq, Repr

/-- The publication module state. -/
structure PubState where
  /-- `_subscriptions`: lowercased topic key to `(topic, level, subscribers)`. -/
  subscriptions : List (String × TopicRec)
  /-- `_delayedMessages`: the pending queue; each entry is the tuple
  appended by `publishMessage`. -/
  delayed : List (List PyObj)
  /-- `_futureFilters`: compiled mask to subscription records. -/
  futureFilters : List (String × List SubRec)
  /-- `MinSubscriptionLevel`. -/
  minSubscriptionLevel : Nat
deriving DecidableEq, Repr

/-- Case-insensitive full-string glob match (`re.match` of
`fnmatch.translate(pattern)` with `re.I`, which is `\Z`-anchored);
fuel-driven worker over already lowercased characters. -/
def globGo : Nat → List Char → List Char → Bool
  | 0, _, _ => false
  | _ + 1, [], t => t.isEmpty
  | fuel + 1, '*' :: ps, t =>
    globGo fuel ps t ||
      (match t with
       | [] => false
       | _ :: ts => globGo fuel ('*' :: ps) ts)
  | fuel + 1, '?' :: ps, t =>
    (match t with
     | [] => false
     | _ :: ts => globGo fuel ps ts)
  | fuel + 1, p :: ps, t =>
    (match t with
     | [] => false
     | c :: ts => p = c && globGo fuel ps ts)

/-- `_compile(mask).match(text)` for the default glob path (`*` and `?`
wildcards; bracket classes do not occur on the modelled paths). -/
def globMatch (pattern text : String) : Bool :=
  let p := (strLower pattern).data
  let t := (strLower text).data
  globGo (p.length + t.length + 1) p t

/-- `_wildcardMagic.search(mask) is not None`. -/
def isWildcard (mask : String) : Bool :=
  mask.data.any (fun c => c = '*' || c = '?' || c = '[')

/-- Store `rec` under `key` with Python-dict semantics: overwrite in
place if present, else append. -/
def setTopic (subs : List (String × TopicRec)) (key : String) (rec : TopicRec) :
    List (String × TopicRec) :=
  if (subs.lookup key).isSome then
    subs.map (fun p => if p.1 = key then (key, rec) else p)
  else
    subs ++ [(key, rec)]

/-- `addTopic(topic, level)`: reuse the subscriber list of an existing
registration (overwriting its displayed topic and level), otherwise
seed the list from the matching future filters; store and return the
record. -/
def addTopic (st : PubState) (topic : String) (level : Nat) :
    PubState × TopicRec :=
  let t := strLower topic
  let subscribers :=
    match st.subscriptions.lookup t with
    | some old => old.subscribers
    | none => (st.futureFilters.filter (fun f => globMatch f.1 topic)).flatMap (fun f => f.2)
  let record : TopicRec := ⟨topic, level, subscribers⟩
  ({ st with subscriptions := setTopic st.subscriptions t record }, record)

/-- `getSubscribers(topic, level, ignoreMissing, createMissing)` for a
non-`None` level, as called by `publishMessage`: look up or create the
topic, then snapshot the `(callback, args)` pairs whose cutoff is at or
below the message level. -/
def getSubscribers (st : PubState) (topic : String) (level : Nat)
    (ignoreMissing createMissing : Bool) :
    Except PubErr (PubState × List (Nat × List String)) :=
  let t := strLower topic
  match st.subscriptions.lookup t with
  | some record =>
    .ok (st, (record.subscribers.filter (fun r => r.level ≤ level)).map (fun r => (r.cb, r.args)))
  | none =>
    if createMissing then
      let (st2, record) := addTopic st topic level
      .ok (st2, (record.subscribers.filter (fun r => r.level ≤ level)).map (fun r => (r.cb, r.args)))
    else if ignoreMissing then
      .ok (st, [])
    else
      .error (PubErr.noSuchTopic topic)

/-- A delivery event: `callback(message, *args)`. -/
def deliveries (m : Msg) (subscribers : List (Nat × List String)) :
    List (Nat × List String × Msg) :=
  subscribers.map (fun r => (r.1, r.2, m))

/-- `publishMessage(message, trigger, createMissing)`: below
`MinSubscriptionLevel` the message is dropped; with a truthy trigger
the tuple `(trigger.lower(), message, subscribers)` is appended to the
pending queue; otherwise the message is dispatched immediately. -/
def publishMessage (st : PubState) (m : Msg) (trigger : Option String)
    (createMissing : Bool) :
    Except PubErr (PubState × List (Nat × List String × Msg)) :=
  if m.level ≥ st.minSubscriptionLevel then
    match getSubscribers st m.topic m.level false createMissing with
    | .error e => .error e
    | .ok (st2, subscribers) =>
      match trigger with
      | some tg =>
        if tg = "" then
          .ok (st2, deliveries m subscribers)
        else
          .ok ({ st2 with delayed := st2.delayed ++
            [[PyObj.str (strLower tg), PyObj.msg m, PyObj.subs subscribers]] }, [])
      | none => .ok (st2, deliveries m subscribers)
  else
    .ok (st, [])

/-- Python tuple unpacking `a, b = entry` of a list/tuple value:
anything but exactly two elements raises `ValueError`. -/
def unpack2 (entry : List PyObj) : Except PubErr (PyObj × PyObj) :=
  match entry with
  | [a, b] => .ok (a, b)
  | _ => .error (PubErr.py (PyErr.valueError "unpack"))

/-- `_publishMessage(*m)`: the star-call expects `m` to be the pair
`(message, subscribers)`. -/
def starPublish (mObj : PyObj) : Except PubErr (List (Nat × List String × Msg)) :=
  match mObj with
  | PyObj.pair (PyObj.msg m) (PyObj.subs s) => .ok (deliveries m s)
  | _ => .error (PubErr.py PyErr.typeError)

/-- Worker for `publishPending`: the `for t, m in _delayedMessages`
loop with its `remaining` accumulator. -/
def publishPendingGo (tl : String) :
    List (List PyObj) → Except PubErr (Nat × List (List PyObj) × List (Nat × List String × Msg))
  | [] => .ok (0, [], [])
  | entry :: rest =>
    match unpack2 entry with
    | .error e => .error e
    | .ok (tObj, mObj) =>
      match tObj with
      | PyObj.str t =>
        if tl = "" ∨ tl = t then
          match starPublish mObj with
          | .error e => .error e
          | .ok ds =>
            match publishPendingGo tl rest with
            | .error e => .error e
            | .ok (n, rem, ds') => .ok (n + 1, rem, ds ++ ds')
        else
          match publishPendingGo tl rest with
          | .error e => .error e
          | .ok (n, rem, ds') => .ok (n, entry :: rem, ds')
      | _ => .error (PubErr.py PyErr.typeError)

/-- `publishPending(trigger)`: deliver and drop every queued entry
whose tag matches (every entry when the trigger is empty), keep the
rest.  An exception leaves `_delayedMessages` unchanged, since the
final `_delayedMessages[:] = remaining` assignment is never reached. -/
def publishPending (st : PubState) (trigger : Option String) :
    Except PubErr (Nat × PubState × List (Nat × List String × Msg)) :=
  let tl := strLower (trigger.getD "")
  match publishPendingGo tl st.delayed with
  | .error e => .error e
  | .ok (n, rem, ds) => .ok (n, { st with delayed := rem }, ds)

end Scpi

namespace Scpi

theorem char_ofNat_toNat {n : Nat} (h : n < 0xd800) : (Char.ofNat n).toNat = n := by
  unfold Char.ofNat
  rw [dif_pos (Or.inl h)]
  rfl

theorem char_toLower_idem (c : Char) : c.toLower.toLower = c.toLower := by
  show (let n := (Char.toLower c).toNat;
    if n ≥ 65 ∧ n ≤ 90 then Char.ofNat (n + 32) else Char.toLower c) = Char.toLower c
  by_cases h : c.toNat ≥ 65 ∧ c.toNat ≤ 90
  · have hl : Char.toLower c = Char.ofNat (c.toNat + 32) := by
      show (let n := c.toNat;
        if n ≥ 65 ∧ n ≤ 90 then Char.ofNat (n + 32) else c) = Char.ofNat (c.toNat + 32)
      simp [h]
    have hv : (Char.ofNat (c.toNat + 32)).toNat = c.toNat + 32 :=
      char_ofNat_toNat (by omega)
    rw [hl]
    simp only [hv]
    rw [if_neg (by omega)]
  · have hl : Char.toLower c = c := by
      show (let n := c.toNat;
        if n ≥ 65 ∧ n ≤ 90 then Char.ofNat (n + 32) else c) = c
      simp [h]
    rw [hl]
    simp only
    rw [if_neg h]

theorem strLower_idem (s : String) : strLower (strLower s) = strLower s := by
  unfold strLower
  simp only [List.map_map]
  congr 1
  exact List.map_congr_left (fun c _ => char_toLower_idem c)

/-- A key that is the lowercasing of some topic lowers to itself, so
matching against the displayed topic and against the key coincide. -/
theorem globMatch_strLower (mask s : String) :
    globMatch mask (strLower s) = globMatch mask s := by
  unfold globMatch
  rw [strLower_idem]

end Scpi

namespace Scpi

/-- `_matchingCallback(record, callback, args)`: the callback is equal
and `args` is `None` or equal to the record's bound arguments. -/
def matchesCb (cb : Nat) (args : Option (List String)) (r : SubRec) : Bool :=
  r.cb = cb && (args = none || args = some r.args)

/-- `unsubscribe(mask, callback, args)` (glob path) together with
`_removeSubscriptions`: drop every matching record from the subscriber
list of every topic whose displayed topic matches the mask and from
every future filter whose pattern equals the mask; prune all future
filters whose record list is empty.  Returns the number of records
removed and the new state. -/
def unsubscribe (st : PubState) (mask : String) (cb : Nat)
    (args : Option (List String)) : Nat × PubState :=
  let removedTopics := (st.subscriptions.map (fun p =>
      if globMatch mask p.2.topic then
        (p.2.subscribers.filter (fun r => matchesCb cb args r)).length
      else 0)).sum
  let removedFilters := (st.futureFilters.map (fun f =>
      if f.1 = mask then (f.2.filter (fun r => matchesCb cb args r)).length else 0)).sum
  let subscriptions := st.subscriptions.map (fun p =>
      if globMatch mask p.2.topic then
        (p.1, { p.2 with subscribers := p.2.subscribers.filter (fun r => !matchesCb cb args r) })
      else p)
  let filters0 := st.futureFilters.map (fun f =>
      if f.1 = mask then (f.1, f.2.filter (fun r => !matchesCb cb args r)) else f)
  (removedTopics + removedFilters,
   { st with subscriptions := subscriptions,
             futureFilters := filters0.filter (fun f => !f.2.isEmpty) })

/-- Append a record to the first future filter with the given pattern
(the `for x, records in _futureFilters: ... break` loop). -/
def appendFirstFilter : List (String × List SubRec) → String → SubRec →
    List (String × List SubRec)
  | [], _, _ => []
  | f :: fs, mask, r =>
    if f.1 = mask then (f.1, f.2 ++ [r]) :: fs else f :: appendFirstFilter fs mask r

/-- The `for name, subscriptiondata in list(_subscriptions.items())`
loop of `subscribe`: append the record to the subscriber list of every
topic whose key matches the mask. -/
def appendMatching (st : PubState) (mask : String) (record : SubRec) : PubState :=
  { st with subscriptions := st.subscriptions.map (fun p =>
      if globMatch mask p.1 then
        (p.1, { p.2 with subscribers := p.2.subscribers ++ [record] })
      else p) }

/-- The `count` accumulated by that loop. -/
def matchCount (st : PubState) (mask : String) : Nat :=
  (st.subscriptions.filter (fun p => globMatch mask p.1)).length

/-- The `if not count:` fallback of `subscribe`: with `createMissing`
and a non-wildcard mask, call `addTopic(name)` — where `name` is the
leftover loop variable, i.e. the *last* key of `_subscriptions`, or
unbound (`NameError`) when there are no topics at all — and append the
record to that (unrelated) topic; otherwise raise `NoSuchTopic` unless
a future or ignore-missing subscription was requested. -/
def registerMissing (st2 : PubState) (mask : String) (record : SubRec)
    (createMissing ignoreMissing iswild future : Bool) :
    Except PubErr (Nat × PubState) :=
  if createMissing && !iswild then
    match (st2.subscriptions.map (fun p => p.1)).getLast? with
    | none => .error (PubErr.py (PyErr.nameError "name"))
    | some name =>
      let st3 := (addTopic st2 name 1).1
      .ok (1, { st3 with subscriptions := st3.subscriptions.map (fun p =>
          if p.1 = strLower name then
            (p.1, { p.2 with subscribers := p.2.subscribers ++ [record] })
          else p) })
  else if !future && !ignoreMissing then
    .error (PubErr.noSuchTopic mask)
  else
    .ok (0, st2)

/-- The `if future:` block of `subscribe`: append the record to the
first future filter with the same compiled pattern, or start a new
filter entry. -/
def registerFuture (st : PubState) (mask : String) (record : SubRec) : PubState :=
  if (st.futureFilters.filter (fun f => f.1 = mask)).isEmpty then
    { st with futureFilters := st.futureFilters ++ [(mask, [record])] }
  else
    { st with futureFilters := appendFirstFilter st.futureFilters mask record }

/-- `subscribe(mask, level, callback, args, ignoreMissing,
createMissing, future, regex=False)`: build the record, `unsubscribe`
the same `(mask, callback, args)` first, append the record to every
matching topic, fall back to `registerMissing` when nothing matched,
lower `MinSubscriptionLevel`, and finally register the record under
the future filters when requested.  Returns the match count and the
new state (partial mutations are kept when an exception is raised, as
in the source). -/
def subscribe (st : PubState) (mask : String) (level : Nat) (cb : Nat)
    (args : List String) (ignoreMissing createMissing : Bool)
    (future? : Option Bool) : Except PubErr Nat × PubState :=
  let record : SubRec := ⟨mask, level, cb, args⟩
  let st1 := (unsubscribe st mask cb (some args)).2
  let iswild := isWildcard mask
  let future := future?.getD iswild
  let count := matchCount st1 mask
  let st2 := appendMatching st1 mask record
  let r3 : Except PubErr (Nat × PubState) :=
    if count = 0 then
      registerMissing st2 mask record createMissing ignoreMissing iswild future
    else
      .ok (count, st2)
  match r3 with
  | .error e => (.error e, st2)
  | .ok (count, st5) =>
    let st6 := if 0 < count ∧ level < st5.minSubscriptionLevel then
        { st5 with minSubscriptionLevel := level }
      else st5
    let st7 := if future then registerFuture st6 mask record else st6
    (.ok count, st7)

/-- Number of records for callback `cb` with bound arguments `args` in
a subscriber list. -/
def countMatching (rs : List SubRec) (cb : Nat) (args : List String) : Nat :=
  (rs.filter (fun r => r.cb = cb && r.args = args)).length

end Scpi

namespace Scpi

/-- **C6** (code bug): *Delayed-trigger publication.*  For a topic with
a subscriber, `publish` with a trigger tag does append the message to
the pending queue instead of dispatching — but the entry appended is
the 3-tuple `(trigger.lower(), message, subscribers)`, while
`publishPending` (like `getTriggers` and `getPending`) unpacks queue
entries as 2-tuples `for t, m in _delayedMessages`.  A subsequent
`publishPending(tag)` therefore raises
`ValueError: too many values to unpack` instead of delivering the
queued message. -/
theorem c6_delayed_trigger_code_bug :
    publishMessage ⟨[("t", ⟨"t", 1, [⟨"t", 1, 7, []⟩]⟩)], [], [], 1⟩
        ⟨"t", 2, 0⟩ (some "g") true =
      .ok (⟨[("t", ⟨"t", 1, [⟨"t", 1, 7, []⟩]⟩)],
            [[PyObj.str "g", PyObj.msg ⟨"t", 2, 0⟩, PyObj.subs [(7, [])]]], [], 1⟩, []) ∧
    publishPending
        ⟨[("t", ⟨"t", 1, [⟨"t", 1, 7, []⟩]⟩)],
          [[PyObj.str "g", PyObj.msg ⟨"t", 2, 0⟩, PyObj.subs [(7, [])]]], [], 1⟩
        (some "g") =
      .error (PubErr.py (PyErr.valueError "unpack")) := by
  constructor
  · rfl
  · rfl

end Scpi

namespace Scpi

theorem matchesCb_some (cb : Nat) (args : List String) (r : SubRec) :
    matchesCb cb (some args) r = (r.cb = cb && r.args = args) := by
  unfold matchesCb
  by_cases h1 : r.cb = cb
  · by_cases h2 : r.args = args
    · simp [h1, h2]
    · simp [h1, h2]
      intro hh
      exact h2 hh.symm
  · simp [h1]

theorem countMatching_filter_out (rs : List SubRec) (cb : Nat) (args : List String) :
    countMatching (rs.filter (fun r => !matchesCb cb (some args) r)) cb args = 0 := by
  unfold countMatching
  rw [List.length_eq_zero, List.filter_filter]
  apply List.filter_eq_nil_iff.mpr
  intro r _
  rw [matchesCb_some]
  by_cases h : (r.cb = cb && r.args = args : Bool) <;> simp [h]

theorem countMatching_append_rec (rs : List SubRec) (mask : String) (level : Nat)
    (cb : Nat) (args : List String) :
    countMatching (rs ++ [⟨mask, level, cb, args⟩]) cb args =
      countMatching rs cb args + 1 := by
  unfold countMatching
  rw [List.filter_append]
  simp

/-- `unsubscribe` keeps keys and displayed topics. -/
theorem unsubscribe_mem_subscriptions {st : PubState} {mask : String} {cb : Nat}
    {args : Option (List String)} {p : String × TopicRec}
    (hp : p ∈ (unsubscribe st mask cb args).2.subscriptions) :
    ∃ q ∈ st.subscriptions, p.1 = q.1 ∧ p.2.topic = q.2.topic ∧
      (p.2.subscribers = q.2.subscribers ∨
       p.2.subscribers = q.2.subscribers.filter (fun r => !matchesCb cb args r)) := by
  rcases List.mem_map.mp hp with ⟨q, hq, rfl⟩
  by_cases h : globMatch mask q.2.topic
  · exact ⟨q, hq, by simp [h], by simp [h], Or.inr (by simp [h])⟩
  · exact ⟨q, hq, by simp [h], by simp [h], Or.inl (by simp [h])⟩

/-- After `unsubscribe(mask, cb, args)`, no topic matching the mask
retains a record for `(cb, args)` (keys are lowercased topics). -/
theorem unsubscribe_zeroes {st : PubState} {mask : String} {cb : Nat}
    {args : List String}
    (hkeys : ∀ p ∈ st.subscriptions, strLower p.2.topic = p.1) :
    ∀ p ∈ (unsubscribe st mask cb (some args)).2.subscriptions,
      globMatch mask p.1 = true → countMatching p.2.subscribers cb args = 0 := by
  intro p hp hm
  rcases List.mem_map.mp hp with ⟨q, hq, rfl⟩
  by_cases h : globMatch mask q.2.topic
  · simp only [h, if_true]
    exact countMatching_filter_out q.2.subscribers cb args
  · exfalso
    rw [if_neg h] at hm
    rw [← hkeys q hq, globMatch_strLower] at hm
    exact h hm

/-- `unsubscribe` also preserves the key/topic relationship. -/
theorem unsubscribe_hkeys {st : PubState} {mask : String} {cb : Nat}
    {args : Option (List String)}
    (hkeys : ∀ p ∈ st.subscriptions, strLower p.2.topic = p.1) :
    ∀ p ∈ (unsubscribe st mask cb args).2.subscriptions, strLower p.2.topic = p.1 := by
  intro p hp
  rcases unsubscribe_mem_subscriptions hp with ⟨q, hq, h1, h2, _⟩
  rw [h1, h2]
  exact hkeys q hq

/-- After `unsubscribe(mask, cb, args)`, the future filters whose
pattern equals the mask hold no record for `(cb, args)`. -/
theorem unsubscribe_filters_zero {st : PubState} {mask : String} {cb : Nat}
    {args : List String} :
    (((((unsubscribe st mask cb (some args)).2.futureFilters).filter
        (fun f => f.1 = mask)).flatMap (fun f => f.2)).filter
        (fun r => r.cb = cb && r.args = args)) = [] := by
  apply List.filter_eq_nil_iff.mpr
  intro r hr
  rcases List.mem_flatMap.mp hr with ⟨f, hf, hrf⟩
  have hf1 := List.of_mem_filter hf
  have hfmem := List.mem_of_mem_filter hf
  rcases List.mem_filter.mp hfmem with ⟨hfmem2, _⟩
  rcases List.mem_map.mp hfmem2 with ⟨g, hg, hgf⟩
  by_cases h : g.1 = mask
  · rw [← hgf] at hrf
    simp only [h, if_true] at hrf
    have := List.of_mem_filter hrf
    rw [matchesCb_some] at this
    simp only [Bool.not_eq_true'] at this
    rw [this]
    simp
  · exfalso
    rw [← hgf] at hf1
    simp only [h, if_false] at hf1
    simp at hf1

end Scpi

namespace Scpi

theorem countMatching_append (l1 l2 : List SubRec) (cb : Nat) (args : List String) :
    countMatching (l1 ++ l2) cb args = countMatching l1 cb args + countMatching l2 cb args := by
  unfold countMatching
  rw [List.filter_append, List.length_append]

theorem countMatching_single (r : SubRec) (cb : Nat) (args : List String) :
    countMatching [r] cb args ≤ 1 := by
  unfold countMatching
  by_cases h1 : r.cb = cb <;> by_cases h2 : r.args = args <;> simp [h1, h2]

theorem appendMatching_le_one {st1 : PubState} {mask : String} {level : Nat}
    {cb : Nat} {args : List String}
    (h0 : ∀ p ∈ st1.subscriptions, globMatch mask p.1 = true →
      countMatching p.2.subscribers cb args = 0) :
    ∀ p ∈ (appendMatching st1 mask ⟨mask, level, cb, args⟩).subscriptions,
      globMatch mask p.1 = true → countMatching p.2.subscribers cb args ≤ 1 := by
  intro p hp hm
  rcases List.mem_map.mp hp with ⟨q, hq, rfl⟩
  by_cases h : globMatch mask q.1
  · rw [if_pos h] at hm ⊢
    show countMatching (q.2.subscribers ++ [⟨mask, level, cb, args⟩]) cb args ≤ 1
    rw [countMatching_append_rec, h0 q hq h]
  · rw [if_neg h] at hm ⊢
    rw [h0 q hq hm]
    exact Nat.zero_le 1

theorem appendMatching_keys (st : PubState) (mask : String) (record : SubRec) :
    (appendMatching st mask record).subscriptions.map (fun p => p.1) =
      st.subscriptions.map (fun p => p.1) := by
  show (st.subscriptions.map _).map _ = _
  rw [List.map_map]
  apply List.map_congr_left
  intro p _
  by_cases h : globMatch mask p.1 <;> simp [h]

theorem lookup_isSome_of_mem {l : List (String × TopicRec)} {p : String × TopicRec}
    (hp : p ∈ l) : (l.lookup p.1).isSome := by
  induction l with
  | nil => cases hp
  | cons q l ih =>
    rcases List.mem_cons.mp hp with rfl | hp2
    · simp [List.lookup]
    · by_cases hq : (p.1 == q.1)
      · simp [List.lookup, hq]
      · simp only [List.lookup, hq]
        exact ih hp2

theorem lookup_isSome_of_mem_keys {l : List (String × TopicRec)} {k : String}
    (h : k ∈ l.map (fun p => p.1)) : (l.lookup k).isSome := by
  rcases List.mem_map.mp h with ⟨p, hp, rfl⟩
  exact lookup_isSome_of_mem hp

theorem setTopic_keys_of_isSome {subs : List (String × TopicRec)} {key : String}
    (h : (subs.lookup key).isSome) (record : TopicRec) :
    (setTopic subs key record).map (fun p => p.1) = subs.map (fun p => p.1) := by
  unfold setTopic
  rw [if_pos h]
  rw [List.map_map]
  apply List.map_congr_left
  intro p _
  by_cases hp : p.1 = key <;> simp [hp]

theorem registerMissing_ok_keys {st2 : PubState} {mask : String} {record : SubRec}
    {cm im iw fut : Bool} {n : Nat} {st' : PubState}
    (hkeys2 : ∀ p ∈ st2.subscriptions, strLower p.2.topic = p.1)
    (h : registerMissing st2 mask record cm im iw fut = .ok (n, st')) :
    st'.subscriptions.map (fun p => p.1) = st2.subscriptions.map (fun p => p.1) := by
  unfold registerMissing at h
  by_cases h1 : (cm && !iw : Bool)
  · rw [if_pos h1] at h
    cases hlast : (st2.subscriptions.map (fun p => p.1)).getLast? with
    | none => rw [hlast] at h; cases h
    | some name =>
      rw [hlast] at h
      have hmem : name ∈ st2.subscriptions.map (fun p => p.1) :=
        List.mem_of_mem_getLast? hlast
      have hname : strLower name = name := by
        rcases List.mem_map.mp hmem with ⟨q, hq, rfl⟩
        rw [← hkeys2 q hq, strLower_idem]
      cases h
      show ((setTopic st2.subscriptions (strLower name) _).map _).map _ = _
      rw [List.map_map]
      have hsome : (st2.subscriptions.lookup (strLower name)).isSome := by
        rw [hname]
        exact lookup_isSome_of_mem_keys hmem
      calc ((setTopic st2.subscriptions (strLower name) _).map _)
          = (setTopic st2.subscriptions (strLower name) _).map (fun p => p.1) := by
            apply List.map_congr_left
            intro p _
            by_cases hp : p.1 = strLower name <;> simp [hp]
        _ = st2.subscriptions.map (fun p => p.1) := setTopic_keys_of_isSome hsome _
  · rw [if_neg h1] at h
    by_cases h2 : (!fut && !im : Bool)
    · rw [if_pos h2] at h; cases h
    · rw [if_neg h2] at h
      cases h
      rfl

theorem registerMissing_ok_filters {st2 : PubState} {mask : String} {record : SubRec}
    {cm im iw fut : Bool} {n : Nat} {st' : PubState}
    (h : registerMissing st2 mask record cm im iw fut = .ok (n, st')) :
    st'.futureFilters = st2.futureFilters := by
  unfold registerMissing at h
  by_cases h1 : (cm && !iw : Bool)
  · rw [if_pos h1] at h
    cases hlast : (st2.subscriptions.map (fun p => p.1)).getLast? with
    | none => rw [hlast] at h; cases h
    | some name =>
      rw [hlast] at h
      cases h
      rfl
  · rw [if_neg h1] at h
    by_cases h2 : (!fut && !im : Bool)
    · rw [if_pos h2] at h; cases h
    · rw [if_neg h2] at h
      cases h
      rfl

end Scpi

namespace Scpi

theorem appendFirstFilter_count_le (fs : List (String × List SubRec)) (mask : String)
    (record : SubRec) (cb : Nat) (args : List String) :
    countMatching (((appendFirstFilter fs mask record).filter
        (fun f => f.1 = mask)).flatMap (fun f => f.2)) cb args ≤
      countMatching ((fs.filter (fun f => f.1 = mask)).flatMap (fun f => f.2)) cb args + 1 := by
  induction fs with
  | nil =>
    simp [appendFirstFilter, countMatching]
  | cons f fs ih =>
    unfold appendFirstFilter
    by_cases h : f.1 = mask
    · rw [if_pos h]
      rw [List.filter_cons_of_pos (by simpa using h),
          List.filter_cons_of_pos (by simpa using h)]
      rw [List.flatMap_cons, List.flatMap_cons]
      rw [countMatching_append, countMatching_append, countMatching_append]
      have := countMatching_single record cb args
      omega
    · rw [if_neg h]
      rw [List.filter_cons_of_neg (by simpa using h),
          List.filter_cons_of_neg (by simpa using h)]
      exact ih

theorem registerFuture_count_le {st : PubState} {mask : String} {record : SubRec}
    {cb : Nat} {args : List String}
    (h0 : countMatching ((st.futureFilters.filter (fun f => f.1 = mask)).flatMap
      (fun f => f.2)) cb args = 0) :
    countMatching (((registerFuture st mask record).futureFilters.filter
      (fun f => f.1 = mask)).flatMap (fun f => f.2)) cb args ≤ 1 := by
  unfold registerFuture
  by_cases he : (st.futureFilters.filter (fun f => f.1 = mask)).isEmpty
  · rw [if_pos he]
    show countMatching (((st.futureFilters ++ [(mask, [record])]).filter
      (fun f => f.1 = mask)).flatMap (fun f => f.2)) cb args ≤ 1
    rw [List.filter_append, List.flatMap_append, countMatching_append, h0]
    rw [List.filter_cons_of_pos (by simp)]
    simp only [List.filter_nil, List.flatMap_cons, List.flatMap_nil, List.append_nil]
    have := countMatching_single record cb args
    omega
  · rw [if_neg he]
    show countMatching (((appendFirstFilter st.futureFilters mask record).filter
      (fun f => f.1 = mask)).flatMap (fun f => f.2)) cb args ≤ 1
    have := appendFirstFilter_count_le st.futureFilters mask record cb args
    omega

theorem registerFuture_subscriptions (st : PubState) (mask : String) (record : SubRec) :
    (registerFuture st mask record).subscriptions = st.subscriptions := by
  unfold registerFuture
  by_cases he : (st.futureFilters.filter (fun f => f.1 = mask)).isEmpty
  · rw [if_pos he]
  · rw [if_neg he]

theorem minSubUpd_subscriptions (c : Prop) [Decidable c] (s : PubState) (l : Nat) :
    (if c then { s with minSubscriptionLevel := l } else s).subscriptions =
      s.subscriptions := by
  by_cases h : c
  · rw [if_pos h]
  · rw [if_neg h]

theorem minSubUpd_filters (c : Prop) [Decidable c] (s : PubState) (l : Nat) :
    (if c then { s with minSubscriptionLevel := l } else s).futureFilters =
      s.futureFilters := by
  by_cases h : c
  · rw [if_pos h]
  · rw [if_neg h]

theorem matchCount_zero {st : PubState} {mask : String}
    (h : matchCount st mask = 0) :
    ∀ p ∈ st.subscriptions, globMatch mask p.1 = false := by
  intro p hp
  unfold matchCount at h
  rw [List.length_eq_zero] at h
  by_cases hm : globMatch mask p.1
  · exfalso
    have : p ∈ st.subscriptions.filter (fun p => globMatch mask p.1) :=
      List.mem_filter.mpr ⟨hp, hm⟩
    rw [h] at this
    cases this
  · simpa using hm

end Scpi

namespace Scpi

theorem subscribe_eq (st : PubState) (mask : String) (level : Nat) (cb : Nat)
    (args : List String) (im cm : Bool) (fut : Option Bool) :
    subscribe st mask level cb args im cm fut =
      (match (if matchCount (unsubscribe st mask cb (some args)).2 mask = 0 then
          registerMissing
            (appendMatching (unsubscribe st mask cb (some args)).2 mask ⟨mask, level, cb, args⟩)
            mask ⟨mask, level, cb, args⟩ cm im (isWildcard mask) (fut.getD (isWildcard mask))
        else .ok (matchCount (unsubscribe st mask cb (some args)).2 mask,
          appendMatching (unsubscribe st mask cb (some args)).2 mask ⟨mask, level, cb, args⟩)) with
      | .error e =>
        (.error e,
          appendMatching (unsubscribe st mask cb (some args)).2 mask ⟨mask, level, cb, args⟩)
      | .ok (count, st5) =>
        (.ok count,
          if fut.getD (isWildcard mask) then
            registerFuture
              (if 0 < count ∧ level < st5.minSubscriptionLevel then
                { st5 with minSubscriptionLevel := level } else st5)
              mask ⟨mask, level, cb, args⟩
          else
            (if 0 < count ∧ level < st5.minSubscriptionLevel then
              { st5 with minSubscriptionLevel := level } else st5))) := rfl

/-- **C9** (amended): *Subscribe is self-cleaning for matching topics.*
A `subscribe(mask, level, callback, args)` call first removes every
existing record for the same `(callback, args)` from all topics
matching the mask and from the future filters with the same pattern,
so after the call — and hence after any number of identical repeated
calls — every topic whose key matches the mask holds at most one
record for that `(callback, args)` combination, and so do the future
filters registered under that mask.  (The original claim's stronger
conclusion — that re-subscription never causes duplicate delivery on
*any* topic — fails: see the counterexample for the `createMissing`
fallback, which appends the record to the most recently listed,
unrelated topic on every repetition.)  The hypothesis states the state
invariant that topic keys are the lowercased topic names, as
established by `addTopic`. -/
theorem c9_subscribe_self_cleaning (st : PubState) (mask : String) (level : Nat)
    (cb : Nat) (args : List String) (im cm : Bool) (fut : Option Bool)
    (hkeys : ∀ p ∈ st.subscriptions, strLower p.2.topic = p.1) :
    (∀ p ∈ (subscribe st mask level cb args im cm fut).2.subscriptions,
      globMatch mask p.1 = true → countMatching p.2.subscribers cb args ≤ 1) ∧
    countMatching (((subscribe st mask level cb args im cm fut).2.futureFilters.filter
      (fun f => f.1 = mask)).flatMap (fun f => f.2)) cb args ≤ 1 := by
  have hA := @unsubscribe_zeroes st mask cb args hkeys
  have hkeys1 := @unsubscribe_hkeys st mask cb (some args) hkeys
  rw [subscribe_eq]
  set st1 := (unsubscribe st mask cb (some args)).2 with hst1
  set record : SubRec := ⟨mask, level, cb, args⟩ with hrec
  set st2 := appendMatching st1 mask record with hst2
  have hB : ∀ p ∈ st2.subscriptions, globMatch mask p.1 = true →
      countMatching p.2.subscribers cb args ≤ 1 := by
    rw [hst2, hrec]
    exact appendMatching_le_one hA
  have hkeys2 : ∀ p ∈ st2.subscriptions, strLower p.2.topic = p.1 := by
    intro p hp
    rcases List.mem_map.mp hp with ⟨q, hq, rfl⟩
    by_cases h : globMatch mask q.1
    · rw [if_pos h]
      exact hkeys1 q hq
    · rw [if_neg h]
      exact hkeys1 q hq
  have hF0 : countMatching ((st1.futureFilters.filter (fun f => f.1 = mask)).flatMap
      (fun f => f.2)) cb args = 0 := by
    show ((((st1.futureFilters.filter (fun f => f.1 = mask)).flatMap
      (fun f => f.2)).filter (fun r => r.cb = cb && r.args = args))).length = 0
    rw [hst1, unsubscribe_filters_zero]
    rfl
  have hst2filters : st2.futureFilters = st1.futureFilters := rfl
  have hst2keys : st2.subscriptions.map (fun p => p.1) =
      st1.subscriptions.map (fun p => p.1) := appendMatching_keys st1 mask record
  by_cases hc : matchCount st1 mask = 0
  · rw [if_pos hc]
    rcases hr : registerMissing st2 mask record cm im (isWildcard mask)
        (fut.getD (isWildcard mask)) with e | ⟨n, st5⟩
    · dsimp only
      refine ⟨hB, ?_⟩
      rw [hst2filters]
      omega
    · dsimp only
      have hkeys5 : st5.subscriptions.map (fun p => p.1) =
          st2.subscriptions.map (fun p => p.1) := registerMissing_ok_keys hkeys2 hr
      have hfil5 : st5.futureFilters = st2.futureFilters := registerMissing_ok_filters hr
      have hnomatch : ∀ p ∈ st5.subscriptions, globMatch mask p.1 = false := by
        intro p hp
        have hkey : p.1 ∈ st1.subscriptions.map (fun q => q.1) := by
          rw [← hst2keys, ← hkeys5]
          exact List.mem_map_of_mem (fun q => q.1) hp
        rcases List.mem_map.mp hkey with ⟨q, hq, hqe⟩
        rw [← hqe]
        exact matchCount_zero hc q hq
      constructor
      · intro p hp hm
        exfalso
        have hsub : (if fut.getD (isWildcard mask) then
            registerFuture
              (if 0 < n ∧ level < st5.minSubscriptionLevel then
                { st5 with minSubscriptionLevel := level } else st5)
              mask record
          else
            (if 0 < n ∧ level < st5.minSubscriptionLevel then
              { st5 with minSubscriptionLevel := level } else st5)).subscriptions =
            st5.subscriptions := by
          by_cases hfut : fut.getD (isWildcard mask)
          · rw [if_pos hfut, registerFuture_subscriptions, minSubUpd_subscriptions]
          · rw [if_neg hfut, minSubUpd_subscriptions]
        rw [hsub] at hp
        rw [hnomatch p hp] at hm
        cases hm
      · have hfil : (if fut.getD (isWildcard mask) then
            registerFuture
              (if 0 < n ∧ level < st5.minSubscriptionLevel then
                { st5 with minSubscriptionLevel := level } else st5)
              mask record
          else
            (if 0 < n ∧ level < st5.minSubscriptionLevel then
              { st5 with minSubscriptionLevel := level } else st5)) =
            (if fut.getD (isWildcard mask) then
              registerFuture
                (if 0 < n ∧ level < st5.minSubscriptionLevel then
                  { st5 with minSubscriptionLevel := level } else st5)
                mask record
            else
              (if 0 < n ∧ level < st5.minSubscriptionLevel then
                { st5 with minSubscriptionLevel := level } else st5)) := rfl
        by_cases hfut : fut.getD (isWildcard mask)
        · rw [if_pos hfut]
          apply registerFuture_count_le
          rw [minSubUpd_filters, hfil5, hst2filters]
          exact hF0
        · rw [if_neg hfut]
          rw [show ((if 0 < n ∧ level < st5.minSubscriptionLevel then
              { st5 with minSubscriptionLevel := level } else st5)).futureFilters =
            st5.futureFilters from minSubUpd_filters _ _ _]
          rw [hfil5, hst2filters]
          omega
  · rw [if_neg hc]
    dsimp only
    constructor
    · intro p hp hm
      have hsub : (if fut.getD (isWildcard mask) then
          registerFuture
            (if 0 < matchCount st1 mask ∧ level < st2.minSubscriptionLevel then
              { st2 with minSubscriptionLevel := level } else st2)
            mask record
        else
          (if 0 < matchCount st1 mask ∧ level < st2.minSubscriptionLevel then
            { st2 with minSubscriptionLevel := level } else st2)).subscriptions =
          st2.subscriptions := by
        by_cases hfut : fut.getD (isWildcard mask)
        · rw [if_pos hfut, registerFuture_subscriptions, minSubUpd_subscriptions]
        · rw [if_neg hfut, minSubUpd_subscriptions]
      rw [hsub] at hp
      exact hB p hp hm
    · by_cases hfut : fut.getD (isWildcard mask)
      · rw [if_pos hfut]
        apply registerFuture_count_le
        rw [minSubUpd_filters, hst2filters]
        exact hF0
      · rw [if_neg hfut]
        rw [show ((if 0 < matchCount st1 mask ∧ level < st2.minSubscriptionLevel then
            { st2 with minSubscriptionLevel := level } else st2)).futureFilters =
          st2.futureFilters from minSubUpd_filters _ _ _]
        rw [hst2filters]
        omega

end Scpi

namespace Scpi

/-- Witness for C9 at a concrete state: re-subscribing to topic `log`
with the same callback and arguments leaves a single record. -/
theorem c9_subscribe_self_cleaning_witness :
    countMatching (("log", (⟨"log", 1, [⟨"log", 2, 7, []⟩]⟩ : TopicRec)) :
      String × TopicRec).2.subscribers 7 [] ≤ 1 :=
  (c9_subscribe_self_cleaning ⟨[("log", ⟨"log", 1, [⟨"log", 1, 7, []⟩]⟩)], [], [], 1⟩
      "log" 2 7 [] false false none (by decide)).1
    ("log", ⟨"log", 1, [⟨"log", 2, 7, []⟩]⟩) (by decide) (by decide)

/-- **C9** (counterexample to the claim as stated): with
`createMissing` and a non-wildcard mask matching no topic,
`subscribe` appends its record to the *most recently listed existing
topic* (the leftover loop variable `name`), and the preceding
`unsubscribe` does not touch that topic because it does not match the
mask.  Hence two identical subscribe calls leave two identical records
on that topic, and a single publication there calls the subscriber's
callback twice — re-subscription *does* cause duplicate delivery. -/
theorem c9_counterexample :
    (publishMessage
      (subscribe (subscribe ⟨[("t1", ⟨"t1", 1, []⟩)], [], [], 6⟩
          "zz" 1 7 [] false true none).2
        "zz" 1 7 [] false true none).2
      ⟨"t1", 1, 0⟩ none true).map (fun r => r.2) =
    .ok [(7, [], ⟨"t1", 1, 0⟩), (7, [], ⟨"t1", 1, 0⟩)] := by
  rfl

end Scpi

namespace Scpi

/-! ## §C10: session variable expansion (`base_session.py`, `dataproxy.py`)

`BaseSession._getVariable` restricted to the claim's fragment of the
`_vx` grammar — plain `${name}` and subscripted `${name[subkey]}`
references, with no operator suffix, length prefix or argument index —
together with `DataProxy.getScopeDataValue`, `DataProxy.getValue` and
`DataProxy.toString`. -/

/-- Python values held in the variable scopes. -/
inductive PyVal where
  | str (s : String)
  | int (n : Int)
  | list (xs : List PyVal)
  | dict (m : List (String × PyVal))

/-- Python `int(s)` for a string drawn from the subkey character class
`\w*`: such a string carries no sign, so the result is a nonnegative
numeral or a `ValueError`. -/
def pyInt (s : String) : Except PyErr Nat :=
  if s ≠ "" ∧ s.data.all Char.isDigit then
    .ok (s.data.foldl (fun acc c => acc * 10 + (c.toNat - 48)) 0)
  else
    .error (PyErr.valueError "int")

/-- `DataProxy.getScopeDataValue(None, identifier)`: search the scope
maps in order, returning the first binding; raise `KeyError` when the
identifier is bound in none of them. -/
def getScopeDataValue : List (List (String × PyVal)) → String → Except PyErr PyVal
  | [], identifier => .error (PyErr.keyError identifier)
  | m :: rest, identifier =>
    match m.lookup identifier with
    | some v => .ok v
    | none => getScopeDataValue rest identifier

/-- `DataProxy.getValue(value, key)`: a string is first wrapped as a
(possibly empty) singleton list; without a key the value is returned;
a list is subscripted by `int(key)` (`ValueError` for a non-numeric
key, `IndexError` out of range), a dict by the key itself
(`KeyError`), anything else raises `TypeError`. -/
def getValue (value : PyVal) (key : Option String) : Except PyErr PyVal :=
  let v := match value with
    | .str s => if s = "" then PyVal.list [] else PyVal.list [.str s]
    | other => other
  match key with
  | none => .ok v
  | some k =>
    match v with
    | .list xs =>
      match pyInt k with
      | .error e => .error e
      | .ok i =>
        if h : i < xs.length then .ok (xs.get ⟨i, h⟩)
        else .error PyErr.indexError
    | .dict m =>
      match m.lookup k with
      | some w => .ok w
      | none => .error (PyErr.keyError k)
    | _ => .error PyErr.typeError

/-- `DataProxy.toString(value)`: join a list (whose elements must be
strings — otherwise `str.join` raises `TypeError`) or a dict (whose
iteration yields its keys) with spaces; return anything else
unchanged. -/
def dpToString (v : PyVal) : Except PyErr PyVal :=
  match v with
  | .list xs =>
    match xs.mapM (fun x => match x with | .str s => some s | _ => none) with
    | some ss => .ok (.str (String.intercalate " " ss))
    | none => .error PyErr.typeError
  | .dict m => .ok (.str (String.intercalate " " (m.map (fun p => p.1))))
  | other => .ok other

/-- A character of the regex class `\w` (ASCII). -/
def isWordChar (c : Char) : Bool := c.isAlphanum || c = '_'

/-- A character of the regex class `[\w-]`. -/
def isNameChar (c : Char) : Bool := isWordChar c || c = '-'

/-- The two reference shapes accepted by `_vx` on the claim's
fragment: the `(\d+|@)` argument-index alternative, tried first, or
a variable name `\w[\w-]*` with an optional `[\w*]` subscript. -/
inductive VarRef where
  | argIndex (s : String)
  | varName (key : String) (subkey : Option String)

/-- The `_vx` match restricted to the claim's fragment (no operator
suffix, no `#` mark; the optional `\s*` paddings are not exercised).
The `(\d+|@)` alternative wins exactly when it consumes the whole
reference: a digit-only reference or `@` is an argument index.
Otherwise the name branch `(\w[\w-]*)(?:\[(\w*)\])?` applies —
backtracking re-reads leading digits as part of a name when a
subscript or further name characters follow. -/
def parseVarRef (s : String) : Option VarRef :=
  match s.data with
  | [] => none
  | c :: rest =>
    if (c :: rest).all (fun d => d.isDigit) then
      some (.argIndex s)
    else if c = '@' && rest.isEmpty then
      some (.argIndex s)
    else if isWordChar c then
      let name := (c :: rest).takeWhile isNameChar
      match (c :: rest).dropWhile isNameChar with
      | [] => some (.varName (String.mk name) none)
      | '[' :: more =>
        let sub := more.takeWhile isWordChar
        match more.dropWhile isWordChar with
        | [']'] => some (.varName (String.mk name) (some (String.mk sub)))
        | _ => none
      | _ => none
    else none

/-- `BaseSession._getVariable(name, context)` on the claim's fragment:
check observer access and match the reference.  An argument-index
reference is answered by `self._getInputArgument(argindex, context)`
— outside the `try` block; the context's argument store is taken as
the function parameter `inputArg` — and converted with
`DataProxy.toString`.  A name reference resolves the key through the
three scopes and applies the subkey, catching only `(KeyError,
TypeError, IndexError)` and substituting the empty string, then
converts with `DataProxy.toString` (no operators apply). -/
def getVariable (accessLevel : Nat)
    (inputArg : String → Except PyErr PyVal)
    (data branchData globalData : List (String × PyVal))
    (name : String) : Except PyErr PyVal :=
  if accessLevel < 1 then
    .error (PyErr.commandError "InsufficientAccess")
  else
    match parseVarRef name with
    | none => .error (PyErr.commandError "VariableSyntax")
    | some (.argIndex i) =>
      match inputArg i with
      | .ok v => dpToString v
      | .error e => .error e
    | some (.varName key subkey) =>
      let tried : Except PyErr PyVal :=
        match getScopeDataValue [data, branchData, globalData] key with
        | .ok v => getValue v subkey
        | .error e => .error e
      match tried with
      | .ok v => dpToString v
      | .error (PyErr.keyError _) => dpToString (.str "")
      | .error PyErr.typeError => dpToString (.str "")
      | .error PyErr.indexError => dpToString (.str "")
      | .error e => .error e

/-- The exception classes caught by the `except (KeyError, TypeError,
IndexError)` clause of `_getVariable`. -/
def caughtByGetVariable (e : PyErr) : Prop :=
  match e with
  | PyErr.keyError _ => True
  | PyErr.typeError => True
  | PyErr.indexError => True
  | _ => False

end Scpi

namespace Scpi

/-- **C10** (amended): *Undefined-variable expansion is silent — except
for `ValueError`, and only for name references.*  For a session with
at least observer access, a reference `${name}` or `${name[subkey]}`
that `_vx` reads as a variable name — not as a `(\d+|@)` argument
index, which takes precedence and is answered from the previous
command's arguments by `_getInputArgument` — and whose name is bound
in none of the three scopes expands to the empty string, and so does
a bound reference whose subkey lookup fails with one of the caught
exception classes (`KeyError`, `TypeError`, `IndexError`).  A subkey
lookup that fails with `ValueError` — a non-numeric subkey applied to
a list or string value — is *not* caught and escapes instead of
yielding the empty string (see the counterexample). -/
theorem c10_undefined_variable_silent (accessLevel : Nat)
    (inputArg : String → Except PyErr PyVal)
    (data branchData globalData : List (String × PyVal))
    (name key : String) (subkey : Option String)
    (hacc : 1 ≤ accessLevel)
    (hparse : parseVarRef name = some (.varName key subkey)) :
    ((data.lookup key = none ∧ branchData.lookup key = none ∧
        globalData.lookup key = none) →
      getVariable accessLevel inputArg data branchData globalData name =
        .ok (.str "")) ∧
    (∀ v e, getScopeDataValue [data, branchData, globalData] key = .ok v →
      getValue v subkey = .error e → caughtByGetVariable e →
      getVariable accessLevel inputArg data branchData globalData name =
        .ok (.str "")) := by
  constructor
  · rintro ⟨h1, h2, h3⟩
    unfold getVariable
    rw [if_neg (by omega), hparse]
    dsimp only
    have hscope : getScopeDataValue [data, branchData, globalData] key =
        .error (PyErr.keyError key) := by
      simp only [getScopeDataValue, h1, h2, h3]
    rw [hscope]
    rfl
  · intro v e hv he hc
    unfold getVariable
    rw [if_neg (by omega), hparse]
    dsimp only
    rw [hv]
    dsimp only
    rw [he]
    cases e with
    | keyError k => rfl
    | typeError => rfl
    | indexError => rfl
    | valueError m => exact absurd hc (by simp [caughtByGetVariable])
    | nameError n => exact absurd hc (by simp [caughtByGetVariable])
    | commandError k => exact absurd hc (by simp [caughtByGetVariable])

/-- Witness for C10: an unbound name reference expands to the empty
string (whatever the argument store holds). -/
theorem c10_undefined_variable_silent_witness :
    getVariable 1 (fun _ => .ok (PyVal.str "out")) [] [] [] "x" =
      .ok (PyVal.str "") :=
  (c10_undefined_variable_silent 1 (fun _ => .ok (PyVal.str "out"))
      [] [] [] "x" "x" none (by decide) rfl).1
    ⟨rfl, rfl, rfl⟩

/-- **C10** (counterexample to the claim as stated): with `x` bound to
the string `foo` in the context-local scope, expanding `${x[y]}`
raises `ValueError` (from `int('y')` inside `DataProxy.getValue`,
which the `except (KeyError, TypeError, IndexError)` clause does not
catch) instead of yielding the empty string. -/
theorem c10_counterexample :
    getVariable 1 (fun _ => .ok (PyVal.str "out"))
      [("x", PyVal.str "foo")] [] [] "x[y]" =
      .error (PyErr.valueError "int") := rfl

end Scpi

namespace Scpi

/-! ## §C3: parameter binding (`leaf.py`, `parameter.py`)

`Leaf.mapParts`, `Leaf.convertArg` and `Leaf.parseInputs` (called with
`externalOnly=False` and no extra positional `args`, as by
`Leaf.invoke`).  Values are modelled by `PVal`; the `Missing` sentinel
of `parameter.py` is the constructor `PVal.missing`.  Parameter types
are restricted to the conversions the binding engine exercises here
(`String()`, `Int()`, `ArgTuple()`); the `split` attribute (unset on
every implicitly declared parameter) is not modelled. -/

/-- Runtime values of the binding engine, including the `Missing`
sentinel and the `(option, value, raw)` triples produced for
`ArgTuple`/tuple-form parameters. -/
inductive PVal where
  | str (s : String)
  | int (n : Int)
  | pyNone
  | missing
  | list (xs : List PVal)
  | dict (m : List (String × PVal))
  | tup (o : Option String) (v : String) (raw : String)

/-- The `form` attribute values reachable through `convertArg`:
`object` (default) parses and validates, `str` passes the verbatim raw
slice, `None` passes the cooked text, `tuple` parses and returns the
`(option, value, raw)` triple. -/
inductive PForm where
  | object
  | rawStr
  | cooked
  | tupleF
deriving DecidableEq, Repr

/-- The parameter types exercised by the binding model. -/
inductive PType where
  | tStr
  | tInt
  | tArgTuple
deriving DecidableEq, Repr

/-- Errors raised by the binding engine. -/
inductive ArgErr where
  | noSuchCommandOption (option : String)
  | extraArgument
  | missingArgument (arg : String)
  | tooFewRepeats (arg : String)
  | tooManyRepeats (arg : String)
  | invalidArgument (arg : String)
  /-- `AttributeError`/`TypeError` from operating on an unexpectedly
  shaped accumulator (`valuelist.append` on a string,
  `valuemap[option]` on a list, `kwargs.update` on a non-dict). -/
  | typeErr
  /-- `params[args.index(Missing)]` out of range. -/
  | indexErr
  /-- The `assert param.type` after constructing `MissingArgument`. -/
  | assertionErr
  /-- `spec.kwonlydefaults.get(...)` when `getfullargspec` returned
  `None` for the keyword-only defaults. -/
  | attributeErr
  /-- The undefined global `fVarKW` in the `spec.varkw` branch of
  `addImplicitParameters`. -/
  | nameErr
deriving DecidableEq, Repr

/-- A parameter declaration (the fields `mapParts`/`parseInputs`
read).  `repeats` mirrors the tuple form `(min, max)`; the scalar
form `repeats=k` of the source behaves as `(k, k)` via
`repeatRange`. -/
structure Param where
  name : String
  ptype : Option PType
  named : Bool
  default : PVal
  repeats : Option (Option Nat × Option Nat)
  form : PForm

/-- A leaf's input declarations: the ordered `inputList`
(`getAllInputs`), the basename-keyed `inputMap` (which also holds
map-only default inputs such as `-synchronous`), and the
`varParam`/`varOptParam` catch-alls. -/
structure LeafDef where
  inputList : List Param
  inputMap : List (String × Param)
  varParam : Option Param
  varOptParam : Option Param

/-- Python `s.strip('$')`. -/
def stripDollar (s : String) : String :=
  String.mk (((s.data.dropWhile (fun c => c = '$')).reverse.dropWhile
    (fun c => c = '$')).reverse)

/-- The key under which a parameter is registered:
`name.lower().strip('$')`. -/
def pbasename (s : String) : String := stripDollar (strLower s)

/-- Python `int(s)` (decimal with optional sign; the `int(s, 0)`
retry for other bases is not exercised by the claims). -/
def pyIntZ (s : String) : Except ArgErr Int :=
  let core (ds : List Char) (sign : Int) : Except ArgErr Int :=
    if ds ≠ [] ∧ ds.all Char.isDigit then
      .ok (sign * (ds.foldl (fun acc c => acc * 10 + (c.toNat - 48 : Int)) 0))
    else
      .error (ArgErr.invalidArgument s)
  match s.data with
  | '-' :: ds => core ds (-1)
  | '+' :: ds => core ds 1
  | ds => core ds 1

/-- `type.fromString(cooked)` for the modelled types; a `None` cooked
value behaves as the empty string for the string-like types and fails
for `Int` (at `invoke` time the error is wrapped as
`InvalidArgument`). -/
def typeFromString (t : PType) (cooked : Option String) : Except ArgErr PVal :=
  match t with
  | .tStr => .ok (.str (cooked.getD ""))
  | .tArgTuple => .ok (.str (cooked.getD ""))
  | .tInt =>
    match cooked with
    | none => .error (ArgErr.invalidArgument "None")
    | some c => (pyIntZ c).map PVal.int

/-- One parsed part `(option, cooked, raw)`. -/
def Part3 : Type := Option String × Option String × String

/-- `Leaf.convertArg(param, part)`: dispatch on `param.form` exactly
as the source does (`form is str` passes the raw slice and clears the
option; `form` `None` passes the cooked text; `object`/`tuple` parse
via `fromString` — validation is vacuous for the modelled types); an
`ArgTuple`-typed or tuple-form parameter receives the
`(option, value, raw)` triple. -/
def convertArg (param : Param) (part : Part3) : Except ArgErr PVal := do
  let (option, cooked, raw) := part
  let (option, value) ←
    match param.form with
    | .rawStr => pure ((none : Option String), PVal.str raw)
    | .cooked => pure (option,
        match cooked with
        | some c => PVal.str c
        | none => PVal.pyNone)
    | .object | .tupleF =>
      match param.ptype with
      | none => throw ArgErr.typeErr      -- self.type.fromString on None
      | some t => do
        let v ← typeFromString t cooked
        pure (option, v)
  if param.form = .tupleF ∨ param.ptype = some .tArgTuple then
    match value with
    | .str s => pure (.tup option s raw)
    | .int n => pure (.tup option (toString n) raw)
    | _ => pure (.tup option "" raw)
  else
    pure value

/-- Overwrite-or-append on the association list that models the
`mapped` dict. -/
def updAssoc (m : List (String × PVal)) (k : String) (v : PVal) :
    List (String × PVal) :=
  if (m.lookup k).isSome then
    m.map (fun p => if p.1 = k then (k, v) else p)
  else
    m ++ [(k, v)]

/-- Truthiness of the part's option name (`if option and ...`). -/
def optTruthy (o : Option String) : Bool :=
  match o with
  | some s => s ≠ ""
  | none => false

/-- `isinstance(param.type, ArgTuple)`. -/
def isArgTupleT (p : Param) : Bool := p.ptype = some PType.tArgTuple

end Scpi

namespace Scpi

/-- Remove the first parameter with the given name
(`posparams.remove(param)`; list entries sharing a name are the same
registered object, so name-based removal coincides with removal by
identity). -/
def removeFirstParam (ps : List Param) (nm : String) : List Param :=
  match ps with
  | [] => []
  | p :: rest => if p.name = nm then rest else p :: removeFirstParam rest nm

/-- `mapParts` main loop.  State: remaining parts, remaining
positional parameters, the `skipNamed` flag, the `mapped` dict
(aliased to the `defaults` keyword dict in the source) and the
`copies` key set.  Accumulator initialisation mirrors the
`try/except` blocks of the source: a missing or un-copyable default
starts a fresh `{}`/`[]`, while a default of the wrong sliceable
shape (a list for a named accumulator, a string or tuple for a
positional one) survives the copy and then crashes on
`valuemap[option]`/`valuelist.append` (`ArgErr.typeErr`). -/
def mapPartsGo (leaf : LeafDef) :
    List Part3 → List Param → Bool → List (String × PVal) → List String →
    Except ArgErr (List (String × PVal))
  | [], _, _, mapped, _ => .ok mapped
  | part :: rest, posparams, skipNamed, mapped, copies =>
    let chosen : Except ArgErr (Param × List Param × Bool) :=
      if optTruthy part.1 ∧ ¬skipNamed then
        match leaf.inputMap.lookup (pbasename (part.1.getD "")) with
        | some param =>
          if param.repeats.isNone then
            .ok (param, removeFirstParam posparams param.name, skipNamed)
          else
            .ok (param, posparams, skipNamed)
        | none =>
          match leaf.varOptParam with
          | some vop => .ok (vop, posparams, skipNamed)
          | none =>
            match leaf.varParam with
            | some vp =>
              if isArgTupleT vp then .ok (vp, posparams, skipNamed)
              else .error (ArgErr.noSuchCommandOption (part.1.getD ""))
            | none => .error (ArgErr.noSuchCommandOption (part.1.getD ""))
      else
        match posparams with
        | p :: ps => .ok (p, ps, skipNamed)
        | [] =>
          match leaf.varParam with
          | some vp => .ok (vp, [], isArgTupleT vp)
          | none => .error ArgErr.extraArgument
    match chosen with
    | .error e => .error e
    | .ok (param, posparams, skipNamed) =>
      match convertArg param part with
      | .error e => .error e
      | .ok value =>
        match param.repeats with
        | none =>
          mapPartsGo leaf rest posparams skipNamed
            (updAssoc mapped param.name value) copies
        | some _ =>
          if param.named then
            let key := part.1.getD ""
            if copies.contains param.name then
              match mapped.lookup param.name with
              | some (.dict d) =>
                mapPartsGo leaf rest posparams skipNamed
                  (updAssoc mapped param.name (.dict (updAssoc d key value)))
                  copies
              | _ => .error ArgErr.typeErr
            else
              match mapped.lookup param.name with
              | some (.list _) => .error ArgErr.typeErr
              | some (.dict d) =>
                mapPartsGo leaf rest posparams skipNamed
                  (updAssoc mapped param.name (.dict (updAssoc d key value)))
                  (copies ++ [param.name])
              | _ =>
                mapPartsGo leaf rest posparams skipNamed
                  (updAssoc mapped param.name (.dict (updAssoc [] key value)))
                  (copies ++ [param.name])
          else
            if copies.contains param.name then
              match mapped.lookup param.name with
              | some (.list l) =>
                mapPartsGo leaf rest posparams skipNamed
                  (updAssoc mapped param.name (.list (l ++ [value]))) copies
              | _ => .error ArgErr.typeErr
            else
              match mapped.lookup param.name with
              | some (.str _) => .error ArgErr.typeErr
              | some (.tup _ _ _) => .error ArgErr.typeErr
              | some (.list l) =>
                mapPartsGo leaf rest posparams skipNamed
                  (updAssoc mapped param.name (.list (l ++ [value])))
                  (copies ++ [param.name])
              | _ =>
                mapPartsGo leaf rest posparams skipNamed
                  (updAssoc mapped param.name (.list [value]))
                  (copies ++ [param.name])

/-- `Leaf.mapParts(parts, **defaults)`: the positional-parameter queue
holds the typed, unnamed, non-repeating inputs not pre-bound by a
keyword default. -/
def mapParts (leaf : LeafDef) (parts : List Part3)
    (options : List (String × PVal)) : Except ArgErr (List (String × PVal)) :=
  let posparams := leaf.inputList.filter
    (fun p => p.ptype.isSome && !p.named && p.repeats.isNone &&
      (options.lookup p.name).isNone)
  mapPartsGo leaf parts posparams false options []

/-- `x == Missing` (identity comparison with the sentinel). -/
def isMissing : PVal → Bool
  | .missing => true
  | _ => false

/-- The value examined by the repeating-positional branch of the
`parseInputs` loop: `arg = argmap.get(param.name, [])`. -/
def repArg (argmap : List (String × PVal)) (param : Param) : PVal :=
  (argmap.lookup param.name).getD (.list [])

/-- Python truthiness (the negation of `not arg`): empty strings,
zero, `None` and empty containers are falsy; the `Missing` sentinel
is a plain class object and hence truthy. -/
def pyTruthy : PVal → Bool
  | .str s => !s.isEmpty
  | .int n => !(n == 0)
  | .pyNone => false
  | .missing => true
  | .list xs => !xs.isEmpty
  | .dict m => !m.isEmpty
  | .tup _ _ _ => true

/-- `len(arg)`: defined for strings, lists, dicts and the
`(option, value, raw)` triples; `TypeError` otherwise (including the
`Missing` sentinel). -/
def pyLen : PVal → Option Nat
  | .str s => some s.length
  | .list xs => some xs.length
  | .dict m => some m.length
  | .tup _ _ _ => some 3
  | _ => none

/-- The iteration performed by `args.extend(arg)`: the characters of
a string (as one-character strings), the elements of a list, the
keys of a dict, the components of a triple; `TypeError` otherwise. -/
def pyElems : PVal → Option (List PVal)
  | .str s => some (s.data.map (fun c => PVal.str (String.mk [c])))
  | .list xs => some xs
  | .dict m => some (m.map (fun kv => PVal.str kv.1))
  | .tup o v r => some [o.elim PVal.pyNone PVal.str, PVal.str v, PVal.str r]
  | _ => none

/-- The `rmax` check and the final `args.extend(arg)` of the
repeating-positional branch. -/
def repStepMax (name : String) (arg : PVal) (rmax : Option Nat) :
    Except ArgErr (List PVal) :=
  match rmax with
  | some mx =>
    match pyLen arg with
    | none => .error ArgErr.typeErr
    | some ln =>
      if mx < ln then .error (ArgErr.tooManyRepeats name)
      else
        match pyElems arg with
        | none => .error ArgErr.typeErr
        | some el => .ok el
  | none =>
    match pyElems arg with
    | none => .error ArgErr.typeErr
    | some el => .ok el

/-- The `if`/`elif` chain of the repeating-positional branch of the
`parseInputs` loop on the bound value `arg = argmap.get(name, [])`:
a falsy value with a positive declared minimum plants the `Missing`
marker; otherwise the `len(arg)`-based range checks run (`TypeError`
where `len` is undefined) and the value's elements extend `args`
(`TypeError` where iteration is undefined). -/
def repStep (name : String) (arg : PVal) (rmin rmax : Option Nat) :
    Except ArgErr (List PVal) :=
  if !pyTruthy arg &&
      (match rmin with | some m => decide (0 < m) | none => false) then
    .ok [PVal.missing]
  else
    match rmin with
    | some m =>
      match pyLen arg with
      | none => .error ArgErr.typeErr
      | some ln =>
        if ln < m then .error (ArgErr.tooFewRepeats name)
        else repStepMax name arg rmax
    | none => repStepMax name arg rmax

/-- `kwargs.update(argmap[param.name])` on the association-list
model. -/
def updAssocMany (kwargs : List (String × PVal)) (d : List (String × PVal)) :
    List (String × PVal) :=
  d.foldl (fun acc kv => updAssoc acc kv.1 kv.2) kwargs

/-- Outcome classification of the repeat-range checks on a
list-shaped repeat binding (cf. `repStep_list`). -/
inductive RepOutcome where
  | markMissing
  | tooFew
  | tooMany
  | extendArg
deriving DecidableEq, Repr

/-- The outcome of the repeating-positional branch on a list of
values: an empty list with a positive minimum plants the `Missing`
marker; otherwise the repeat count is checked against the declared
range (`repStep_list` equates this with `repStep` on list-shaped
bindings). -/
def repCheck (arg : List PVal) (rmin rmax : Option Nat) : RepOutcome :=
  if arg.isEmpty && (match rmin with | some m => decide (0 < m) | none => false) then
    .markMissing
  else if (match rmin with | some m => decide (arg.length < m) | none => false) then
    .tooFew
  else if (match rmax with | some m => decide (m < arg.length) | none => false) then
    .tooMany
  else
    .extendArg

/-- The element list of a list-shaped repeat binding (the shape the
`repOkP` proviso guarantees); an absent binding gives the empty
list. -/
def repElems (argmap : List (String × PVal)) (param : Param) : List PVal :=
  match repArg argmap param with
  | .list l => l
  | _ => []

/-- Whether the value bound under a repeating positional parameter
has list shape, as the repeat accumulator of `mapParts` produces for
parse-bound values; a pre-binding through `options` or the defaults
may violate this. -/
def repOkP (argmap : List (String × PVal)) (param : Param) : Bool :=
  match param.repeats with
  | none => true
  | some _ =>
    if param.named then true
    else
      match argmap.lookup param.name with
      | none => true
      | some (.list _) => true
      | some _ => false

/-- Under the list-shape proviso the bound value is the list of its
elements. -/
theorem repArg_eq_list (argmap : List (String × PVal)) (param : Param)
    (r : Option Nat × Option Nat) (hr : param.repeats = some r)
    (hn : param.named = false) (hrep : repOkP argmap param = true) :
    repArg argmap param = .list (repElems argmap param) := by
  simp only [repOkP, hr, hn, Bool.false_eq_true, if_false] at hrep
  unfold repElems repArg
  cases hl : argmap.lookup param.name with
  | none => rfl
  | some w =>
    rw [hl] at hrep
    cases w
    case list l => rfl
    all_goals simp at hrep

/-- On a list-shaped binding the faithful branch coincides with the
outcome classification `repCheck`. -/
theorem repStep_list (name : String) (l : List PVal)
    (rmin rmax : Option Nat) :
    repStep name (.list l) rmin rmax =
      (match repCheck l rmin rmax with
       | .markMissing => .ok [PVal.missing]
       | .tooFew => .error (ArgErr.tooFewRepeats name)
       | .tooMany => .error (ArgErr.tooManyRepeats name)
       | .extendArg => .ok l) := by
  simp only [repStep, repStepMax, repCheck, pyTruthy, pyLen, pyElems,
    Bool.not_not]
  by_cases h1 : (l.isEmpty &&
      (match rmin with | some m => decide (0 < m) | none => false)) = true
  · rw [if_pos h1, if_pos h1]
  · rw [if_neg h1, if_neg h1]
    cases rmin with
    | none =>
      cases rmax with
      | none => simp
      | some mx =>
        by_cases h3 : mx < l.length
        · simp [h3]
        · simp [h3]
    | some m =>
      by_cases h2 : l.length < m
      · simp [h2]
      · cases rmax with
        | none => simp [h2]
        | some mx =>
          by_cases h3 : mx < l.length
          · simp [h2, h3]
          · simp [h2, h3]

/-- The `for param in params` loop of `parseInputs`: positional
arguments accumulate in `args` (with `Missing` marking an unbound
required repeat), named repeating parameters fold into `kwargs`. -/
def buildArgsGo (argmap : List (String × PVal)) :
    List Param → List PVal → List (String × PVal) →
    Except ArgErr (List PVal × List (String × PVal))
  | [], args, kwargs => .ok (args, kwargs)
  | param :: rest, args, kwargs =>
    match param.repeats with
    | none =>
      buildArgsGo argmap rest
        (args ++ [(argmap.lookup param.name).getD param.default]) kwargs
    | some (rmin, rmax) =>
      if !param.named then
        match repStep param.name (repArg argmap param) rmin rmax with
        | .error e => .error e
        | .ok el => buildArgsGo argmap rest (args ++ el) kwargs
      else
        match argmap.lookup param.name with
        | none => buildArgsGo argmap rest args kwargs
        | some (.dict d) => buildArgsGo argmap rest args (updAssocMany kwargs d)
        | some _ => .error ArgErr.typeErr

/-- Python `s.rstrip('_')` (used when deriving parameter names from
`run()` argument names). -/
def rstripUnderscore (s : String) : String :=
  String.mk ((s.data.reverse.dropWhile (fun c => c = '_')).reverse)

/-- `Leaf.parseInputs(parts, externalOnly=False, args=(), **options)`
as called from `Leaf.invoke`: map the parts, build the positional and
keyword argument collections over `getAllInputs()`, then report the
first remaining `Missing` as `MissingArgument` — indexing the
parameter list by the *argument* position. -/
def parseInputs (leaf : LeafDef) (parts : List Part3)
    (options : List (String × PVal)) :
    Except ArgErr (List PVal × List (String × PVal) × List (String × PVal)) := do
  let argmap ← mapParts leaf parts options
  let (args, kwargs) ← buildArgsGo argmap leaf.inputList [] []
  match args.findIdx? (fun v => isMissing v) with
  | none => .ok (args, kwargs, argmap)
  | some idx =>
    match leaf.inputList.get? idx with
    | none => .error ArgErr.indexErr
    | some param =>
      if param.ptype.isSome then
        .error (ArgErr.missingArgument (stripDollar param.name))
      else
        .error ArgErr.assertionErr

end Scpi

namespace Scpi

/-- The slice of positional arguments that a single parameter adds to
`args` in the `parseInputs` loop (empty for a named repeating
parameter). -/
def contribution (argmap : List (String × PVal)) (param : Param) : List PVal :=
  match param.repeats with
  | none => [(argmap.lookup param.name).getD param.default]
  | some (rmin, rmax) =>
    if param.named then []
    else
      match repCheck (repElems argmap param) rmin rmax with
      | .markMissing => [PVal.missing]
      | _ => repElems argmap param

/-- Whether a parameter triggers `TooFewRepeats`/`TooManyRepeats` in
the `parseInputs` loop. -/
def repViolation (argmap : List (String × PVal)) (param : Param) : Bool :=
  match param.repeats with
  | none => false
  | some (rmin, rmax) =>
    if param.named then false
    else
      match repCheck (repElems argmap param) rmin rmax with
      | .tooFew => true
      | .tooMany => true
      | _ => false

/-- Whether the value bound under a named repeating parameter is a
dict, so that `kwargs.update` succeeds. -/
def namedOk (argmap : List (String × PVal)) (param : Param) : Bool :=
  match param.repeats with
  | none => true
  | some _ =>
    if param.named then
      match argmap.lookup param.name with
      | none => true
      | some (.dict _) => true
      | some _ => false
    else true

/-- Whether a parameter leaves a `Missing` marker in `args`: a
non-repeating parameter that is unbound with default `Missing`, or a
repeating positional parameter with a positive minimum and no bound
values. -/
def contributesMissing (argmap : List (String × PVal)) (param : Param) : Bool :=
  (contribution argmap param).any isMissing

/-- A bound value containing no `Missing` sentinel (at top level nor
as a repeat-list element), as produced by `convertArg`. -/
def cleanVal : PVal → Bool
  | .missing => false
  | .list l => l.all (fun v => !(isMissing v))
  | _ => true

/-- A single optional repeating positional input (as declared for a
`run(self, *values)`-style leaf whose repeat range was tightened to
`(1, None)`), with a non-`Missing` default. -/
def c3xs : Param :=
  { name := "xs", ptype := some PType.tStr, named := false,
    default := PVal.list [], repeats := some (some 1, none),
    form := PForm.object }

/-- A leaf declaring only `c3xs`. -/
def c3leaf : LeafDef :=
  { inputList := [c3xs], inputMap := [("xs", c3xs)],
    varParam := some c3xs, varOptParam := none }

end Scpi

/-- An invocation with no parts binds no required (`Missing`-default)
parameter, yet `parseInputs` raises `MissingArgument`: the empty
repeat list of the optional repeating positional parameter `xs`
(minimum repeat count 1) plants the `Missing` marker regardless of
the parameter's own default. -/
theorem c3_counterexample :
    Scpi.parseInputs Scpi.c3leaf [] [] =
      .error (Scpi.ArgErr.missingArgument "xs") ∧
    Scpi.c3leaf.inputList.all (fun p => !(Scpi.isMissing p.default)) = true :=
  ⟨rfl, rfl⟩

namespace Scpi

/-- A successful association-list lookup comes from a member pair. -/
theorem mem_of_lookupPV (l : List (String × PVal)) (k : String) (v : PVal)
    (h : l.lookup k = some v) : (k, v) ∈ l := by
  induction l with
  | nil => simp [List.lookup] at h
  | cons p rest ih =>
    rw [List.lookup] at h
    by_cases hk : k == p.1
    · simp [hk] at h
      refine List.mem_cons.mpr (Or.inl ?_)
      simp at hk
      rw [Prod.ext_iff]
      exact ⟨hk, h.symm⟩
    · simp [hk] at h
      exact List.mem_cons.mpr (Or.inr (ih h))

/-- A clean value is not the `Missing` sentinel. -/
theorem cleanVal_not_missing (v : PVal) (h : cleanVal v = true) :
    isMissing v = false := by
  cases v <;> simp_all [isMissing, cleanVal]

/-- Elements of a repeat-list drawn from a clean argument map are not
`Missing`. -/
theorem repElems_clean (argmap : List (String × PVal))
    (hcl : ∀ kv ∈ argmap, cleanVal kv.2 = true) (param : Param) :
    ∀ v ∈ repElems argmap param, isMissing v = false := by
  intro v hv
  unfold repElems repArg at hv
  cases hl : argmap.lookup param.name with
  | none => rw [hl] at hv; simp at hv
  | some w =>
    rw [hl] at hv
    cases w <;> simp at hv
    case list l =>
      have hmem := mem_of_lookupPV argmap param.name (.list l) hl
      have := hcl _ hmem
      simp [cleanVal, List.all_eq_true] at this
      simpa using this v hv

/-- Processing order constraint: once a repeating parameter occurs,
every later parameter is repeating and named. -/
def paramOrder (p q : Param) : Prop :=
  p.repeats ≠ none → (q.repeats ≠ none ∧ q.named = true)

/-- Parameters that are all repeating and named contribute nothing to
the positional arguments. -/
theorem flatMap_contribution_nil (argmap : List (String × PVal))
    (params : List Param)
    (h : ∀ p ∈ params, p.repeats ≠ none ∧ p.named = true) :
    params.flatMap (contribution argmap) = [] := by
  induction params with
  | nil => rfl
  | cons p rest ih =>
    rw [List.flatMap_cons]
    have hp := h p (List.mem_cons_self p rest)
    have hrest := ih (fun q hq => h q (List.mem_cons.mpr (Or.inr hq)))
    rw [hrest]
    cases hr : p.repeats with
    | none => exact absurd hr hp.1
    | some r =>
      cases r with
      | mk rmin rmax =>
        simp [contribution, hr, hp.2]

end Scpi

namespace Scpi

/-- A successful `parseInputs` fold returns exactly the concatenation
of the per-parameter contributions after the initial arguments. -/
theorem buildArgs_ok_args (argmap : List (String × PVal)) :
    ∀ (params : List Param) (args : List PVal)
      (kwargs : List (String × PVal)) (A : List PVal)
      (K : List (String × PVal)),
    (∀ p ∈ params, repOkP argmap p = true) →
    buildArgsGo argmap params args kwargs = .ok (A, K) →
    A = args ++ params.flatMap (contribution argmap) := by
  intro params
  induction params with
  | nil =>
    intro args kwargs A K _ h
    simp only [buildArgsGo, Except.ok.injEq, Prod.mk.injEq] at h
    simp [h.1.symm]
  | cons p rest ih =>
    intro args kwargs A K hrep h
    have hreptl : ∀ q ∈ rest, repOkP argmap q = true :=
      fun q hq => hrep q (List.mem_cons.mpr (Or.inr hq))
    rw [List.flatMap_cons]
    simp only [buildArgsGo] at h
    cases hr : p.repeats with
    | none =>
      rw [hr] at h
      simp only [] at h
      have := ih _ _ _ _ hreptl h
      simp [contribution, hr, this]
    | some r =>
      cases r with
      | mk rmin rmax =>
        rw [hr] at h
        cases hn : p.named with
        | false =>
          simp only [hn, Bool.not_false, if_true] at h
          rw [repArg_eq_list argmap p (rmin, rmax) hr hn
            (hrep p (List.mem_cons_self p rest)), repStep_list] at h
          cases hc : repCheck (repElems argmap p) rmin rmax <;>
            rw [hc] at h <;> simp only [] at h
          case markMissing =>
            have := ih _ _ _ _ hreptl h
            simp [contribution, hr, hn, hc, this]
          case tooFew => cases h
          case tooMany => cases h
          case extendArg =>
            have := ih _ _ _ _ hreptl h
            simp [contribution, hr, hn, hc, this]
        | true =>
          simp only [hn, Bool.not_true, Bool.false_eq_true, if_false] at h
          have hcontrib : contribution argmap p = [] := by
            simp [contribution, hr, hn]
          rw [hcontrib, List.nil_append]
          cases hl : argmap.lookup p.name with
          | none =>
            rw [hl] at h
            exact ih _ _ _ _ hreptl h
          | some w =>
            rw [hl] at h
            cases w <;> simp at h
            exact ih _ _ _ _ hreptl h

end Scpi

namespace Scpi

/-- A successful fold implies that no parameter fails its repeat-range
check. -/
theorem buildArgs_ok_noviol (argmap : List (String × PVal)) :
    ∀ (params : List Param) (args : List PVal)
      (kwargs : List (String × PVal)) (A : List PVal)
      (K : List (String × PVal)),
    (∀ p ∈ params, repOkP argmap p = true) →
    buildArgsGo argmap params args kwargs = .ok (A, K) →
    ∀ p ∈ params, repViolation argmap p = false := by
  intro params
  induction params with
  | nil =>
    intro args kwargs A K _ h p hp
    cases hp
  | cons q rest ih =>
    intro args kwargs A K hrep h p hp
    have hreptl : ∀ b ∈ rest, repOkP argmap b = true :=
      fun b hb => hrep b (List.mem_cons.mpr (Or.inr hb))
    simp only [buildArgsGo] at h
    rcases List.mem_cons.mp hp with hple | hptail
    · subst hple
      cases hr : p.repeats with
      | none => simp [repViolation, hr]
      | some r =>
        cases r with
        | mk rmin rmax =>
          rw [hr] at h
          cases hn : p.named with
          | true => simp [repViolation, hr, hn]
          | false =>
            simp only [hn, Bool.not_false, if_true] at h
            rw [repArg_eq_list argmap p (rmin, rmax) hr hn
              (hrep p (List.mem_cons_self p rest)), repStep_list] at h
            cases hc : repCheck (repElems argmap p) rmin rmax <;>
              rw [hc] at h <;> simp only [] at h
            case markMissing => simp [repViolation, hr, hn, hc]
            case tooFew => cases h
            case tooMany => cases h
            case extendArg => simp [repViolation, hr, hn, hc]
    · cases hr : q.repeats with
      | none =>
        rw [hr] at h
        simp only [] at h
        exact ih _ _ _ _ hreptl h p hptail
      | some r =>
        cases r with
        | mk rmin rmax =>
          rw [hr] at h
          cases hn : q.named with
          | false =>
            simp only [hn, Bool.not_false, if_true] at h
            rw [repArg_eq_list argmap q (rmin, rmax) hr hn
              (hrep q (List.mem_cons_self q rest)), repStep_list] at h
            cases hc : repCheck (repElems argmap q) rmin rmax <;>
              rw [hc] at h <;> simp only [] at h
            case markMissing => exact ih _ _ _ _ hreptl h p hptail
            case tooFew => cases h
            case tooMany => cases h
            case extendArg => exact ih _ _ _ _ hreptl h p hptail
          | true =>
            simp only [hn, Bool.not_true, Bool.false_eq_true, if_false] at h
            cases hl : argmap.lookup q.name with
            | none =>
              rw [hl] at h
              exact ih _ _ _ _ hreptl h p hptail
            | some w =>
              rw [hl] at h
              cases w <;> simp at h
              exact ih _ _ _ _ hreptl h p hptail

/-- The fold only fails with a repeat-range error or the
`kwargs.update` type error, never with `MissingArgument`. -/
theorem buildArgs_error_shape (argmap : List (String × PVal)) :
    ∀ (params : List Param) (args : List PVal)
      (kwargs : List (String × PVal)) (e : ArgErr),
    (∀ p ∈ params, repOkP argmap p = true) →
    buildArgsGo argmap params args kwargs = .error e →
    (∃ nm, e = ArgErr.tooFewRepeats nm) ∨ (∃ nm, e = ArgErr.tooManyRepeats nm) ∨
      e = ArgErr.typeErr := by
  intro params
  induction params with
  | nil =>
    intro args kwargs e _ h
    simp [buildArgsGo] at h
  | cons q rest ih =>
    intro args kwargs e hrep h
    have hreptl : ∀ b ∈ rest, repOkP argmap b = true :=
      fun b hb => hrep b (List.mem_cons.mpr (Or.inr hb))
    simp only [buildArgsGo] at h
    cases hr : q.repeats with
    | none =>
      rw [hr] at h
      simp only [] at h
      exact ih _ _ _ hreptl h
    | some r =>
      cases r with
      | mk rmin rmax =>
        rw [hr] at h
        cases hn : q.named with
        | false =>
          simp only [hn, Bool.not_false, if_true] at h
          rw [repArg_eq_list argmap q (rmin, rmax) hr hn
            (hrep q (List.mem_cons_self q rest)), repStep_list] at h
          cases hc : repCheck (repElems argmap q) rmin rmax <;>
            rw [hc] at h <;> simp only [] at h
          case markMissing => exact ih _ _ _ hreptl h
          case tooFew =>
            cases h
            exact Or.inl ⟨q.name, rfl⟩
          case tooMany =>
            cases h
            exact Or.inr (Or.inl ⟨q.name, rfl⟩)
          case extendArg => exact ih _ _ _ hreptl h
        | true =>
          simp only [hn, Bool.not_true, Bool.false_eq_true, if_false] at h
          cases hl : argmap.lookup q.name with
          | none =>
            rw [hl] at h
            exact ih _ _ _ hreptl h
          | some w =>
            rw [hl] at h
            cases w
            case dict d => exact ih _ _ _ hreptl h
            all_goals
              simp at h
              rw [h.symm]
              exact Or.inr (Or.inr rfl)

/-- With no repeat-range violation and dict-shaped named bindings,
the fold succeeds and yields the contribution concatenation. -/
theorem buildArgs_ok_of (argmap : List (String × PVal)) :
    ∀ (params : List Param),
    (∀ p ∈ params, repViolation argmap p = false) →
    (∀ p ∈ params, namedOk argmap p = true) →
    (∀ p ∈ params, repOkP argmap p = true) →
    ∀ (args : List PVal) (kwargs : List (String × PVal)),
    ∃ K, buildArgsGo argmap params args kwargs =
      .ok (args ++ params.flatMap (contribution argmap), K) := by
  intro params
  induction params with
  | nil =>
    intro _ _ _ args kwargs
    exact ⟨kwargs, by simp [buildArgsGo]⟩
  | cons q rest ih =>
    intro hviol hdict hrep args kwargs
    have hqv := hviol q (List.mem_cons_self q rest)
    have hqd := hdict q (List.mem_cons_self q rest)
    have hrestv := fun p hp => hviol p (List.mem_cons.mpr (Or.inr hp))
    have hrestd := fun p hp => hdict p (List.mem_cons.mpr (Or.inr hp))
    have hrestr : ∀ p ∈ rest, repOkP argmap p = true :=
      fun p hp => hrep p (List.mem_cons.mpr (Or.inr hp))
    rw [List.flatMap_cons]
    simp only [buildArgsGo]
    cases hr : q.repeats with
    | none =>
      simp only []
      obtain ⟨K, hK⟩ := ih hrestv hrestd hrestr
        (args ++ [(argmap.lookup q.name).getD q.default]) kwargs
      refine ⟨K, ?_⟩
      rw [hK]
      simp [contribution, hr]
    | some r =>
      cases r with
      | mk rmin rmax =>
        cases hn : q.named with
        | false =>
          simp only [Bool.not_false, if_true]
          rw [repArg_eq_list argmap q (rmin, rmax) hr hn
            (hrep q (List.mem_cons_self q rest)), repStep_list]
          cases hc : repCheck (repElems argmap q) rmin rmax
          case tooFew =>
            exfalso
            have : repViolation argmap q = true := by
              simp [repViolation, hr, hn, hc]
            rw [hqv] at this
            cases this
          case tooMany =>
            exfalso
            have : repViolation argmap q = true := by
              simp [repViolation, hr, hn, hc]
            rw [hqv] at this
            cases this
          case markMissing =>
            obtain ⟨K, hK⟩ := ih hrestv hrestd hrestr
              (args ++ [PVal.missing]) kwargs
            refine ⟨K, ?_⟩
            simp only []
            rw [hK]
            simp [contribution, hr, hn, hc]
          case extendArg =>
            obtain ⟨K, hK⟩ := ih hrestv hrestd hrestr
              (args ++ repElems argmap q) kwargs
            refine ⟨K, ?_⟩
            simp only []
            rw [hK]
            simp [contribution, hr, hn, hc]
        | true =>
          simp only [Bool.not_true, Bool.false_eq_true, if_false]
          have hcontrib : contribution argmap q = [] := by
            simp [contribution, hr, hn]
          rw [hcontrib, List.nil_append]
          cases hl : argmap.lookup q.name with
          | none => exact ih hrestv hrestd hrestr args kwargs
          | some w =>
            cases w
            case dict d =>
              exact ih hrestv hrestd hrestr args (updAssocMany kwargs d)
            all_goals
              exfalso
              have : namedOk argmap q = false := by
                simp [namedOk, hr, hn, hl]
              rw [hqd] at this
              cases this

end Scpi

namespace Scpi

/-- The parameter found at the index of the first `Missing` marker
(`params[args.index(Missing)]`) is itself a missing-contributor:
under the processing-order constraint, every parameter before it adds
exactly one argument. -/
theorem missing_index_aligned (argmap : List (String × PVal))
    (hcl : ∀ kv ∈ argmap, cleanVal kv.2 = true) :
    ∀ (params : List Param), List.Pairwise paramOrder params →
    ∀ idx,
    List.findIdx? isMissing (params.flatMap (contribution argmap)) = some idx →
    ∃ p, params.get? idx = some p ∧ contributesMissing argmap p = true := by
  intro params
  induction params with
  | nil =>
    intro _ idx h
    simp [List.findIdx?_nil] at h
  | cons q rest ih =>
    intro hpw idx h
    obtain ⟨hq, hrestpw⟩ := List.pairwise_cons.mp hpw
    rw [List.flatMap_cons, List.findIdx?_append] at h
    cases hr : q.repeats with
    | none =>
      have hcq : contribution argmap q =
          [(argmap.lookup q.name).getD q.default] := by
        simp [contribution, hr]
      rw [hcq] at h
      cases hm : isMissing ((argmap.lookup q.name).getD q.default) with
      | true =>
        have h1 : List.findIdx? isMissing
            [(argmap.lookup q.name).getD q.default] = some 0 := by
          rw [List.findIdx?_cons, hm]
          simp
        rw [h1] at h
        simp [Option.or] at h
        refine ⟨q, ?_, ?_⟩
        · rw [h.symm]
          rfl
        · simp [contributesMissing, hcq, List.any_eq_true]
          exact hm
      | false =>
        have h1 : List.findIdx? isMissing
            [(argmap.lookup q.name).getD q.default] = none := by
          rw [List.findIdx?_cons, hm]
          simp [List.findIdx?_nil]
        rw [h1] at h
        simp only [Option.or] at h
        rcases Option.map_eq_some'.mp h with ⟨idx0, hidx0, hsum⟩
        obtain ⟨p, hget, hcm⟩ := ih hrestpw idx0 hidx0
        refine ⟨p, ?_, hcm⟩
        rw [hsum.symm]
        simpa using hget
    | some r =>
      cases r with
      | mk rmin rmax =>
        have hnamedrest : ∀ b ∈ rest, b.repeats ≠ none ∧ b.named = true :=
          fun b hb => hq b hb (by rw [hr]; exact Option.noConfusion)
        have hrestnil : rest.flatMap (contribution argmap) = [] :=
          flatMap_contribution_nil argmap rest hnamedrest
        rw [hrestnil, List.findIdx?_nil] at h
        cases hn : q.named with
        | true =>
          have hcq : contribution argmap q = [] := by
            simp [contribution, hr, hn]
          rw [hcq, List.findIdx?_nil] at h
          simp [Option.or] at h
        | false =>
          cases hc : repCheck (repElems argmap q) rmin rmax
          case markMissing =>
            have hcq : contribution argmap q = [PVal.missing] := by
              simp [contribution, hr, hn, hc]
            rw [hcq] at h
            have h1 : List.findIdx? isMissing [PVal.missing] = some 0 := by
              rw [List.findIdx?_cons]
              simp [isMissing]
            rw [h1] at h
            simp [Option.or] at h
            refine ⟨q, ?_, ?_⟩
            · rw [h.symm]
              rfl
            · simp [contributesMissing, hcq, List.any_eq_true]
              simp [isMissing]
          case tooFew =>
            have hcq : contribution argmap q = repElems argmap q := by
              simp [contribution, hr, hn, hc]
            rw [hcq] at h
            have h1 : List.findIdx? isMissing (repElems argmap q) = none := by
              rw [List.findIdx?_eq_none_iff]
              exact repElems_clean argmap hcl q
            rw [h1] at h
            simp [Option.or] at h
          case tooMany =>
            have hcq : contribution argmap q = repElems argmap q := by
              simp [contribution, hr, hn, hc]
            rw [hcq] at h
            have h1 : List.findIdx? isMissing (repElems argmap q) = none := by
              rw [List.findIdx?_eq_none_iff]
              exact repElems_clean argmap hcl q
            rw [h1] at h
            simp [Option.or] at h
          case extendArg =>
            have hcq : contribution argmap q = repElems argmap q := by
              simp [contribution, hr, hn, hc]
            rw [hcq] at h
            have h1 : List.findIdx? isMissing (repElems argmap q) = none := by
              rw [List.findIdx?_eq_none_iff]
              exact repElems_clean argmap hcl q
            rw [h1] at h
            simp [Option.or] at h

end Scpi

namespace Scpi

/-- Reduction of `parseInputs` once the part walk has produced an
argument map. -/
theorem parseInputs_unfold (leaf : LeafDef) (parts : List Part3)
    (options argmap : List (String × PVal))
    (hmap : mapParts leaf parts options = .ok argmap) :
    parseInputs leaf parts options =
      (match buildArgsGo argmap leaf.inputList [] [] with
       | .error e => .error e
       | .ok (args, kwargs) =>
         match args.findIdx? (fun v => isMissing v) with
         | none => .ok (args, kwargs, argmap)
         | some idx =>
           match leaf.inputList.get? idx with
           | none => .error ArgErr.indexErr
           | some param =>
             if param.ptype.isSome then
               .error (ArgErr.missingArgument (stripDollar param.name))
             else .error ArgErr.assertionErr) := by
  simp only [parseInputs, hmap, bind, Except.bind]
  cases hb : buildArgsGo argmap leaf.inputList [] [] with
  | error e => rfl
  | ok x =>
    cases x with
    | mk args kwargs => rfl

end Scpi

/-- C3 (amended).  Parameter-binding completion for a part walk that
produced the argument map `argmap`: provided the bound values are
clean (no `Missing` sentinels, as `convertArg` guarantees), named
repeating parameters hold dicts, repeating positional parameters
hold lists (the shape the repeat accumulator produces; an
`options` pre-binding may break both shape provisos), the
declaration order puts repeating parameters last with only named
repeaters after the first one, and every missing-contributor
parameter is typed, then `parseInputs` raises `MissingArgument` if
and only if no parameter violates its repeat range and some
parameter leaves a `Missing` marker — that is, a required parameter
(default `Missing`) is unbound, *or* a repeating positional
parameter with a positive minimum received no values, regardless of
its own default (so the claim's "iff a required parameter was left
unbound" is refuted by `c3_counterexample`).  On success the
positional arguments are exactly the per-parameter contributions,
so every unbound optional non-repeating parameter receives its
declared default. -/
theorem c3_parameter_binding
    (leaf : Scpi.LeafDef) (parts : List Scpi.Part3)
    (options argmap : List (String × Scpi.PVal))
    (hmap : Scpi.mapParts leaf parts options = .ok argmap)
    (hclean : ∀ kv ∈ argmap, Scpi.cleanVal kv.2 = true)
    (hdict : ∀ p ∈ leaf.inputList, Scpi.namedOk argmap p = true)
    (hrep : ∀ p ∈ leaf.inputList, Scpi.repOkP argmap p = true)
    (hstruct : List.Pairwise Scpi.paramOrder leaf.inputList)
    (htyped : ∀ p ∈ leaf.inputList,
      Scpi.contributesMissing argmap p = true → p.ptype.isSome = true) :
    ((∃ nm, Scpi.parseInputs leaf parts options =
        .error (Scpi.ArgErr.missingArgument nm)) ↔
      ((∀ p ∈ leaf.inputList, Scpi.repViolation argmap p = false) ∧
       (∃ p ∈ leaf.inputList, Scpi.contributesMissing argmap p = true))) ∧
    (∀ args kwargs amap,
      Scpi.parseInputs leaf parts options = .ok (args, kwargs, amap) →
      args = leaf.inputList.flatMap (Scpi.contribution argmap)) := by
  rw [Scpi.parseInputs_unfold leaf parts options argmap hmap]
  cases hb : Scpi.buildArgsGo argmap leaf.inputList [] [] with
  | error e =>
    constructor
    · constructor
      · rintro ⟨nm, h⟩
        simp only [] at h
        rcases Scpi.buildArgs_error_shape argmap leaf.inputList [] [] e
            hrep hb with
          ⟨nm2, he⟩ | ⟨nm2, he⟩ | he <;>
          · rw [he] at h
            cases h
      · rintro ⟨hviol, p, hp, hcm⟩
        obtain ⟨K, hK⟩ :=
          Scpi.buildArgs_ok_of argmap leaf.inputList hviol hdict hrep [] []
        rw [hb] at hK
        cases hK
    · intro args kwargs amap h
      cases h
  | ok x =>
    cases x with
    | mk args0 kw0 =>
      dsimp only
      have hargs : args0 = leaf.inputList.flatMap (Scpi.contribution argmap) := by
        have := Scpi.buildArgs_ok_args argmap leaf.inputList [] [] args0 kw0
          hrep hb
        simpa using this
      have hnoviol := Scpi.buildArgs_ok_noviol argmap leaf.inputList [] []
        args0 kw0 hrep hb
      cases hf : args0.findIdx? (fun v => Scpi.isMissing v) with
      | none =>
        dsimp only
        constructor
        · constructor
          · rintro ⟨nm, h⟩
            cases h
          · rintro ⟨hviol, p, hp, hcm⟩
            exfalso
            simp only [Scpi.contributesMissing, List.any_eq_true] at hcm
            obtain ⟨v, hv, hvm⟩ := hcm
            have hvmem : v ∈ args0 := by
              rw [hargs]
              exact List.mem_flatMap.mpr ⟨p, hp, hv⟩
            have : (args0.findIdx? (fun v => Scpi.isMissing v)).isSome = true := by
              rw [List.findIdx?_isSome, List.any_eq_true]
              exact ⟨v, hvmem, hvm⟩
            rw [hf] at this
            cases this
        · intro args kwargs amap h
          simp only [Except.ok.injEq, Prod.mk.injEq] at h
          exact h.1.symm.trans hargs
      | some idx =>
        dsimp only
        have hidx : List.findIdx? (fun v => Scpi.isMissing v)
            (leaf.inputList.flatMap (Scpi.contribution argmap)) = some idx := by
          rw [hargs] at hf
          exact hf
        obtain ⟨p, hget, hcm⟩ :=
          Scpi.missing_index_aligned argmap hclean leaf.inputList hstruct idx hidx
        have hmem : p ∈ leaf.inputList := List.get?_mem hget
        have hty := htyped p hmem hcm
        rw [hget]
        simp only [hty, if_true]
        constructor
        · constructor
          · intro _
            exact ⟨hnoviol, p, hmem, hcm⟩
          · intro _
            exact ⟨Scpi.stripDollar p.name, rfl⟩
        · intro args kwargs amap h
          cases h

namespace Scpi

/-- A single required typed positional input (default `Missing`). -/
def c3wx : Param :=
  { name := "x", ptype := some PType.tStr, named := false,
    default := PVal.missing, repeats := none, form := PForm.object }

/-- A leaf declaring only `c3wx`. -/
def c3wleaf : LeafDef :=
  { inputList := [c3wx], inputMap := [("x", c3wx)],
    varParam := none, varOptParam := none }

end Scpi

/-- The binding theorem instantiated on a leaf with a single required
typed positional parameter and an empty command: the walk yields an
empty argument map, and the characterisation applies. -/
theorem c3_parameter_binding_witness :
    ((∃ nm, Scpi.parseInputs Scpi.c3wleaf [] [] =
        .error (Scpi.ArgErr.missingArgument nm)) ↔
      ((∀ p ∈ Scpi.c3wleaf.inputList, Scpi.repViolation [] p = false) ∧
       (∃ p ∈ Scpi.c3wleaf.inputList, Scpi.contributesMissing [] p = true))) ∧
    (∀ args kwargs amap,
      Scpi.parseInputs Scpi.c3wleaf [] [] = .ok (args, kwargs, amap) →
      args = Scpi.c3wleaf.inputList.flatMap (Scpi.contribution [])) :=
  c3_parameter_binding Scpi.c3wleaf [] [] [] rfl
    (fun kv h => absurd h (List.not_mem_nil kv))
    (by
      intro p hp
      rw [List.mem_singleton.mp hp]
      rfl)
    (by
      intro p hp
      rw [List.mem_singleton.mp hp]
      rfl)
    (by
      constructor
      · intro b hb
        cases hb
      · exact List.Pairwise.nil)
    (by
      intro p hp _
      rw [List.mem_singleton.mp hp]
      rfl)

namespace Scpi

/-! ## §C7: implicit parameter declaration (`leaf.py`
`addImplicitParameters`, `parameter.py` `Parameter.update` /
`setInitial`)

The declaration-time state is the ordered `inputList`; `inputMap`
aliasing is modelled by keying updates on the registration basename,
which touches every list position holding the shared object.  A
parameter is tracked through the fields the promotion logic reads:
its name and the `type`/`named`/`default`/`repeats` attributes,
abstracted to whether a type is set, whether the parameter is named,
whether its default is the `Missing` sentinel, and whether it
repeats. -/

/-- A parameter as seen by the implicit-declaration pass. -/
structure ImplicitParam where
  name : String
  typed : Bool
  named : Bool
  required : Bool
  repeats : Bool
deriving DecidableEq, Repr

/-- An `initial` value passed to `Parameter.setInitial`, abstracted to
the branch it selects: `None`, the `Missing` sentinel, a tuple
(`Enum`), a dict (`Lookup`, recording whether a `None` key is present
and whether its value is the `Missing` sentinel), a `ParameterType`
instance, a value whose type is in `typeMap`, or a type object in
`typeMap` (such as `str`).  Initials of any other shape raise
`TypeError` in the source and do not occur in declarations. -/
inductive InitVal where
  | pyNone
  | missingSentinel
  | enumWords
  | lookupMap (noneEntryMissing : Option Bool)
  | typeInstance
  | valueOf
  | typeObj
deriving DecidableEq, Repr

/-- `Parameter.setInitial` restricted to the tracked fields:
`None` clears the default, `Missing` clears the type, a tuple/dict/
`ParameterType`/type-object sets the type, a dict's `None` entry and
a plain value also replace the default. -/
def setInitialI (p : ImplicitParam) (i : InitVal) : ImplicitParam :=
  match i with
  | .pyNone => { p with required := false }
  | .missingSentinel => { p with typed := false }
  | .enumWords => { p with typed := true }
  | .lookupMap noneEntry =>
    { p with typed := true,
             required := match noneEntry with
                         | none => p.required
                         | some b => b }
  | .typeInstance => { p with typed := true }
  | .valueOf => { p with typed := true, required := false }
  | .typeObj => { p with typed := true }

/-- `Parameter.update(type=ann, ...)` followed by the
`named`/`repeats` attribute assignments (`update` only calls
`setInitial` when the `type` argument is not the `Missing`
sentinel). -/
def updSpec (base : ImplicitParam) (ann : Option InitVal)
    (namedAttr repeatsAttr : Bool) : ImplicitParam :=
  let p0 := match ann with
            | some i => setInitialI base i
            | none => base
  let p1 := if namedAttr then { p0 with named := true } else p0
  if repeatsAttr then { p1 with repeats := true } else p1

/-- Update every list position holding the parameter registered under
basename `bn` (the positions alias one shared object). -/
def updParamI (st : List ImplicitParam) (bn : String)
    (f : ImplicitParam → ImplicitParam) : List ImplicitParam :=
  st.map (fun p => if pbasename p.name == bn then f p else p)

/-- `Leaf.addInput` as used during implicit declaration: `createInput`
reuses (and updates) the parameter already registered under the
basename, or creates a fresh one (class defaults: no type, unnamed,
default `Missing`, no repeats); the parameter object is then appended
to `inputList`. -/
def addInputI (st : List ImplicitParam) (pname : String)
    (ann : Option InitVal) (namedAttr repeatsAttr : Bool) :
    List ImplicitParam :=
  let bn := pbasename pname
  match st.find? (fun p => pbasename p.name == bn) with
  | some existing =>
    let p2 := updSpec existing ann namedAttr repeatsAttr
    updParamI st bn (fun _ => p2) ++ [p2]
  | none =>
    st ++ [updSpec ⟨pname, false, false, true, false⟩ ann namedAttr repeatsAttr]

/-- Promote every parameter queued in `optionalList` to `named`
(`while optionalList: self.setInput(optionalList.pop(), named=True)`;
pop order is irrelevant since all entries are popped). -/
def nameAll (st : List ImplicitParam) (optList : List String) :
    List ImplicitParam :=
  optList.foldl
    (fun s nm => updParamI s (pbasename nm) (fun p => { p with named := true }))
    st

/-- The `getfullargspec` fields `addImplicitParameters` reads. -/
structure ArgSpec where
  args : List String
  defaults : Option (List InitVal)
  kwonlyargs : List String
  kwonlydefaults : Option (List (String × InitVal))
  annotations : List (String × InitVal)
  varargs : Option String
  varkw : Option String

/-- One iteration of the `for index in range(1-len(spec.args), 0)`
loop, processing the argument at 0-based position `k` of
`spec.args[1:]`: register the (underscore-stripped) name with its
annotation, apply `spec.defaults[index]` when the negative index is
in range (`IndexError`/`TypeError` are passed over), then either
promote all queued optional parameters to `named` (required
parameter) or queue this one (optional parameter). -/
def runArgStep (annotations : List (String × InitVal))
    (defaults : Option (List InitVal)) (nArgs : Nat)
    (st : List ImplicitParam) (optList : List String)
    (k : Nat) (argname : String) : List ImplicitParam × List String :=
  let pname := rstripUnderscore argname
  let bn := pbasename pname
  let st1 := addInputI st pname (annotations.lookup argname) false false
  let st2 :=
    match defaults with
    | none => st1
    | some d =>
      let fromEnd := nArgs - 1 - k
      if 1 ≤ fromEnd ∧ fromEnd ≤ d.length then
        match d.get? (d.length - fromEnd) with
        | some iv => updParamI st1 bn (fun p => setInitialI p iv)
        | none => st1
      else st1
  let current := (st2.find? (fun p => pbasename p.name == bn)).getD
    ⟨pname, false, false, true, false⟩
  if current.required then
    (nameAll st2 optList, [])
  else
    (st2, optList ++ [pname])

/-- The positional-argument loop. -/
def runArgsGo (annotations : List (String × InitVal))
    (defaults : Option (List InitVal)) (nArgs : Nat) :
    List (Nat × String) → List ImplicitParam → List String →
    List ImplicitParam × List String
  | [], st, optList => (st, optList)
  | (k, argname) :: rest, st, optList =>
    let s := runArgStep annotations defaults nArgs st optList k argname
    runArgsGo annotations defaults nArgs rest s.1 s.2

/-- The keyword-only-argument loop: each name is registered as
`named=True` with its annotation, then `setInitial` applies the
keyword-only default (the `Missing` sentinel when absent); if
`getfullargspec` returned no keyword-only defaults at all, the
`.get` attribute access raises. -/
def kwArgsGo (annotations : List (String × InitVal))
    (kwonlydefaults : Option (List (String × InitVal))) :
    List String → List ImplicitParam → Except ArgErr (List ImplicitParam)
  | [], st => .ok st
  | argname :: rest, st =>
    let pname := rstripUnderscore argname
    let st1 := addInputI st pname (annotations.lookup argname) true false
    match kwonlydefaults with
    | none => .error ArgErr.attributeErr
    | some kd =>
      kwArgsGo annotations kwonlydefaults rest
        (updParamI st1 (pbasename pname)
          (fun p => setInitialI p ((kd.lookup argname).getD InitVal.missingSentinel)))

/-- `Leaf.addImplicitParameters`: process the `run()` positional
arguments (skipping `self`), the keyword-only arguments, then the
`*varargs` catch-all (promoting any still-queued optional positionals
first, and registering the catch-all typed `str` with unlimited
repeats); a `**kwargs` catch-all reaches the undefined global
`fVarKW` and raises `NameError`. -/
def addImplicitParameters (spec : ArgSpec) :
    Except ArgErr (List ImplicitParam) :=
  let s := runArgsGo spec.annotations spec.defaults spec.args.length
    (spec.args.drop 1).enum [] []
  match kwArgsGo spec.annotations spec.kwonlydefaults spec.kwonlyargs s.1 with
  | .error e => .error e
  | .ok st1 =>
    let st2 :=
      match spec.varargs with
      | some vname =>
        addInputI (nameAll st1 s.2) vname (some InitVal.typeObj) false true
      | none => st1
    match spec.varkw with
    | some _ => .error ArgErr.nameErr
    | none => .ok st2

/-- A positional (unnamed) parameter that is optional. -/
def optPosB (p : ImplicitParam) : Bool := !p.named && !p.required

/-- A positional (unnamed) parameter that is required. -/
def reqPosB (p : ImplicitParam) : Bool := !p.named && p.required

end Scpi

namespace Scpi

/-- `run(self, a, d, a_=5)`: the names `a` and `a_` collapse to the
same registered parameter after the trailing-underscore strip. -/
def c7spec : ArgSpec :=
  { args := ["self", "a", "d", "a_"], defaults := some [InitVal.valueOf],
    kwonlyargs := [], kwonlydefaults := none, annotations := [],
    varargs := none, varkw := none }

/-- The shared parameter `a` after `a_=5` makes it optional. -/
def c7a : ImplicitParam := ⟨"a", true, false, false, false⟩

/-- The required positional parameter `d`. -/
def c7d : ImplicitParam := ⟨"d", false, false, true, false⟩

end Scpi

/-- For `run(self, a, d, a_=5)` the underscore-stripped name `a_`
reuses the parameter object already registered for `a` and gives it
the default `5` retroactively, so the declared list ends as
`[a, d, a]` with the optional positional `a` preceding the required
positional `d` — the promotion invariant fails and nothing marks `a`
named. -/
theorem c7_counterexample :
    Scpi.addImplicitParameters Scpi.c7spec =
      .ok [Scpi.c7a, Scpi.c7d, Scpi.c7a] ∧
    Scpi.optPosB Scpi.c7a = true ∧ Scpi.reqPosB Scpi.c7d = true :=
  ⟨rfl, rfl, rfl⟩

namespace Scpi

/-- The promotion invariant relation: an optional positional never
precedes a required positional. -/
def promOrder (p q : ImplicitParam) : Prop :=
  optPosB p = true → reqPosB q = false

/-- `setInitial` never renames a parameter. -/
theorem setInitialI_name (p : ImplicitParam) (i : InitVal) :
    (setInitialI p i).name = p.name := by
  cases i <;> rfl

/-- `setInitial` never changes whether a parameter is named. -/
theorem setInitialI_named (p : ImplicitParam) (i : InitVal) :
    (setInitialI p i).named = p.named := by
  cases i <;> rfl

/-- `updSpec` never renames a parameter. -/
theorem updSpec_name (b : ImplicitParam) (ann : Option InitVal)
    (na ra : Bool) : (updSpec b ann na ra).name = b.name := by
  cases ann with
  | none => cases na <;> cases ra <;> rfl
  | some i => cases na <;> cases ra <;> simp [updSpec, setInitialI_name]

/-- Registering with `named=True` yields a named parameter. -/
theorem updSpec_named_true (b : ImplicitParam) (ann : Option InitVal)
    (ra : Bool) : (updSpec b ann true ra).named = true := by
  cases ann <;> cases ra <;> rfl

/-- A named parameter is neither an optional nor a required
positional. -/
theorem not_pos_of_named (p : ImplicitParam) (h : p.named = true) :
    optPosB p = false ∧ reqPosB p = false := by
  simp [optPosB, reqPosB, h]

/-- A list without optional positionals satisfies the promotion
invariant outright. -/
theorem pairwise_prom_of_no_opt (st : List ImplicitParam)
    (h : ∀ p ∈ st, optPosB p = false) : List.Pairwise promOrder st := by
  induction st with
  | nil => exact List.Pairwise.nil
  | cons p rest ih =>
    refine List.Pairwise.cons ?_ (ih (fun q hq => h q (List.mem_cons.mpr (Or.inr hq))))
    intro q _ hopt
    rw [h p (List.mem_cons_self p rest)] at hopt
    cases hopt

/-- `nameAll` as a single pointwise pass: a parameter is promoted to
`named` exactly when some queued name shares its basename. -/
theorem nameAll_eq_map (optList : List String) :
    ∀ st : List ImplicitParam,
    nameAll st optList = st.map (fun p =>
      if optList.any (fun nm => pbasename nm == pbasename p.name) then
        { p with named := true }
      else p) := by
  induction optList with
  | nil =>
    intro st
    simp [nameAll]
  | cons nm rest ih =>
    intro st
    have h1 : nameAll st (nm :: rest) =
        nameAll (updParamI st (pbasename nm) (fun p => { p with named := true }))
          rest := by
      simp [nameAll, List.foldl_cons]
    rw [h1, ih, updParamI, List.map_map]
    refine List.map_congr_left ?_
    intro p _
    simp only [Function.comp]
    rw [List.any_cons]
    by_cases hm : (pbasename p.name == pbasename nm) = true
    · have hm' : (pbasename nm == pbasename p.name) = true := by
        simp at hm ⊢
        exact hm.symm
      rw [if_pos hm, hm', Bool.true_or, if_pos rfl]
      split <;> rfl
    · rw [if_neg hm]
      have hm' : (pbasename nm == pbasename p.name) = false := by
        simp at hm ⊢
        exact fun h => hm h.symm
      rw [hm', Bool.false_or]

end Scpi

namespace Scpi

/-- Loop invariant: every optional positional parameter currently in
the list is queued in `optionalList` (under its basename). -/
def optQueued (st : List ImplicitParam) (optList : List String) : Prop :=
  ∀ p ∈ st, optPosB p = true → ∃ nm ∈ optList, pbasename nm = pbasename p.name

/-- After promoting the whole queue, no optional positional remains. -/
theorem nameAll_no_opt (st : List ImplicitParam) (optList : List String)
    (hB : optQueued st optList) :
    ∀ q ∈ nameAll st optList, optPosB q = false := by
  intro q hq
  rw [nameAll_eq_map] at hq
  rcases List.mem_map.mp hq with ⟨p, hp, rfl⟩
  by_cases hc : (optList.any (fun nm => pbasename nm == pbasename p.name)) = true
  · rw [if_pos hc]
    exact (not_pos_of_named _ rfl).1
  · rw [if_neg hc]
    cases hopt : optPosB p with
    | false => rfl
    | true =>
      exfalso
      obtain ⟨nm, hnm, he⟩ := hB p hp hopt
      apply hc
      rw [List.any_eq_true]
      exact ⟨nm, hnm, by simp [he]⟩

/-- Entries of `nameAll` carry the names of the original entries. -/
theorem nameAll_mem_name (st : List ImplicitParam) (optList : List String) :
    ∀ q ∈ nameAll st optList, ∃ p ∈ st, q.name = p.name := by
  intro q hq
  rw [nameAll_eq_map] at hq
  rcases List.mem_map.mp hq with ⟨p, hp, rfl⟩
  by_cases hc : (optList.any (fun nm => pbasename nm == pbasename p.name)) = true
  · rw [if_pos hc]
    exact ⟨p, hp, rfl⟩
  · rw [if_neg hc]
    exact ⟨p, hp, rfl⟩

/-- Mapping entries to themselves or to named parameters preserves
the promotion invariant. -/
theorem prom_map (f : ImplicitParam → ImplicitParam) :
    ∀ st : List ImplicitParam,
    (∀ p ∈ st, f p = p ∨ (f p).named = true) →
    List.Pairwise promOrder st →
    List.Pairwise promOrder (st.map f) := by
  intro st
  induction st with
  | nil =>
    intro _ _
    exact List.Pairwise.nil
  | cons p rest ih =>
    intro hf hA
    obtain ⟨hhead, htail⟩ := List.pairwise_cons.mp hA
    rw [List.map_cons]
    refine List.Pairwise.cons ?_
      (ih (fun r hr => hf r (List.mem_cons.mpr (Or.inr hr))) htail)
    intro b hb hopt
    rcases List.mem_map.mp hb with ⟨r, hr, rfl⟩
    rcases hf r (List.mem_cons.mpr (Or.inr hr)) with he | hn
    · rw [he]
      rcases hf p (List.mem_cons_self p rest) with hep | hnp
      · rw [hep] at hopt
        exact hhead r hr hopt
      · rw [(not_pos_of_named _ hnp).1] at hopt
        cases hopt
    · exact (not_pos_of_named _ hn).2

/-- Mapping entries to themselves or to named parameters, then
appending a named parameter, preserves both invariants. -/
theorem prom_map_append (st : List ImplicitParam) (optList : List String)
    (f : ImplicitParam → ImplicitParam) (q : ImplicitParam)
    (hf : ∀ p ∈ st, f p = p ∨ (f p).named = true)
    (hq : q.named = true)
    (hA : List.Pairwise promOrder st)
    (hB : optQueued st optList) :
    List.Pairwise promOrder (st.map f ++ [q]) ∧
    optQueued (st.map f ++ [q]) optList := by
  constructor
  · rw [List.pairwise_append]
    refine ⟨prom_map f st hf hA, List.pairwise_singleton _ _, ?_⟩
    intro a _ b hb hopt
    rw [List.mem_singleton.mp hb]
    exact (not_pos_of_named q hq).2
  · intro r hr hopt
    rcases List.mem_append.mp hr with hm | hm
    · rcases List.mem_map.mp hm with ⟨p, hp, rfl⟩
      rcases hf p hp with he | hn
      · rw [he] at hopt ⊢
        exact hB p hp hopt
      · rw [(not_pos_of_named _ hn).1] at hopt
        cases hopt
    · rw [List.mem_singleton.mp hm] at hopt
      rw [(not_pos_of_named q hq).1] at hopt
      cases hopt

end Scpi

namespace Scpi

/-- Promoting the queue leaves an appended parameter whose basename
matches no queued name untouched. -/
theorem nameAll_append_fresh (st : List ImplicitParam) (pB : ImplicitParam)
    (optList : List String)
    (h : ∀ nm ∈ optList, (pbasename nm == pbasename pB.name) = false) :
    nameAll (st ++ [pB]) optList = nameAll st optList ++ [pB] := by
  rw [nameAll_eq_map, nameAll_eq_map, List.map_append]
  congr 1
  have hany : (optList.any (fun nm => pbasename nm == pbasename pB.name)) = false := by
    cases ha : optList.any (fun nm => pbasename nm == pbasename pB.name) with
    | false => rfl
    | true =>
      obtain ⟨nm, hnm, hc⟩ := List.any_eq_true.mp ha
      rw [h nm hnm] at hc
      cases hc
  simp only [List.map_cons, List.map_nil, hany, Bool.false_eq_true, if_false]

/-- Processing one `run()` argument whose basename is fresh appends a
single parameter carrying the stripped name, then either promotes the
whole queue (required) or queues the new name (optional). -/
theorem runArgStep_fresh (annotations : List (String × InitVal))
    (defaults : Option (List InitVal)) (nArgs : Nat)
    (st : List ImplicitParam) (optList : List String) (k : Nat)
    (argname : String)
    (hfresh : ∀ p ∈ st,
      (pbasename p.name == pbasename (rstripUnderscore argname)) = false) :
    ∃ pB : ImplicitParam, pB.name = rstripUnderscore argname ∧
      runArgStep annotations defaults nArgs st optList k argname =
        (if pB.required = true then (nameAll (st ++ [pB]) optList, [])
         else (st ++ [pB], optList ++ [rstripUnderscore argname])) := by
  have hnone : st.find? (fun p =>
      pbasename p.name == pbasename (rstripUnderscore argname)) = none := by
    rw [List.find?_eq_none]
    intro p hp
    rw [hfresh p hp]
    exact Bool.false_ne_true
  have hbase : (updSpec ⟨rstripUnderscore argname, false, false, true, false⟩
      (annotations.lookup argname) false false).name = rstripUnderscore argname :=
    updSpec_name _ _ _ _
  unfold runArgStep
  dsimp only
  set pA := updSpec ⟨rstripUnderscore argname, false, false, true, false⟩
    (annotations.lookup argname) false false with hpA
  have hst1 : addInputI st (rstripUnderscore argname)
      (annotations.lookup argname) false false = st ++ [pA] := by
    rw [addInputI, hnone]
  have hupd : ∀ g : ImplicitParam → ImplicitParam,
      updParamI (st ++ [pA]) (pbasename (rstripUnderscore argname)) g =
        st ++ [g pA] := by
    intro g
    rw [updParamI, List.map_append]
    congr 1
    · refine List.map_congr_left ?_ |>.trans (List.map_id st)
      intro p hp
      rw [hfresh p hp]
      rfl
    · have hpropn : pbasename pA.name = pbasename (rstripUnderscore argname) := by
        rw [hbase]
      simp [hpropn]
  rw [hst1]
  have hshape : ∃ pB : ImplicitParam, pB.name = rstripUnderscore argname ∧
      (match defaults with
       | none => st ++ [pA]
       | some d =>
         let fromEnd := nArgs - 1 - k
         if 1 ≤ fromEnd ∧ fromEnd ≤ d.length then
           match d.get? (d.length - fromEnd) with
           | some iv => updParamI (st ++ [pA])
               (pbasename (rstripUnderscore argname))
               (fun p => setInitialI p iv)
           | none => st ++ [pA]
         else st ++ [pA]) = st ++ [pB] := by
    cases defaults with
    | none => exact ⟨pA, hbase, rfl⟩
    | some d =>
      by_cases hc : 1 ≤ nArgs - 1 - k ∧ nArgs - 1 - k ≤ d.length
      · cases hg : d.get? (d.length - (nArgs - 1 - k)) with
        | none =>
          refine ⟨pA, hbase, ?_⟩
          simp only [hc, if_true, hg]
          split <;> rfl
        | some iv =>
          refine ⟨setInitialI pA iv, by rw [setInitialI_name, hbase], ?_⟩
          simp only [hc, if_true, hg]
          exact hupd _
      · refine ⟨pA, hbase, ?_⟩
        simp only [if_neg hc]
  obtain ⟨pB, hname, heq⟩ := hshape
  refine ⟨pB, hname, ?_⟩
  simp only [heq]
  have hfind : (st ++ [pB]).find? (fun p =>
      pbasename p.name == pbasename (rstripUnderscore argname)) = some pB := by
    rw [List.find?_append, hnone]
    have : (pbasename pB.name ==
        pbasename (rstripUnderscore argname)) = true := by
      rw [hname]
      simp
    simp [List.find?_cons, this, Option.or]
  rw [hfind]
  rfl

end Scpi

namespace Scpi

/-- Invariant preservation along the positional-argument loop: with
pairwise-distinct fresh basenames for the remaining arguments, the
promotion and queue invariants are maintained, and all produced
basenames are accounted for. -/
theorem runArgs_inv (annotations : List (String × InitVal))
    (defaults : Option (List InitVal)) (nArgs : Nat) :
    ∀ (rem : List (Nat × String)) (st : List ImplicitParam)
      (optList done : List String),
    List.Pairwise promOrder st →
    optQueued st optList →
    (∀ p ∈ st, pbasename p.name ∈ done) →
    (∀ nm ∈ optList, pbasename nm ∈ done) →
    (∀ ka ∈ rem, pbasename (rstripUnderscore ka.2) ∉ done) →
    List.Pairwise (· ≠ ·)
      (rem.map (fun ka => pbasename (rstripUnderscore ka.2))) →
    List.Pairwise promOrder
      (runArgsGo annotations defaults nArgs rem st optList).1 ∧
    optQueued (runArgsGo annotations defaults nArgs rem st optList).1
      (runArgsGo annotations defaults nArgs rem st optList).2 ∧
    (∀ p ∈ (runArgsGo annotations defaults nArgs rem st optList).1,
      pbasename p.name ∈
        done ++ rem.map (fun ka => pbasename (rstripUnderscore ka.2))) ∧
    (∀ nm ∈ (runArgsGo annotations defaults nArgs rem st optList).2,
      pbasename nm ∈
        done ++ rem.map (fun ka => pbasename (rstripUnderscore ka.2))) := by
  intro rem
  induction rem with
  | nil =>
    intro st optList done hA hB hC hD _ _
    refine ⟨hA, hB, ?_, ?_⟩
    · intro p hp
      simp only [List.map_nil, List.append_nil]
      exact hC p hp
    · intro nm hnm
      simp only [List.map_nil, List.append_nil]
      exact hD nm hnm
  | cons ka rest ih =>
    obtain ⟨k, argname⟩ := ka
    intro st optList done hA hB hC hD hfresh hdist
    have hbn : pbasename (rstripUnderscore argname) ∉ done :=
      hfresh (k, argname) (List.mem_cons_self _ _)
    have hstfresh : ∀ p ∈ st,
        (pbasename p.name == pbasename (rstripUnderscore argname)) = false := by
      intro p hp
      have hin := hC p hp
      rw [beq_eq_false_iff_ne]
      intro he
      rw [he] at hin
      exact hbn hin
    obtain ⟨pB, hname, hstep⟩ :=
      runArgStep_fresh annotations defaults nArgs st optList k argname hstfresh
    rw [List.map_cons] at hdist
    obtain ⟨hdh, hdt⟩ := List.pairwise_cons.mp hdist
    have hfreshrest : ∀ ka2 ∈ rest, pbasename (rstripUnderscore ka2.2) ∉
        done ++ [pbasename (rstripUnderscore argname)] := by
      intro ka2 hka2
      rw [List.mem_append]
      rintro (hin | hin)
      · exact hfresh ka2 (List.mem_cons.mpr (Or.inr hka2)) hin
      · refine hdh (pbasename (rstripUnderscore ka2.2)) ?_ ?_
        · exact List.mem_map.mpr ⟨ka2, hka2, rfl⟩
        · exact (List.mem_singleton.mp hin).symm
    have hgo : runArgsGo annotations defaults nArgs
        ((k, argname) :: rest) st optList =
        runArgsGo annotations defaults nArgs rest
          (runArgStep annotations defaults nArgs st optList k argname).1
          (runArgStep annotations defaults nArgs st optList k argname).2 := rfl
    have hdone : done ++ (((k, argname) :: rest).map
        (fun ka => pbasename (rstripUnderscore ka.2))) =
        (done ++ [pbasename (rstripUnderscore argname)]) ++
          rest.map (fun ka => pbasename (rstripUnderscore ka.2)) := by
      rw [List.map_cons, List.append_cons]
    by_cases hreq : pB.required = true
    · have hstep' : runArgStep annotations defaults nArgs st optList k argname =
          (nameAll (st ++ [pB]) optList, []) := by
        rw [hstep, if_pos hreq]
      have holfresh : ∀ nm ∈ optList,
          (pbasename nm == pbasename pB.name) = false := by
        intro nm hnm
        rw [beq_eq_false_iff_ne, hname]
        intro he
        have := hD nm hnm
        rw [he] at this
        exact hbn this
      have hsplit : nameAll (st ++ [pB]) optList =
          nameAll st optList ++ [pB] :=
        nameAll_append_fresh st pB optList holfresh
      have hnoopt : ∀ q ∈ nameAll st optList ++ [pB], optPosB q = false := by
        intro q hq
        rcases List.mem_append.mp hq with hm | hm
        · exact nameAll_no_opt st optList hB q hm
        · rw [List.mem_singleton.mp hm]
          simp [optPosB, hreq]
      have hA' : List.Pairwise promOrder (nameAll st optList ++ [pB]) :=
        pairwise_prom_of_no_opt _ hnoopt
      have hB' : optQueued (nameAll st optList ++ [pB]) [] := by
        intro p hp hopt
        rw [hnoopt p hp] at hopt
        cases hopt
      have hC' : ∀ p ∈ nameAll st optList ++ [pB],
          pbasename p.name ∈ done ++ [pbasename (rstripUnderscore argname)] := by
        intro p hp
        rw [List.mem_append]
        rcases List.mem_append.mp hp with hm | hm
        · obtain ⟨r, hr, hqn⟩ := nameAll_mem_name st optList p hm
          rw [hqn]
          exact Or.inl (hC r hr)
        · rw [List.mem_singleton.mp hm, hname]
          exact Or.inr (List.mem_singleton.mpr rfl)
      have hD' : ∀ nm ∈ ([] : List String),
          pbasename nm ∈ done ++ [pbasename (rstripUnderscore argname)] :=
        fun nm h => absurd h (List.not_mem_nil nm)
      have hres := ih (nameAll st optList ++ [pB]) []
        (done ++ [pbasename (rstripUnderscore argname)])
        hA' hB' hC' hD' hfreshrest hdt
      rw [hgo, hstep', hsplit, hdone]
      exact hres
    · have hreqf : pB.required = false := eq_false_of_ne_true hreq
      have hstep' : runArgStep annotations defaults nArgs st optList k argname =
          (st ++ [pB], optList ++ [rstripUnderscore argname]) := by
        rw [hstep, if_neg hreq]
      have hA' : List.Pairwise promOrder (st ++ [pB]) := by
        rw [List.pairwise_append]
        refine ⟨hA, List.pairwise_singleton _ _, ?_⟩
        intro a _ b hb _
        rw [List.mem_singleton.mp hb]
        simp [reqPosB, hreqf]
      have hB' : optQueued (st ++ [pB])
          (optList ++ [rstripUnderscore argname]) := by
        intro p hp hopt
        rcases List.mem_append.mp hp with hm | hm
        · obtain ⟨nm, hnm, he⟩ := hB p hm hopt
          exact ⟨nm, List.mem_append.mpr (Or.inl hnm), he⟩
        · refine ⟨rstripUnderscore argname,
            List.mem_append.mpr (Or.inr (List.mem_singleton.mpr rfl)), ?_⟩
          rw [List.mem_singleton.mp hm, hname]
      have hC' : ∀ p ∈ st ++ [pB],
          pbasename p.name ∈ done ++ [pbasename (rstripUnderscore argname)] := by
        intro p hp
        rw [List.mem_append]
        rcases List.mem_append.mp hp with hm | hm
        · exact Or.inl (hC p hm)
        · rw [List.mem_singleton.mp hm, hname]
          exact Or.inr (List.mem_singleton.mpr rfl)
      have hD' : ∀ nm ∈ optList ++ [rstripUnderscore argname],
          pbasename nm ∈ done ++ [pbasename (rstripUnderscore argname)] := by
        intro nm hnm
        rw [List.mem_append]
        rcases List.mem_append.mp hnm with hm | hm
        · exact Or.inl (hD nm hm)
        · rw [List.mem_singleton.mp hm]
          exact Or.inr (List.mem_singleton.mpr rfl)
      have hres := ih (st ++ [pB]) (optList ++ [rstripUnderscore argname])
        (done ++ [pbasename (rstripUnderscore argname)])
        hA' hB' hC' hD' hfreshrest hdt
      rw [hgo, hstep', hdone]
      exact hres

end Scpi

namespace Scpi

/-- The keyword-only loop registers named parameters only, so it
preserves the promotion and queue invariants. -/
theorem kwArgs_inv (annotations : List (String × InitVal))
    (kwonlydefaults : Option (List (String × InitVal))) :
    ∀ (kws : List String) (st st1 : List ImplicitParam)
      (optList : List String),
    kwArgsGo annotations kwonlydefaults kws st = .ok st1 →
    List.Pairwise promOrder st →
    optQueued st optList →
    List.Pairwise promOrder st1 ∧ optQueued st1 optList := by
  intro kws
  induction kws with
  | nil =>
    intro st st1 optList h hA hB
    simp only [kwArgsGo, Except.ok.injEq] at h
    rw [h] at hA hB
    exact ⟨hA, hB⟩
  | cons argname rest ih =>
    intro st st1 optList h hA hB
    simp only [kwArgsGo] at h
    cases kwonlydefaults with
    | none => cases h
    | some kd =>
      dsimp only at h
      have hshape : ∃ (f : ImplicitParam → ImplicitParam) (q : ImplicitParam),
          updParamI
            (addInputI st (rstripUnderscore argname)
              (annotations.lookup argname) true false)
            (pbasename (rstripUnderscore argname))
            (fun p => setInitialI p
              ((kd.lookup argname).getD InitVal.missingSentinel)) =
            st.map f ++ [q] ∧
          (∀ p ∈ st, f p = p ∨ (f p).named = true) ∧ q.named = true := by
        rw [addInputI]
        cases hf : st.find? (fun p =>
            pbasename p.name == pbasename (rstripUnderscore argname)) with
        | some existing =>
          refine ⟨(fun q => if pbasename q.name ==
                pbasename (rstripUnderscore argname) then
                setInitialI q ((kd.lookup argname).getD InitVal.missingSentinel)
              else q) ∘
            (fun p => if pbasename p.name ==
                pbasename (rstripUnderscore argname) then
                updSpec existing (annotations.lookup argname) true false
              else p),
            (fun q => if pbasename q.name ==
                pbasename (rstripUnderscore argname) then
                setInitialI q ((kd.lookup argname).getD InitVal.missingSentinel)
              else q)
              (updSpec existing (annotations.lookup argname) true false),
            ?_, ?_, ?_⟩
          · simp only [updParamI, List.map_append, List.map_map]
            rfl
          · intro p _
            by_cases hc : (pbasename p.name ==
                pbasename (rstripUnderscore argname)) = true
            · refine Or.inr ?_
              simp only [Function.comp]
              rw [if_pos hc]
              by_cases hc2 : (pbasename (updSpec existing
                  (annotations.lookup argname) true false).name ==
                  pbasename (rstripUnderscore argname)) = true
              · rw [if_pos hc2, setInitialI_named]
                exact updSpec_named_true _ _ _
              · rw [if_neg hc2]
                exact updSpec_named_true _ _ _
            · refine Or.inl ?_
              simp only [Function.comp]
              rw [if_neg hc, if_neg hc]
          · dsimp only
            by_cases hc2 : (pbasename (updSpec existing
                (annotations.lookup argname) true false).name ==
                pbasename (rstripUnderscore argname)) = true
            · rw [if_pos hc2, setInitialI_named]
              exact updSpec_named_true _ _ _
            · rw [if_neg hc2]
              exact updSpec_named_true _ _ _
        | none =>
          have hnf : ∀ p ∈ st, (pbasename p.name ==
              pbasename (rstripUnderscore argname)) = false := by
            intro p hp
            have := List.find?_eq_none.mp hf p hp
            cases hc : (pbasename p.name ==
                pbasename (rstripUnderscore argname)) with
            | false => rfl
            | true => exact absurd hc this
          refine ⟨(fun q => if pbasename q.name ==
                pbasename (rstripUnderscore argname) then
                setInitialI q ((kd.lookup argname).getD InitVal.missingSentinel)
              else q),
            (fun q => if pbasename q.name ==
                pbasename (rstripUnderscore argname) then
                setInitialI q ((kd.lookup argname).getD InitVal.missingSentinel)
              else q)
              (updSpec ⟨rstripUnderscore argname, false, false, true, false⟩
                (annotations.lookup argname) true false),
            ?_, ?_, ?_⟩
          · simp only [updParamI, List.map_append]
            rfl
          · intro p hp
            refine Or.inl ?_
            dsimp only
            rw [if_neg (by rw [hnf p hp]; exact Bool.false_ne_true)]
          · dsimp only
            by_cases hc2 : (pbasename (updSpec
                ⟨rstripUnderscore argname, false, false, true, false⟩
                (annotations.lookup argname) true false).name ==
                pbasename (rstripUnderscore argname)) = true
            · rw [if_pos hc2, setInitialI_named]
              exact updSpec_named_true _ _ _
            · rw [if_neg hc2]
              exact updSpec_named_true _ _ _
      obtain ⟨f, q, heq, hfprop, hqprop⟩ := hshape
      rw [heq] at h
      obtain ⟨hA2, hB2⟩ := prom_map_append st optList f q hfprop hqprop hA hB
      exact ih _ _ _ h hA2 hB2

end Scpi

namespace Scpi

/-- After the queue is promoted, registering the `*varargs` catch-all
(which only sets the type and repeat range of an existing parameter,
or appends a required one) leaves a list with no optional positional
at all, so the promotion invariant holds. -/
theorem varargs_stage (st1 : List ImplicitParam) (optList : List String)
    (vname : String) (hB : optQueued st1 optList) :
    List.Pairwise promOrder
      (addInputI (nameAll st1 optList) vname (some InitVal.typeObj)
        false true) := by
  have hno : ∀ q ∈ nameAll st1 optList, optPosB q = false :=
    nameAll_no_opt st1 optList hB
  apply pairwise_prom_of_no_opt
  intro q hq
  rw [addInputI] at hq
  cases hf : (nameAll st1 optList).find?
      (fun p => pbasename p.name == pbasename vname) with
  | some existing =>
    rw [hf] at hq
    dsimp only at hq
    have hex : optPosB existing = false :=
      hno existing (List.mem_of_find?_eq_some hf)
    have hp2 : optPosB (updSpec existing (some InitVal.typeObj) false true)
        = false := by
      have he : updSpec existing (some InitVal.typeObj) false true =
          { existing with typed := true, repeats := true } := rfl
      rw [he]
      simp only [optPosB] at hex ⊢
      exact hex
    rcases List.mem_append.mp hq with hm | hm
    · rw [updParamI] at hm
      rcases List.mem_map.mp hm with ⟨p, hp, rfl⟩
      by_cases hc : (pbasename p.name == pbasename vname) = true
      · rw [if_pos hc]
        exact hp2
      · rw [if_neg hc]
        exact hno p hp
    · rw [List.mem_singleton.mp hm]
      exact hp2
  | none =>
    rw [hf] at hq
    dsimp only at hq
    rcases List.mem_append.mp hq with hm | hm
    · exact hno q hm
    · rw [List.mem_singleton.mp hm]
      rfl

end Scpi

namespace Scpi

/-- Mapping the enumerated argument list to basenames forgets the
indices. -/
theorem enum_map_basename (l : List String) :
    l.enum.map (fun ka => pbasename (rstripUnderscore ka.2)) =
      l.map (fun a => pbasename (rstripUnderscore a)) := by
  rw [show (fun ka : Nat × String => pbasename (rstripUnderscore ka.2)) =
    (fun a => pbasename (rstripUnderscore a)) ∘ Prod.snd from rfl,
    ← List.map_map, List.enum_map_snd]

end Scpi

/-- C7 (amended).  For a `run()` signature whose positional argument
names are pairwise distinct after stripping trailing underscores and
lowering (the registration basename), the parameter list produced by
`addImplicitParameters` satisfies the promotion invariant: no
optional positional parameter precedes a required (or catch-all)
positional parameter — optionals sitting before such a parameter have
been marked `named`.  Without the distinctness proviso the invariant
fails (`c7_counterexample`): a later argument like `a_` aliases the
parameter registered for `a` and makes it optional retroactively,
after the promotion pass has already run. -/
theorem c7_implicit_promotion (spec : Scpi.ArgSpec)
    (st : List Scpi.ImplicitParam)
    (hdist : List.Pairwise (· ≠ ·) ((spec.args.drop 1).map
      (fun a => Scpi.pbasename (Scpi.rstripUnderscore a))))
    (hok : Scpi.addImplicitParameters spec = .ok st) :
    List.Pairwise Scpi.promOrder st := by
  unfold Scpi.addImplicitParameters at hok
  dsimp only at hok
  have hrun := Scpi.runArgs_inv spec.annotations spec.defaults
    spec.args.length (spec.args.drop 1).enum [] [] []
    List.Pairwise.nil
    (fun p hp => absurd hp (List.not_mem_nil p))
    (fun p hp => absurd hp (List.not_mem_nil p))
    (fun nm hnm => absurd hnm (List.not_mem_nil nm))
    (fun ka _ => List.not_mem_nil _)
    (by rw [Scpi.enum_map_basename]; exact hdist)
  cases hkw : Scpi.kwArgsGo spec.annotations spec.kwonlydefaults
      spec.kwonlyargs
      (Scpi.runArgsGo spec.annotations spec.defaults spec.args.length
        (spec.args.drop 1).enum [] []).1 with
  | error e =>
    rw [hkw] at hok
    cases hok
  | ok st1 =>
    rw [hkw] at hok
    dsimp only at hok
    obtain ⟨hA1, hB1⟩ := Scpi.kwArgs_inv spec.annotations spec.kwonlydefaults
      spec.kwonlyargs _ st1 _ hkw hrun.1 hrun.2.1
    cases hvk : spec.varkw with
    | some w =>
      rw [hvk] at hok
      cases hok
    | none =>
      rw [hvk] at hok
      dsimp only at hok
      cases hva : spec.varargs with
      | some vname =>
        rw [hva] at hok
        dsimp only at hok
        have hres := Scpi.varargs_stage st1
          (Scpi.runArgsGo spec.annotations spec.defaults spec.args.length
            (spec.args.drop 1).enum [] []).2 vname hB1
        rw [Except.ok.injEq] at hok
        rw [hok.symm]
        exact hres
      | none =>
        rw [hva] at hok
        dsimp only at hok
        rw [Except.ok.injEq] at hok
        rw [hok.symm]
        exact hA1

namespace Scpi

/-- `run(self, mode, level=1, *rest)`: a required positional, an
optional positional and a catch-all. -/
def c7wspec : ArgSpec :=
  { args := ["self", "mode", "level"], defaults := some [InitVal.valueOf],
    kwonlyargs := [], kwonlydefaults := none, annotations := [],
    varargs := some "rest", varkw := none }

end Scpi

/-- The promotion theorem instantiated on `run(self, mode, level=1,
*rest)`: the optional `level` is promoted to named ahead of the
required catch-all, and the declared list satisfies the invariant. -/
theorem c7_implicit_promotion_witness :
    List.Pairwise Scpi.promOrder
      [⟨"mode", false, false, true, false⟩,
       ⟨"level", true, true, false, false⟩,
       ⟨"rest", true, false, true, true⟩] :=
  c7_implicit_promotion Scpi.c7wspec
    [⟨"mode", false, false, true, false⟩,
     ⟨"level", true, true, false, false⟩,
     ⟨"rest", true, false, true, true⟩]
    (by decide) rfl

namespace Scpi

/-! ## §C1: command-line tokenizer and round trip (`parser.py`)

The scanner state `(pre, suf)` represents the immutable scan string
`text` with current position `pos` as `text = pre.reverse ++ suf`,
`pos = pre.length`; the one place the source rewrites `text`
(`_process_hidden`) re-enters this representation by pushing the
replacement onto `pre`.  Start-of-string anchors (`^`) hold iff
`pre = []`, look-behinds inspect `pre.head?`.  Each entry of
`_tokens` is translated to a matcher on this state; alternation
follows Python `re` semantics — earliest position wins, then the
first alternative in pattern order.  `\s` is the ASCII whitespace
class (all scanned text here is ASCII). -/

/-- The token names of the `TOKENS` tuple. -/
inductive Tok where
  | space
  | backslash
  | subexpr
  | subNested
  | subEnd
  | hidden
  | hiddenEnd
  | argumentT
  | option
  | equalsign
  | singlequote
  | doublequote
  | literal
  | literalxml
deriving DecidableEq, Repr

/-- ASCII `\s`. -/
def isWsChar (c : Char) : Bool :=
  c = ' ' || c = '\t' || c = '\n' || c = '\x0d' || c = '\x0b' || c = '\x0c'

/-- The `OPTION` look-ahead class `[a-zA-Z\.\:\_]`. -/
def isOptFollow (c : Char) : Bool :=
  c.isAlpha || c = '.' || c = ':' || c = '_'

/-- An opening bracket `[\x7b\[\(]` (`SUB_NESTED`, and the second
character of `SUBEXPRESSION`). -/
def isOpenBracket (c : Char) : Bool :=
  c = '{' || c = '[' || c = '('

/-- A closing bracket `[\x7d\]\)]` (`SUB_END`). -/
def isCloseBracket (c : Char) : Bool :=
  c = '}' || c = ']' || c = ')'

/-- `.*`: consume up to (not including) the next newline. -/
def takeToEol (suf : List Char) : List Char × List Char :=
  (suf.takeWhile (fun c => c ≠ '\n'), suf.dropWhile (fun c => c ≠ '\n'))

/-- Longest whitespace prefix. -/
def takeWs (suf : List Char) : List Char × List Char :=
  (suf.takeWhile isWsChar, suf.dropWhile isWsChar)

/-- Longest digit prefix. -/
def takeDigits (suf : List Char) : List Char × List Char :=
  (suf.takeWhile Char.isDigit, suf.dropWhile Char.isDigit)

/-- Match one token at the current position (anchored), returning the
matched text and the rest of the suffix.  Look-arounds consume
nothing: the `OPTION` match is just the `-`. -/
def tokMatch (t : Tok) (pre suf : List Char) : Option (List Char × List Char) :=
  match t with
  | .space =>
    -- r'(?:^|\s+)\#.*|\s+'
    match suf with
    | '#' :: rest =>
      if pre.isEmpty then
        let (line, after) := takeToEol rest
        some ('#' :: line, after)
      else none
    | _ =>
      let (ws, afterWs) := takeWs suf
      if ws.isEmpty then none
      else
        match afterWs with
        | '#' :: rest =>
          let (line, after) := takeToEol rest
          some (ws ++ '#' :: line, after)
        | _ => some (ws, afterWs)
  | .backslash =>
    match suf with
    | '\\' :: rest => some (['\\'], rest)
    | _ => none
  | .subexpr =>
    -- r'\$[\x7b\[\(]'
    match suf with
    | '$' :: c :: rest => if isOpenBracket c then some (['$', c], rest) else none
    | _ => none
  | .subNested =>
    match suf with
    | c :: rest => if isOpenBracket c then some ([c], rest) else none
    | _ => none
  | .subEnd =>
    match suf with
    | c :: rest => if isCloseBracket c then some ([c], rest) else none
    | _ => none
  | .hidden =>
    match suf with
    | '$' :: '<' :: rest => some (['$', '<'], rest)
    | _ => none
  | .hiddenEnd =>
    match suf with
    | '>' :: rest => some (['>'], rest)
    | _ => none
  | .argumentT =>
    -- r'\$(\d+|[@,/])'
    match suf with
    | '$' :: rest =>
      let (ds, after) := takeDigits rest
      if ds.isEmpty then
        match rest with
        | c :: rest2 =>
          if c = '@' || c = ',' || c = '/' then some (['$', c], rest2) else none
        | [] => none
      else some ('$' :: ds, after)
    | _ => none
  | .option =>
    -- r'(?:^|(?<=\s))\-(?=[a-zA-Z\.\:\_])'
    match suf with
    | '-' :: c :: rest =>
      if (pre.isEmpty || (pre.head?.elim false isWsChar)) && isOptFollow c then
        some (['-'], c :: rest)
      else none
    | _ => none
  | .equalsign =>
    match suf with
    | '=' :: rest => some (['='], rest)
    | _ => none
  | .singlequote =>
    match suf with
    | '\'' :: rest => some (['\''], rest)
    | _ => none
  | .doublequote =>
    match suf with
    | '"' :: rest => some (['"'], rest)
    | _ => none
  | .literal =>
    -- r'<<<|>>>'
    match suf with
    | '<' :: '<' :: '<' :: rest => some (['<', '<', '<'], rest)
    | '>' :: '>' :: '>' :: rest => some (['>', '>', '>'], rest)
    | _ => none
  | .literalxml =>
    -- r'</?\w[\w\.]*>'
    match suf with
    | '<' :: rest =>
      let (slash, rest1) :=
        match rest with
        | '/' :: r => (['/'], r)
        | _ => (([] : List Char), rest)
      match rest1 with
      | c :: rest2 =>
        if isWordChar c then
          let name := rest2.takeWhile (fun d => isWordChar d || d = '.')
          let rest3 := rest2.dropWhile (fun d => isWordChar d || d = '.')
          match rest3 with
          | '>' :: rest4 =>
            some ('<' :: slash ++ c :: name ++ ['>'], rest4)
          | _ => none
        else none
      | [] => none
    | _ => none

/-- First alternative (in pattern order) matching at this position. -/
def firstTok (config : List Tok) (pre suf : List Char) :
    Option (Tok × List Char × List Char) :=
  match config with
  | [] => none
  | t :: ts =>
    match tokMatch t pre suf with
    | some (txt, rest) => some (t, txt, rest)
    | none => firstTok ts pre suf

/-- `regexp.search(text, pos)`: earliest matching position, first
alternative in pattern order; returns the skipped text (`intro`), the
token, its matched text and the remaining suffix. -/
def searchTok (config : List Tok) : List Char → List Char →
    Option (List Char × Tok × List Char × List Char)
  | pre, suf =>
    match firstTok config pre suf with
    | some (t, txt, rest) => some ([], t, txt, rest)
    | none =>
      match suf with
      | [] => none
      | c :: rest =>
        match searchTok config (c :: pre) rest with
        | some (intro, t, txt, r) => some (c :: intro, t, txt, r)
        | none => none

end Scpi

namespace Scpi

/-- Errors of the parser model: `ParseError` (with the reason text),
the internal `Option` exception of `_process_option` (carrying
option, value and scan state), and exhausted recursion fuel. -/
inductive PErrC where
  | parseErr (reason : String)
  | optionExc (o : Option (List Char)) (v : Option (List Char))
      (pre suf : List Char)
  | fuelOut
deriving DecidableEq, Repr

/-- Result of `_expandText`: joined argument (or `None`), scan state,
and the text of the token that ended the scan (or `None`). -/
structure ScanRes where
  arg : Option (List Char)
  pre : List Char
  suf : List Char
  tok : Option (List Char)
deriving DecidableEq, Repr

/-- `_eolX.match(text, pos)` for `\s*(?:\n|$)`: greedily take
whitespace, then require a newline or end of string (backtracking to
the last newline inside the run). -/
def eolMatch (suf : List Char) : Option (List Char) :=
  let ws := suf.takeWhile isWsChar
  let after := suf.dropWhile isWsChar
  if after.isEmpty then some []
  else
    let tail := ws.reverse.takeWhile (fun c => c ≠ '\n')
    if tail.length = ws.length then none
    else some (tail.reverse ++ after)

/-- `[0-7]`. -/
def isOctDigit (c : Char) : Bool := '0' ≤ c && c ≤ '7'

/-- `[0-9a-fA-F]` with its value. -/
def hexDigitVal (c : Char) : Option Nat :=
  if '0' ≤ c && c ≤ '9' then some (c.toNat - 48)
  else if 'a' ≤ c && c ≤ 'f' then some (c.toNat - 87)
  else if 'A' ≤ c && c ≤ 'F' then some (c.toNat - 55)
  else none

/-- The single-character escapes `[0abnfrtv]`. -/
def escCode (c : Char) : Option Char :=
  if c = '0' then some (Char.ofNat 0)
  else if c = 'a' then some (Char.ofNat 7)
  else if c = 'b' then some (Char.ofNat 8)
  else if c = 'n' then some '\n'
  else if c = 'f' then some (Char.ofNat 12)
  else if c = 'r' then some (Char.ofNat 13)
  else if c = 't' then some '\t'
  else if c = 'v' then some (Char.ofNat 11)
  else none

/-- `\ooo`. -/
def tryOct (suf : List Char) : Option (Char × List Char) :=
  match suf with
  | c1 :: c2 :: c3 :: rest =>
    if isOctDigit c1 && isOctDigit c2 && isOctDigit c3 then
      some (Char.ofNat ((c1.toNat - 48) * 64 + (c2.toNat - 48) * 8 +
        (c3.toNat - 48)), rest)
    else none
  | _ => none

/-- `\xHH`. -/
def tryHexEsc (suf : List Char) : Option (Char × List Char) :=
  match suf with
  | 'x' :: h1 :: h2 :: rest =>
    match hexDigitVal h1, hexDigitVal h2 with
    | some v1, some v2 => some (Char.ofNat (v1 * 16 + v2), rest)
    | _, _ => none
  | _ => none

/-- `\uHHHH` / `\UHHHHHHHH` (`chr(code)`; an out-of-range code point
raises). -/
def tryUniEsc (suf : List Char) : Option (Except PErrC Char × List Char) :=
  match suf with
  | 'u' :: h1 :: h2 :: h3 :: h4 :: rest =>
    match hexDigitVal h1, hexDigitVal h2, hexDigitVal h3, hexDigitVal h4 with
    | some v1, some v2, some v3, some v4 =>
      some (.ok (Char.ofNat (((v1 * 16 + v2) * 16 + v3) * 16 + v4)), rest)
    | _, _, _, _ => none
  | 'U' :: rest0 =>
    match rest0 with
    | h1 :: h2 :: h3 :: h4 :: h5 :: h6 :: h7 :: h8 :: rest =>
      match (hexDigitVal h1).bind (fun v1 => (hexDigitVal h2).bind
        (fun v2 => (hexDigitVal h3).bind (fun v3 => (hexDigitVal h4).bind
        (fun v4 => (hexDigitVal h5).bind (fun v5 => (hexDigitVal h6).bind
        (fun v6 => (hexDigitVal h7).bind (fun v7 => (hexDigitVal h8).map
        (fun v8 => ((((((v1 * 16 + v2) * 16 + v3) * 16 + v4) * 16 + v5) *
          16 + v6) * 16 + v7) * 16 + v8)))))))) with
      | some code =>
        if code < 0xd800 || (0xe000 ≤ code && code ≤ 0x10ffff) then
          some (.ok (Char.ofNat code), rest)
        else
          some (.error (.parseErr "chr out of range"), rest)
      | none => none
    | _ => none
  | _ => none

/-- `CommandParser._unescape(text, pos)`: octal, hex, the short
escapes, unicode escapes, and otherwise the literal character. -/
def unescapeAt (suf : List Char) : Except PErrC (Char × List Char) :=
  match tryOct suf with
  | some (c, rest) => .ok (c, rest)
  | none =>
    match tryHexEsc suf with
    | some (c, rest) => .ok (c, rest)
    | none =>
      match suf with
      | [] => .error (.parseErr "IndexError")
      | c0 :: rest0 =>
        match escCode c0 with
        | some c => .ok (c, rest0)
        | none =>
          match tryUniEsc suf with
          | some (.ok c, rest) => .ok (c, rest)
          | some (.error e, _) => .error e
          | none => .ok (c0, rest0)

/-- `_literalX` heredoc scan (`<<< ... >>>`): count nested `<<<`
against `>>>` until balance reaches zero; reaching the end of input
raises (there is no input stream to extend from). -/
def literalScanGo : Nat → List Char → List Char →
    Except PErrC (List Char × List Char)
  | _, _, [] => .error (.parseErr "End of input in literal quotation")
  | balance, acc, '<' :: '<' :: '<' :: rest =>
    literalScanGo (balance + 1) (acc ++ ['<', '<', '<']) rest
  | balance, acc, '>' :: '>' :: '>' :: rest =>
    if balance = 1 then .ok (acc, rest)
    else literalScanGo (balance - 1) (acc ++ ['>', '>', '>']) rest
  | balance, acc, c :: rest => literalScanGo balance (acc ++ [c]) rest

/-- `_literalXmlX` anchored match: `<(/?)\s*(\w[\w.]*)>`, returning
the closing flag, the tag name, the matched text and the rest. -/
def xmlTagMatch (suf : List Char) :
    Option (Bool × List Char × List Char × List Char) :=
  match suf with
  | '<' :: rest =>
    let (isClose, rest1) :=
      match rest with
      | '/' :: r => (true, r)
      | _ => (false, rest)
    let ws := rest1.takeWhile isWsChar
    let rest2 := rest1.dropWhile isWsChar
    match rest2 with
    | c :: rest3 =>
      if isWordChar c then
        let name := rest3.takeWhile (fun d => isWordChar d || d = '.')
        let rest4 := rest3.dropWhile (fun d => isWordChar d || d = '.')
        match rest4 with
        | '>' :: rest5 =>
          some (isClose, c :: name,
            '<' :: ((if isClose then ['/'] else []) ++ ws ++ c :: name ++ ['>']),
            rest5)
        | _ => none
      else none
    | [] => none
  | _ => none

/-- XML-style heredoc scan: balance `<tag>` against `</tag>`
occurrences of the same tag. -/
def xmlScanGo (tag : List Char) : Nat → Nat → List Char → List Char →
    Except PErrC (List Char × List Char)
  | 0, _, _, _ => .error .fuelOut
  | _ + 1, _, _, [] => .error (.parseErr "End of input in literal quotation")
  | fuel + 1, balance, acc, c :: rest =>
    match xmlTagMatch (c :: rest) with
    | some (isClose, name, txt, after) =>
      if name = tag then
        if isClose then
          if balance = 1 then .ok (acc, after)
          else xmlScanGo tag fuel (balance - 1) (acc ++ txt) after
        else xmlScanGo tag fuel (balance + 1) (acc ++ txt) after
      else xmlScanGo tag fuel balance (acc ++ txt) after
    | none => xmlScanGo tag fuel balance (acc ++ [c]) rest

end Scpi

namespace Scpi

/-- `_argX`. -/
def argXc : List Tok :=
  [.literal, .literalxml, .space, .backslash, .subexpr, .subNested,
   .subEnd, .hidden, .argumentT, .option, .singlequote, .doublequote]

/-- `_optX`. -/
def optXc : List Tok :=
  [.literal, .literalxml, .space, .backslash, .subexpr, .subNested,
   .subEnd, .argumentT, .singlequote, .doublequote, .equalsign]

/-- `_optArgX`. -/
def optArgXc : List Tok :=
  [.literal, .literalxml, .space, .backslash, .subexpr, .subNested,
   .subEnd, .hidden, .argumentT, .singlequote, .doublequote]

/-- `_subX` = `_nestedX`. -/
def subXc : List Tok :=
  [.backslash, .subexpr, .subNested, .subEnd, .argumentT]

/-- `_hiddenX`. -/
def hiddenXc : List Tok := [.backslash, .hiddenEnd]

/-- `_sqX`. -/
def sqXc : List Tok := [.singlequote]

/-- `_dqX`. -/
def dqXc : List Tok := [.doublequote, .backslash, .subexpr, .argumentT]

mutual

/-- `CommandParser._expandText` (with no input stream): scan from the
current position, dispatching each matched token to its processing
method; `skip` tokens are dropped while nothing has accumulated;
`end` tokens are consumed and stop the scan.  Fuel bounds the loop;
the public entry points grant more than the text length, which is
never exhausted since every iteration consumes input. -/
def expandTextGo : Nat → List Tok → List Tok → List Tok →
    Option (List Char) → List Char → List Char → Except PErrC ScanRes
  | 0, _, _, _, _, _, _ => .error .fuelOut
  | fuel + 1, cfg, skipT, endT, parts, pre, suf =>
    if suf.isEmpty then
      .ok ⟨parts, pre, suf, none⟩
    else
      match searchTok cfg pre suf with
      | none =>
        .ok ⟨some ((parts.getD []) ++ suf), suf.reverse ++ pre, [], none⟩
      | some (intro, t, txt, rest) =>
        let parts1 := if intro.isEmpty then parts
                      else some ((parts.getD []) ++ intro)
        let pre1 := txt.reverse ++ intro.reverse ++ pre
        if intro.isEmpty ∧ parts = none ∧ t ∈ skipT then
          expandTextGo fuel cfg skipT endT parts pre1 rest
        else if t ∈ endT then
          .ok ⟨some (parts1.getD []), pre1, rest, some txt⟩
        else
          match processTok fuel t txt pre1 rest with
          | .error e => .error e
          | .ok (argOpt, pre2, suf2) =>
            let parts2 :=
              match argOpt with
              | some a => some ((parts1.getD []) ++ a)
              | none => parts1
            expandTextGo fuel cfg skipT endT parts2 pre2 suf2
termination_by fuel _ _ _ _ _ _ => (fuel, 0)

/-- The `matchMethods` dispatch for the plain `CommandParser` (no
substitution handlers are defined on it, so `_process_subexpression`,
`_process_sub_end` and `_process_argument` hit `AttributeError` and
pass the token text through literally). -/
def processTok : Nat → Tok → List Char → List Char → List Char →
    Except PErrC (Option (List Char) × List Char × List Char)
  | 0, _, _, _, _ => .error .fuelOut
  | fuel + 1, t, txt, pre, suf =>
    match t with
    | .space => .ok (none, pre, suf)
    | .equalsign => .ok (none, pre, suf)
    | .backslash =>
      match eolMatch suf with
      | some rest =>
        if rest.isEmpty ∧ suf.isEmpty then
          .error (.parseErr "End of input while reading extended line")
        else if rest.isEmpty ∧ ¬suf.isEmpty then
          .error (.parseErr "End of input while reading extended line")
        else
          .ok (none, (suf.take (suf.length - rest.length)).reverse ++ pre, rest)
      | none =>
        match unescapeAt suf with
        | .error e => .error e
        | .ok (c, rest) =>
          .ok (some [c], (suf.take (suf.length - rest.length)).reverse ++ pre,
            rest)
    | .option =>
      match expandTextGo (fuel + 1) optXc [] [.space, .equalsign] none pre suf with
      | .error e => .error e
      | .ok res =>
        if res.tok = some ['='] then
          match expandTextGo (fuel + 1) optArgXc [] [.space] none
              res.pre res.suf with
          | .error e => .error e
          | .ok res2 =>
            .error (.optionExc res.arg res2.arg res2.pre res2.suf)
        else
          .error (.optionExc res.arg none res.pre res.suf)
    | .subexpr => .ok (some txt, pre, suf)
    | .subNested =>
      match expandTextGo (fuel + 1) subXc [] [.subEnd] none pre suf with
      | .error e => .error e
      | .ok res =>
        .ok (some (txt ++ (res.arg.getD []) ++ (res.tok.getD [])),
          res.pre, res.suf)
    | .subEnd => .ok (some txt, pre, suf)
    | .hidden =>
      match expandTextGo (fuel + 1) hiddenXc [] [.hiddenEnd] none pre suf with
      | .error e => .error e
      | .ok res =>
        match res.tok with
        | none => .error (.parseErr "Missing end token")
        | some _ => .ok (res.arg, '>' :: '*' :: pre, res.suf)
    | .argumentT => .ok (some txt, pre, suf)
    | .hiddenEnd =>
      -- `matchMethods` has no HIDDEN_END entry; the token is only ever
      -- an end token, so dispatching it would raise `KeyError`.
      .error (.parseErr "KeyError")
    | .singlequote =>
      match expandTextGo (fuel + 1) sqXc [] [.singlequote] none pre suf with
      | .error e => .error e
      | .ok res =>
        if res.tok = some ['\''] then .ok (res.arg, res.pre, res.suf)
        else .error (.parseErr "Missing quote character (')")
    | .doublequote =>
      match expandTextGo (fuel + 1) dqXc [] [.doublequote] none pre suf with
      | .error e => .error e
      | .ok res =>
        if res.tok = some ['"'] then .ok (res.arg, res.pre, res.suf)
        else .error (.parseErr "Missing quote character (\")")
    | .literal =>
      match txt with
      | '>' :: _ => .error (.parseErr "Mismatched quotation tag")
      | _ =>
        match literalScanGo 1 [] suf with
        | .error e => .error e
        | .ok (acc, rest) =>
          .ok (some acc, ['>', '>', '>'] ++ acc.reverse ++ pre, rest)
    | .literalxml =>
      match xmlTagMatch txt with
      | some (isClose, name, _, _) =>
        if isClose then .error (.parseErr "Mismatched quotation tag")
        else
          match xmlScanGo name (suf.length + 1) 1 [] suf with
          | .error e => .error e
          | .ok (acc, rest) =>
            .ok (some acc,
              ('<' :: '/' :: name ++ ['>']).reverse ++ acc.reverse ++ pre, rest)
      | none => .error (.parseErr "Mismatched quotation tag")
termination_by fuel _ _ _ _ => (fuel, 1)

end

end Scpi

namespace Scpi

/-- One parsed part: `(option, cooked value, raw slice)`. -/
abbrev RawPart : Type :=
  Option (List Char) × Option (List Char) × List Char

/-- `CommandParser.getArg`: scan one argument with `_argX`, skipping
leading whitespace and ending at whitespace; the `Option` exception
of `_process_option` carries named arguments. -/
def getArgM (fuel : Nat) (pre suf : List Char) :
    Except PErrC (Option (List Char) × Option (List Char) ×
      List Char × List Char) :=
  match expandTextGo fuel argXc [Tok.space] [Tok.space] none pre suf with
  | .ok res => .ok (none, res.arg, res.pre, res.suf)
  | .error (.optionExc o v pre2 suf2) => .ok (o, v, pre2, suf2)
  | .error e => .error e

/-- The `expandArgs` loop: collect `(option, value, raw)` parts until
`getArg` returns `(None, None)`. -/
def expandArgsGo : Nat → List Char → List Char → List RawPart →
    Except PErrC (List RawPart)
  | 0, _, _, _ => .error .fuelOut
  | fuel + 1, pre, suf, parts =>
    match getArgM (fuel + 1) pre suf with
    | .error e => .error e
    | .ok (o, v, pre2, suf2) =>
      match o, v with
      | none, none => .ok parts
      | _, _ =>
        let raw := (pre2.take (pre2.length - pre.length)).reverse
        expandArgsGo fuel pre2 suf2 (parts ++ [(o, v, raw)])

/-- `CommandParser.expandArgs` on a string input (no stream). -/
def expandArgsM (s : List Char) : Except PErrC (List RawPart) :=
  expandArgsGo (s.length * 2 + 16) [] s []

/-- The character class of `_protectEscapes`:
`[\x00-\x20\x7F-\xA0$()<>[]\x7b\x7d'"\\]`. -/
def protEscChar (c : Char) : Bool :=
  c.toNat ≤ 0x20 || (0x7F ≤ c.toNat && c.toNat ≤ 0xA0) ||
  c = '$' || c = '(' || c = ')' || c = '<' || c = '>' ||
  c = '[' || c = ']' || c = '{' || c = '}' ||
  c = '\'' || c = '"' || c = '\\'

/-- The `binary` alternative of `_protectTags`:
`[\x00-\x08\x0B-\x0C\x0E-\x1F\x7F]`; the `quote` alternative is a
newline. -/
def protTagChar (c : Char) : Bool :=
  c.toNat ≤ 0x08 || c.toNat = 0x0B || c.toNat = 0x0C ||
  (0x0E ≤ c.toNat && c.toNat ≤ 0x1F) || c.toNat = 0x7F || c = '\n'

/-- One step of `CommandParser._escape` with `keep=("'",)`: the
classes of `_escapeChars` in order (`\n`, `\r`, `\t`, `'` kept, `"`,
`$`, `\\`; the eighth alternative of the pattern is a broken literal
that never matches, so every other character passes through). -/
def escChar (c : Char) : List Char :=
  if c = '\n' then ['\\', 'n']
  else if c = '\x0d' then ['\\', 'r']
  else if c = '\t' then ['\\', 't']
  else if c = '\'' then ['\'']
  else if c = '"' then ['\\', '"']
  else if c = '$' then ['\\', '$']
  else if c = '\\' then ['\\', '\\']
  else [c]

/-- `_escape(text, keep=("'",), quote='"')` (the regex is a union of
single-character classes, so the search-and-replace loop is a
character map). -/
def escapeStr (s : List Char) : List Char :=
  '"' :: s.flatMap escChar ++ ['"']

/-- `protectString(text, tag='', quoting=QUOTE_AUTO)`: a newline or
binary character selects the `<<< ... >>>` heredoc (the tag is
empty); otherwise a match of `_protectEscapes` (including the empty
string) selects double-quoted escaping, and plain text passes
through. -/
def protectString (s : List Char) : List Char :=
  if s.any protTagChar then
    '<' :: '<' :: '<' :: s ++ ['>', '>', '>']
  else if s.isEmpty || s.any protEscChar then
    escapeStr s
  else s

/-- A part to collapse: `(option, value)`. -/
abbrev CPart : Type := Option (List Char) × Option (List Char)

/-- `collapsePart(part, tag='', quoting=QUOTE_AUTO)` (`toString`
maps `None` to the empty string). -/
def collapsePart (p : CPart) : List Char :=
  match p.1, p.2 with
  | some o, some v =>
    if o.isEmpty then protectString v
    else '-' :: o ++ '=' :: protectString v
  | some o, none =>
    if o.isEmpty then protectString []
    else '-' :: o
  | none, v => protectString (v.getD [])

/-- `collapseArgs(parts, tag='', quoting=QUOTE_AUTO)`. -/
def collapseArgs (ps : List CPart) : List Char :=
  match ps with
  | [] => []
  | p :: rest => (rest.foldl (fun acc q => acc ++ ' ' :: collapsePart q)
      (collapsePart p))

end Scpi

namespace Scpi

/-- No `SPACE` match at a non-whitespace character (and `#` only
starts a comment after whitespace or at the very beginning). -/
theorem tokMatch_space_none (pre : List Char) (c : Char) (rest : List Char)
    (hws : isWsChar c = false) (hh : c = '#' → pre.isEmpty = false) :
    tokMatch Tok.space pre (c :: rest) = none := by
  by_cases hc : c = '#'
  · subst hc
    simp only [tokMatch, hh rfl, Bool.false_eq_true, if_false]
  · simp only [tokMatch]
    split
    · rename_i h
      injection h with h1
      exact absurd h1 hc
    · simp only [takeWs, List.takeWhile_cons, hws, Bool.false_eq_true, if_false,
        List.isEmpty_nil, if_true]

/-- No `BACKSLASH` match off `\\`. -/
theorem tokMatch_backslash_none (pre : List Char) (c : Char) (rest : List Char)
    (hc : ¬c = '\\') : tokMatch Tok.backslash pre (c :: rest) = none := by
  simp only [tokMatch]
  split
  · rename_i h
    injection h with h1
    exact absurd h1 hc
  · rfl

/-- No `SUBEXPRESSION`/`HIDDEN`/`ARGUMENT` match off `$`. -/
theorem tokMatch_dollar_none (t : Tok) (pre : List Char) (c : Char)
    (rest : List Char) (hc : ¬c = '$')
    (ht : t = Tok.subexpr ∨ t = Tok.hidden ∨ t = Tok.argumentT) :
    tokMatch t pre (c :: rest) = none := by
  rcases ht with h | h | h <;> subst h <;> simp only [tokMatch] <;> split <;>
    first
      | rfl
      | (rename_i h
         injection h with h1
         exact absurd h1 hc)

/-- No `SUB_NESTED` match off an opening bracket. -/
theorem tokMatch_subNested_none (pre : List Char) (c : Char) (rest : List Char)
    (hc : isOpenBracket c = false) :
    tokMatch Tok.subNested pre (c :: rest) = none := by
  simp [tokMatch, hc]

/-- No `SUB_END` match off a closing bracket. -/
theorem tokMatch_subEnd_none (pre : List Char) (c : Char) (rest : List Char)
    (hc : isCloseBracket c = false) :
    tokMatch Tok.subEnd pre (c :: rest) = none := by
  simp [tokMatch, hc]

/-- No `HIDDEN_END` match off `>`. -/
theorem tokMatch_hiddenEnd_none (pre : List Char) (c : Char) (rest : List Char)
    (hc : ¬c = '>') : tokMatch Tok.hiddenEnd pre (c :: rest) = none := by
  simp only [tokMatch]
  split
  · rename_i h
    injection h with h1
    exact absurd h1 hc
  · rfl

/-- No `OPTION` match off `-`. -/
theorem tokMatch_option_none (pre : List Char) (c : Char) (rest : List Char)
    (hc : ¬c = '-') : tokMatch Tok.option pre (c :: rest) = none := by
  simp only [tokMatch]
  split
  · rename_i h
    injection h with h1
    exact absurd h1 hc
  · rfl

/-- No `OPTION` match without whitespace (or start) on the left. -/
theorem tokMatch_option_none_ctx (pre : List Char) (c : Char)
    (rest : List Char)
    (hctx : (pre.isEmpty || pre.head?.elim false isWsChar) = false) :
    tokMatch Tok.option pre (c :: rest) = none := by
  simp only [tokMatch]
  split
  · rename_i a b r h
    injection h with h1 h2
    subst h2
    simp [hctx]
  · rfl

/-- No `EQUALSIGN` match off `=`. -/
theorem tokMatch_equalsign_none (pre : List Char) (c : Char) (rest : List Char)
    (hc : ¬c = '=') : tokMatch Tok.equalsign pre (c :: rest) = none := by
  simp only [tokMatch]
  split
  · rename_i h
    injection h with h1
    exact absurd h1 hc
  · rfl

/-- No `SINGLEQUOTE` match off `'`. -/
theorem tokMatch_singlequote_none (pre : List Char) (c : Char)
    (rest : List Char) (hc : ¬c = '\'') :
    tokMatch Tok.singlequote pre (c :: rest) = none := by
  simp only [tokMatch]
  split
  · rename_i h
    injection h with h1
    exact absurd h1 hc
  · rfl

/-- No `DOUBLEQUOTE` match off `"`. -/
theorem tokMatch_doublequote_none (pre : List Char) (c : Char)
    (rest : List Char) (hc : ¬c = '"') :
    tokMatch Tok.doublequote pre (c :: rest) = none := by
  simp only [tokMatch]
  split
  · rename_i h
    injection h with h1
    exact absurd h1 hc
  · rfl

/-- No `LITERAL` match off `<` and `>`. -/
theorem tokMatch_literal_none (pre : List Char) (c : Char) (rest : List Char)
    (hc1 : ¬c = '<') (hc2 : ¬c = '>') :
    tokMatch Tok.literal pre (c :: rest) = none := by
  simp only [tokMatch]
  split
  · rename_i h
    injection h with h1
    exact absurd h1 hc1
  · rename_i h
    injection h with h1
    exact absurd h1 hc2
  · rfl

/-- No `LITERALXML` match off `<`. -/
theorem tokMatch_literalxml_none (pre : List Char) (c : Char)
    (rest : List Char) (hc : ¬c = '<') :
    tokMatch Tok.literalxml pre (c :: rest) = none := by
  simp only [tokMatch]
  split
  · rename_i h
    injection h with h1
    exact absurd h1 hc
  · rfl

end Scpi

namespace Scpi

/-- Characters free of `_protectEscapes` start no token (except
possibly `-`/`#`, which depend on the left context). -/
theorem protEsc_elim (c : Char) (hp : protEscChar c = false) :
    (¬c = '$') ∧ (¬c = '\\') ∧ (¬c = '<') ∧ (¬c = '>') ∧
    (¬c = '\'') ∧ (¬c = '"') ∧ isOpenBracket c = false ∧
    isCloseBracket c = false ∧ isWsChar c = false := by
  simp only [protEscChar, Bool.or_eq_false_iff, decide_eq_false_iff_not,
    Bool.and_eq_false_iff] at hp
  obtain ⟨⟨⟨⟨⟨⟨⟨⟨⟨⟨⟨⟨⟨h1, h2⟩, h3⟩, h4⟩, h5⟩, h6⟩, h7⟩, h8⟩, h9⟩, h10⟩,
    h11⟩, h12⟩, h13⟩, h14⟩ := hp
  refine ⟨h3, h14, h6, h7, h12, h13, ?_, ?_, ?_⟩
  · simp [isOpenBracket, h10, h8, h4]
  · simp [isCloseBracket, h11, h9, h5]
  · cases hw : isWsChar c with
    | false => rfl
    | true =>
      exfalso
      simp only [isWsChar, Bool.or_eq_true, decide_eq_true_eq] at hw
      rcases hw with ((((h | h) | h) | h) | h) | h <;>
        (subst h; revert h1; decide)

end Scpi

namespace Scpi

/-- At a character clean of `_protectEscapes`, with `-` and `#`
excluded when the left context would arm them, `_argX` has no
anchored match. -/
theorem firstTok_argX_none (pre : List Char) (c : Char) (rest : List Char)
    (hp : protEscChar c = false)
    (hd : c = '-' → (pre.isEmpty || pre.head?.elim false isWsChar) = false)
    (hh : c = '#' → pre.isEmpty = false) :
    firstTok argXc pre (c :: rest) = none := by
  obtain ⟨h1, h2, h3, h4, h5, h6, h7, h8, h9⟩ := protEsc_elim c hp
  have hopt : tokMatch Tok.option pre (c :: rest) = none := by
    by_cases hcm : c = '-'
    · exact tokMatch_option_none_ctx pre c rest (hd hcm)
    · exact tokMatch_option_none pre c rest hcm
  simp only [argXc, firstTok,
    tokMatch_literal_none pre c rest h3 h4,
    tokMatch_literalxml_none pre c rest h3,
    tokMatch_space_none pre c rest h9 hh,
    tokMatch_backslash_none pre c rest h2,
    tokMatch_dollar_none Tok.subexpr pre c rest h1 (Or.inl rfl),
    tokMatch_subNested_none pre c rest h7,
    tokMatch_subEnd_none pre c rest h8,
    tokMatch_dollar_none Tok.hidden pre c rest h1 (Or.inr (Or.inl rfl)),
    tokMatch_dollar_none Tok.argumentT pre c rest h1 (Or.inr (Or.inr rfl)),
    hopt,
    tokMatch_singlequote_none pre c rest h5,
    tokMatch_doublequote_none pre c rest h6]

/-- Same for `_optArgX` (no `OPTION` token there). -/
theorem firstTok_optArgX_none (pre : List Char) (c : Char) (rest : List Char)
    (hp : protEscChar c = false) (hh : c = '#' → pre.isEmpty = false) :
    firstTok optArgXc pre (c :: rest) = none := by
  obtain ⟨h1, h2, h3, h4, h5, h6, h7, h8, h9⟩ := protEsc_elim c hp
  simp only [optArgXc, firstTok,
    tokMatch_literal_none pre c rest h3 h4,
    tokMatch_literalxml_none pre c rest h3,
    tokMatch_space_none pre c rest h9 hh,
    tokMatch_backslash_none pre c rest h2,
    tokMatch_dollar_none Tok.subexpr pre c rest h1 (Or.inl rfl),
    tokMatch_subNested_none pre c rest h7,
    tokMatch_subEnd_none pre c rest h8,
    tokMatch_dollar_none Tok.hidden pre c rest h1 (Or.inr (Or.inl rfl)),
    tokMatch_dollar_none Tok.argumentT pre c rest h1 (Or.inr (Or.inr rfl)),
    tokMatch_singlequote_none pre c rest h5,
    tokMatch_doublequote_none pre c rest h6]

/-- Same for `_optX` given additionally that the character is not
`=` and not `#`. -/
theorem firstTok_optX_none (pre : List Char) (c : Char) (rest : List Char)
    (hp : protEscChar c = false) (he : ¬c = '=') (hh : ¬c = '#') :
    firstTok optXc pre (c :: rest) = none := by
  obtain ⟨h1, h2, h3, h4, h5, h6, h7, h8, h9⟩ := protEsc_elim c hp
  simp only [optXc, firstTok,
    tokMatch_literal_none pre c rest h3 h4,
    tokMatch_literalxml_none pre c rest h3,
    tokMatch_space_none pre c rest h9 (fun hch => absurd hch hh),
    tokMatch_backslash_none pre c rest h2,
    tokMatch_dollar_none Tok.subexpr pre c rest h1 (Or.inl rfl),
    tokMatch_subNested_none pre c rest h7,
    tokMatch_subEnd_none pre c rest h8,
    tokMatch_dollar_none Tok.argumentT pre c rest h1 (Or.inr (Or.inr rfl)),
    tokMatch_singlequote_none pre c rest h5,
    tokMatch_doublequote_none pre c rest h6,
    tokMatch_equalsign_none pre c rest he]

/-- Inside a double-quoted scan, only `"`, `\\` and `$` start a
token. -/
theorem firstTok_dqX_none (pre : List Char) (c : Char) (rest : List Char)
    (h1 : ¬c = '"') (h2 : ¬c = '\\') (h3 : ¬c = '$') :
    firstTok dqXc pre (c :: rest) = none := by
  simp only [dqXc, firstTok,
    tokMatch_doublequote_none pre c rest h1,
    tokMatch_backslash_none pre c rest h2,
    tokMatch_dollar_none Tok.subexpr pre c rest h3 (Or.inl rfl),
    tokMatch_dollar_none Tok.argumentT pre c rest h3 (Or.inr (Or.inr rfl))]

end Scpi

namespace Scpi

/-- No token matches at the end of the text. -/
theorem tokMatch_nil (t : Tok) (pre : List Char) :
    tokMatch t pre [] = none := by
  cases t <;> rfl

/-- Hence no alternative matches there either. -/
theorem firstTok_nil (cfg : List Tok) (pre : List Char) :
    firstTok cfg pre [] = none := by
  induction cfg with
  | nil => rfl
  | cons t ts ih => simp [firstTok, tokMatch_nil, ih]

/-- Searching an empty suffix fails. -/
theorem searchTok_nil (cfg : List Tok) (pre : List Char) :
    searchTok cfg pre [] = none := by
  rw [searchTok, firstTok_nil]

/-- A character at which no alternative matches is absorbed into the
pending intro text: scanning `c :: suf` from `pre` equals scanning
`suf` from `c :: pre` with `c` appended to the accumulated parts. -/
theorem expandTextGo_shift (fuel : Nat) (cfg skipT endT : List Tok)
    (parts : Option (List Char)) (pre suf : List Char) (c : Char)
    (h : firstTok cfg pre (c :: suf) = none) :
    expandTextGo (fuel + 1) cfg skipT endT parts pre (c :: suf) =
      expandTextGo (fuel + 1) cfg skipT endT
        (some ((parts.getD []) ++ [c])) (c :: pre) suf := by
  rw [expandTextGo, expandTextGo]
  rw [searchTok, h]
  cases suf with
  | nil =>
    rw [searchTok_nil]
    simp
  | cons d suf2 =>
    cases hs : searchTok cfg (c :: pre) (d :: suf2) with
    | none =>
      simp [List.append_assoc]
    | some x =>
      obtain ⟨intro, t, txt, rest⟩ := x
      simp only [List.isEmpty_cons, Bool.false_eq_true, if_false]
      cases intro with
      | nil => simp [List.append_assoc]
      | cons e it => simp [List.append_assoc]

end Scpi

namespace Scpi

/-- What may follow a separator space: end of text, or a character
that is neither whitespace nor a comment sign. -/
def sepOkSuf (rest : List Char) : Prop :=
  match rest with
  | [] => True
  | d :: _ => isWsChar d = false ∧ ¬d = '#'

/-- A single separator space before a part (or the end) matches the
`SPACE` token as exactly that space. -/
theorem tokMatch_space_sep (pre rest2 : List Char) (h : sepOkSuf rest2) :
    tokMatch Tok.space pre (' ' :: rest2) = some ([' '], rest2) := by
  cases rest2 with
  | nil => rfl
  | cons d rest3 =>
    obtain ⟨hws, hh⟩ := h
    have hsp : isWsChar ' ' = true := by decide
    have ht : takeWs (' ' :: d :: rest3) = ([' '], d :: rest3) := by
      simp [takeWs, List.takeWhile_cons, List.dropWhile_cons, hsp, hws]
    simp only [tokMatch]
    split
    · rename_i heq
      injection heq with h1
      exact absurd h1 (by decide)
    · rw [ht]
      simp only [List.isEmpty_cons, Bool.false_eq_true, if_false]
      split
      · rename_i heq
        injection heq with h1
        exact absurd h1 hh
      · rfl

/-- At a separator space, `_argX` matches the `SPACE` token. -/
theorem firstTok_argX_sep (pre rest2 : List Char) (h : sepOkSuf rest2) :
    firstTok argXc pre (' ' :: rest2) =
      some (Tok.space, [' '], rest2) := by
  simp only [argXc, firstTok,
    tokMatch_literal_none pre ' ' rest2 (by decide) (by decide),
    tokMatch_literalxml_none pre ' ' rest2 (by decide),
    tokMatch_space_sep pre rest2 h]

/-- Same for `_optArgX`. -/
theorem firstTok_optArgX_sep (pre rest2 : List Char) (h : sepOkSuf rest2) :
    firstTok optArgXc pre (' ' :: rest2) =
      some (Tok.space, [' '], rest2) := by
  simp only [optArgXc, firstTok,
    tokMatch_literal_none pre ' ' rest2 (by decide) (by decide),
    tokMatch_literalxml_none pre ' ' rest2 (by decide),
    tokMatch_space_sep pre rest2 h]

/-- Same for `_optX`. -/
theorem firstTok_optX_sep (pre rest2 : List Char) (h : sepOkSuf rest2) :
    firstTok optXc pre (' ' :: rest2) =
      some (Tok.space, [' '], rest2) := by
  simp only [optXc, firstTok,
    tokMatch_literal_none pre ' ' rest2 (by decide) (by decide),
    tokMatch_literalxml_none pre ' ' rest2 (by decide),
    tokMatch_space_sep pre rest2 h]

/-- At `"`, `_argX` matches the `DOUBLEQUOTE` token. -/
theorem firstTok_argX_dq (pre rest : List Char) :
    firstTok argXc pre ('"' :: rest) =
      some (Tok.doublequote, ['"'], rest) := by
  simp only [argXc, firstTok,
    tokMatch_literal_none pre '"' rest (by decide) (by decide),
    tokMatch_literalxml_none pre '"' rest (by decide),
    tokMatch_space_none pre '"' rest (by decide) (by intro h; cases h),
    tokMatch_backslash_none pre '"' rest (by decide),
    tokMatch_dollar_none Tok.subexpr pre '"' rest (by decide) (Or.inl rfl),
    tokMatch_subNested_none pre '"' rest (by decide),
    tokMatch_subEnd_none pre '"' rest (by decide),
    tokMatch_dollar_none Tok.hidden pre '"' rest (by decide)
      (Or.inr (Or.inl rfl)),
    tokMatch_dollar_none Tok.argumentT pre '"' rest (by decide)
      (Or.inr (Or.inr rfl)),
    tokMatch_option_none pre '"' rest (by decide),
    tokMatch_singlequote_none pre '"' rest (by decide)]
  rfl

/-- Same for `_optArgX`. -/
theorem firstTok_optArgX_dq (pre rest : List Char) :
    firstTok optArgXc pre ('"' :: rest) =
      some (Tok.doublequote, ['"'], rest) := by
  simp only [optArgXc, firstTok,
    tokMatch_literal_none pre '"' rest (by decide) (by decide),
    tokMatch_literalxml_none pre '"' rest (by decide),
    tokMatch_space_none pre '"' rest (by decide) (by intro h; cases h),
    tokMatch_backslash_none pre '"' rest (by decide),
    tokMatch_dollar_none Tok.subexpr pre '"' rest (by decide) (Or.inl rfl),
    tokMatch_subNested_none pre '"' rest (by decide),
    tokMatch_subEnd_none pre '"' rest (by decide),
    tokMatch_dollar_none Tok.hidden pre '"' rest (by decide)
      (Or.inr (Or.inl rfl)),
    tokMatch_dollar_none Tok.argumentT pre '"' rest (by decide)
      (Or.inr (Or.inr rfl)),
    tokMatch_singlequote_none pre '"' rest (by decide)]
  rfl

/-- In a double-quoted scan, `"` matches the `DOUBLEQUOTE` token
immediately. -/
theorem firstTok_dqX_dq (pre rest : List Char) :
    firstTok dqXc pre ('"' :: rest) =
      some (Tok.doublequote, ['"'], rest) := by
  simp only [dqXc, firstTok]
  rfl

/-- In a double-quoted scan, `\\` matches the `BACKSLASH` token. -/
theorem firstTok_dqX_backslash (pre rest : List Char) :
    firstTok dqXc pre ('\\' :: rest) =
      some (Tok.backslash, ['\\'], rest) := by
  simp only [dqXc, firstTok,
    tokMatch_doublequote_none pre '\\' rest (by decide)]
  rfl

/-- At `=`, `_optX` matches the `EQUALSIGN` token. -/
theorem firstTok_optX_eq (pre rest : List Char) :
    firstTok optXc pre ('=' :: rest) =
      some (Tok.equalsign, ['='], rest) := by
  simp only [optXc, firstTok,
    tokMatch_literal_none pre '=' rest (by decide) (by decide),
    tokMatch_literalxml_none pre '=' rest (by decide),
    tokMatch_space_none pre '=' rest (by decide) (by intro h; cases h),
    tokMatch_backslash_none pre '=' rest (by decide),
    tokMatch_dollar_none Tok.subexpr pre '=' rest (by decide) (Or.inl rfl),
    tokMatch_subNested_none pre '=' rest (by decide),
    tokMatch_subEnd_none pre '=' rest (by decide),
    tokMatch_dollar_none Tok.argumentT pre '=' rest (by decide)
      (Or.inr (Or.inr rfl)),
    tokMatch_singlequote_none pre '=' rest (by decide),
    tokMatch_doublequote_none pre '=' rest (by decide)]
  rfl

/-- At `-` with whitespace (or nothing) on the left and an option
character ahead, `_argX` matches the `OPTION` token. -/
theorem firstTok_argX_option (pre : List Char) (c : Char)
    (rest : List Char)
    (hctx : (pre.isEmpty || pre.head?.elim false isWsChar) = true)
    (hc : isOptFollow c = true) :
    firstTok argXc pre ('-' :: c :: rest) =
      some (Tok.option, ['-'], c :: rest) := by
  simp only [argXc, firstTok,
    tokMatch_literal_none pre '-' (c :: rest) (by decide) (by decide),
    tokMatch_literalxml_none pre '-' (c :: rest) (by decide),
    tokMatch_space_none pre '-' (c :: rest) (by decide) (by intro h; cases h),
    tokMatch_backslash_none pre '-' (c :: rest) (by decide),
    tokMatch_dollar_none Tok.subexpr pre '-' (c :: rest) (by decide)
      (Or.inl rfl),
    tokMatch_subNested_none pre '-' (c :: rest) (by decide),
    tokMatch_subEnd_none pre '-' (c :: rest) (by decide),
    tokMatch_dollar_none Tok.hidden pre '-' (c :: rest) (by decide)
      (Or.inr (Or.inl rfl)),
    tokMatch_dollar_none Tok.argumentT pre '-' (c :: rest) (by decide)
      (Or.inr (Or.inr rfl))]
  simp only [tokMatch, hctx, hc, Bool.and_self, if_true]

end Scpi

namespace Scpi

/-- `_eolX` does not match at a non-whitespace character. -/
theorem eolMatch_nonws (x : Char) (rest : List Char)
    (hx : isWsChar x = false) : eolMatch (x :: rest) = none := by
  simp [eolMatch, List.takeWhile_cons, List.dropWhile_cons, hx]

/-- No octal escape off a non-octal first character. -/
theorem tryOct_nonoct (c : Char) (rest : List Char)
    (hc : isOctDigit c = false) : tryOct (c :: rest) = none := by
  cases rest with
  | nil => rfl
  | cons a r2 =>
    cases r2 with
    | nil => rfl
    | cons b r3 => simp [tryOct, hc]

/-- No hex escape off a character other than `x`. -/
theorem tryHexEsc_nonx (c : Char) (rest : List Char) (hc : ¬c = 'x') :
    tryHexEsc (c :: rest) = none := by
  simp only [tryHexEsc]
  split
  · rename_i heq
    injection heq with h1
    exact absurd h1 hc
  · rfl

/-- No unicode escape off characters other than `u`/`U`. -/
theorem tryUniEsc_nonu (c : Char) (rest : List Char) (h1 : ¬c = 'u')
    (h2 : ¬c = 'U') : tryUniEsc (c :: rest) = none := by
  simp only [tryUniEsc]
  split
  · rename_i heq
    injection heq with hh
    exact absurd hh h1
  · rename_i heq
    injection heq with hh
    exact absurd hh h2
  · rfl

/-- A short escape (`n`, `r`, `t`) cooks to its control character. -/
theorem unescapeAt_single (x c : Char) (rest : List Char)
    (hoct : isOctDigit x = false) (hx : ¬x = 'x')
    (hesc : escCode x = some c) :
    unescapeAt (x :: rest) = .ok (c, rest) := by
  simp [unescapeAt, tryOct_nonoct x rest hoct, tryHexEsc_nonx x rest hx, hesc]

/-- A character without escape meaning cooks to itself. -/
theorem unescapeAt_literal (x : Char) (rest : List Char)
    (hoct : isOctDigit x = false) (hx : ¬x = 'x')
    (hesc : escCode x = none) (hu1 : ¬x = 'u') (hu2 : ¬x = 'U') :
    unescapeAt (x :: rest) = .ok (x, rest) := by
  simp [unescapeAt, tryOct_nonoct x rest hoct, tryHexEsc_nonx x rest hx,
    hesc, tryUniEsc_nonu x rest hu1 hu2]

/-- Processing a backslash followed by a one-character escape body
consumes exactly that character. -/
theorem processTok_backslash_esc (fuel : Nat) (x c : Char)
    (pre rest : List Char) (hws : isWsChar x = false)
    (hun : unescapeAt (x :: rest) = .ok (c, rest)) :
    processTok (fuel + 1) Tok.backslash ['\\'] pre (x :: rest) =
      .ok (some [c], x :: pre, rest) := by
  have htake : ((x :: rest).take ((x :: rest).length - rest.length)) = [x] := by
    simp
  simp only [processTok, eolMatch_nonws x rest hws, hun, htake,
    List.reverse_cons, List.reverse_nil, List.nil_append, List.cons_append,
    List.singleton_append]

/-- A character outside the `_escapeChars` classes passes `_escape`
unchanged. -/
theorem escChar_raw (c : Char) (h1 : ¬c = '\n') (h2 : ¬c = '\x0d')
    (h3 : ¬c = '\t') (h4 : ¬c = '"') (h5 : ¬c = '$') (h6 : ¬c = '\\') :
    escChar c = [c] := by
  by_cases hq : c = '\''
  · subst hq
    rfl
  · simp [escChar, h1, h2, h3, h4, h5, h6, hq]

end Scpi

namespace Scpi

/-- One escape pair inside a double-quoted scan: the backslash token
is processed, the escape body cooks to the original character, and
scanning resumes after the pair. -/
theorem dq_scan_esc_step (f : Nat) (c x : Char) (parts : Option (List Char))
    (pre tail : List Char) (hws : isWsChar x = false)
    (hun : unescapeAt (x :: tail) = .ok (c, tail)) (hf1 : 1 ≤ f) :
    expandTextGo (f + 1) dqXc [] [Tok.doublequote] parts pre
      ('\\' :: x :: tail) =
      expandTextGo f dqXc [] [Tok.doublequote]
        (some ((parts.getD []) ++ [c])) (x :: '\\' :: pre) tail := by
  obtain ⟨g, rfl⟩ : ∃ g, f = g + 1 := ⟨f - 1, by omega⟩
  rw [expandTextGo]
  rw [searchTok, firstTok_dqX_backslash]
  simp only [List.isEmpty_cons, Bool.false_eq_true, if_false]
  rw [if_neg (by simp)]
  rw [if_neg (by decide : ¬(Tok.backslash ∈ [Tok.doublequote]))]
  simp only [List.reverse_cons, List.reverse_nil, List.nil_append,
    List.singleton_append]
  rw [processTok_backslash_esc g x c ('\\' :: pre) tail hws hun]
  simp

end Scpi

namespace Scpi

/-- Scanning the escaped body of a double-quoted value recovers the
original text and stops at the closing quote. -/
theorem dq_scan (s : List Char) : ∀ (fuel : Nat) (parts : Option (List Char))
    (pre rest : List Char), s.length + 1 ≤ fuel →
    expandTextGo fuel dqXc [] [Tok.doublequote] parts pre
      (s.flatMap escChar ++ '"' :: rest) =
      .ok ⟨some ((parts.getD []) ++ s),
        '"' :: (s.flatMap escChar).reverse ++ pre, rest, some ['"']⟩ := by
  induction s with
  | nil =>
    intro fuel parts pre rest hf
    obtain ⟨f, rfl⟩ : ∃ f, fuel = f + 1 := ⟨fuel - 1, by omega⟩
    rw [expandTextGo]
    simp only [List.flatMap_nil, List.nil_append, List.isEmpty_cons,
      Bool.false_eq_true, if_false, List.reverse_nil]
    rw [searchTok, firstTok_dqX_dq]
    dsimp only
    rw [if_neg (by simp)]
    rw [if_pos (by decide : Tok.doublequote ∈ [Tok.doublequote])]
    simp
  | cons c s' ih =>
    intro fuel parts pre rest hf
    simp only [List.length_cons] at hf
    obtain ⟨f, rfl⟩ : ∃ f, fuel = f + 1 := ⟨fuel - 1, by omega⟩
    by_cases h1 : c = '\n'
    · subst h1
      rw [show ('\n' :: s').flatMap escChar =
        '\\' :: 'n' :: s'.flatMap escChar from rfl]
      rw [List.cons_append, List.cons_append]
      rw [dq_scan_esc_step f '\n' 'n' parts pre _ (by decide)
        (unescapeAt_single 'n' '\n' _ (by decide) (by decide) rfl)
        (by omega)]
      rw [ih f _ _ rest (by omega)]
      simp [List.append_assoc]
    · by_cases h2 : c = '\x0d'
      · subst h2
        rw [show ('\x0d' :: s').flatMap escChar =
          '\\' :: 'r' :: s'.flatMap escChar from rfl]
        rw [List.cons_append, List.cons_append]
        rw [dq_scan_esc_step f '\x0d' 'r' parts pre _ (by decide)
          (unescapeAt_single 'r' '\x0d' _ (by decide) (by decide) rfl)
          (by omega)]
        rw [ih f _ _ rest (by omega)]
        simp [List.append_assoc]
      · by_cases h3 : c = '\t'
        · subst h3
          rw [show ('\t' :: s').flatMap escChar =
            '\\' :: 't' :: s'.flatMap escChar from rfl]
          rw [List.cons_append, List.cons_append]
          rw [dq_scan_esc_step f '\t' 't' parts pre _ (by decide)
            (unescapeAt_single 't' '\t' _ (by decide) (by decide) rfl)
            (by omega)]
          rw [ih f _ _ rest (by omega)]
          simp [List.append_assoc]
        · by_cases h4 : c = '"'
          · subst h4
            rw [show ('"' :: s').flatMap escChar =
              '\\' :: '"' :: s'.flatMap escChar from rfl]
            rw [List.cons_append, List.cons_append]
            rw [dq_scan_esc_step f '"' '"' parts pre _ (by decide)
              (unescapeAt_literal '"' _ (by decide) (by decide) (by decide)
                (by decide) (by decide))
              (by omega)]
            rw [ih f _ _ rest (by omega)]
            simp [List.append_assoc]
          · by_cases h5 : c = '$'
            · subst h5
              rw [show ('$' :: s').flatMap escChar =
                '\\' :: '$' :: s'.flatMap escChar from rfl]
              rw [List.cons_append, List.cons_append]
              rw [dq_scan_esc_step f '$' '$' parts pre _ (by decide)
                (unescapeAt_literal '$' _ (by decide) (by decide) (by decide)
                  (by decide) (by decide))
                (by omega)]
              rw [ih f _ _ rest (by omega)]
              simp [List.append_assoc]
            · by_cases h6 : c = '\\'
              · subst h6
                rw [show ('\\' :: s').flatMap escChar =
                  '\\' :: '\\' :: s'.flatMap escChar from rfl]
                rw [List.cons_append, List.cons_append]
                rw [dq_scan_esc_step f '\\' '\\' parts pre _ (by decide)
                  (unescapeAt_literal '\\' _ (by decide) (by decide)
                    (by decide) (by decide) (by decide))
                  (by omega)]
                rw [ih f _ _ rest (by omega)]
                simp [List.append_assoc]
              · have hraw : escChar c = [c] := escChar_raw c h1 h2 h3 h4 h5 h6
                rw [List.flatMap_cons, hraw, List.singleton_append,
                  List.cons_append]
                rw [expandTextGo_shift f dqXc [] [Tok.doublequote] parts pre _
                  c (firstTok_dqX_none pre c _ h4 h6 h5)]
                rw [ih (f + 1) _ _ rest (by omega)]
                simp [List.append_assoc]

end Scpi

namespace Scpi

/-- A run of characters at which no alternative matches is wholly
absorbed into the accumulated text. -/
theorem run_shift_chain (cfg skipT endT : List Tok) (s : List Char) :
    ∀ (fuel : Nat) (parts : Option (List Char)) (pre suf : List Char),
    (∀ a c b, s = a ++ c :: b →
      firstTok cfg (a.reverse ++ pre) (c :: (b ++ suf)) = none) →
    expandTextGo (fuel + 1) cfg skipT endT parts pre (s ++ suf) =
      expandTextGo (fuel + 1) cfg skipT endT
        (if s.isEmpty then parts else some ((parts.getD []) ++ s))
        (s.reverse ++ pre) suf := by
  induction s with
  | nil =>
    intro fuel parts pre suf _
    simp
  | cons c s' ih =>
    intro fuel parts pre suf h
    have h0 : firstTok cfg pre (c :: (s' ++ suf)) = none := by
      have := h [] c s' rfl
      simpa using this
    rw [List.cons_append,
      expandTextGo_shift fuel cfg skipT endT parts pre (s' ++ suf) c h0]
    rw [ih fuel (some ((parts.getD []) ++ [c])) (c :: pre) suf ?_]
    · cases s' with
      | nil => simp
      | cons d s2 => simp [List.append_assoc]
    · intro a e b hab
      have := h (c :: a) e b (by rw [hab]; rfl)
      simpa [List.append_assoc] using this

end Scpi

namespace Scpi

/-- The scan state at the start of an argument: the `OPTION`
look-behind (start of string, or whitespace on the left) is armed. -/
def armOk (pre : List Char) : Bool :=
  pre.isEmpty || pre.head?.elim false isWsChar

/-- A clean option-name character: free of `_protectEscapes` (hence
of every context-free token start) and not `=` or `#`. -/
def optNameChar (c : Char) : Bool :=
  !protEscChar c && !(c = '=') && !(c = '#')

/-- The parts for which the round trip is claimed: no empty part, a
nonempty option name of clean characters starting in the `OPTION`
look-ahead class, and values free of binary characters and newlines
(which would select the heredoc quotation); a value that collapses
unquoted must not begin with `-` or `#`. -/
def partOk : CPart → Bool
  | (none, none) => false
  | (none, some v) =>
    !v.any protTagChar &&
    (v.any protEscChar ||
      (match v with
       | [] => true
       | c :: _ => !(c = '-') && !(c = '#')))
  | (some o, vo) =>
    !o.isEmpty &&
    (match o with | [] => false | c :: _ => isOptFollow c) &&
    o.all optNameChar &&
    (match vo with | none => true | some v => !v.any protTagChar)

/-- Every escape expansion is nonempty. -/
theorem escChar_len (c : Char) : 1 ≤ (escChar c).length := by
  unfold escChar
  split_ifs <;> simp

/-- Escaping does not shorten a string. -/
theorem flatMap_escChar_len (v : List Char) :
    v.length ≤ (v.flatMap escChar).length := by
  induction v with
  | nil => simp
  | cons c v' ih =>
    have := escChar_len c
    simp only [List.flatMap_cons, List.length_append, List.length_cons]
    omega

/-- Factor the collapse fold through a fixed prefix. -/
theorem collapse_foldl_append (l : List CPart) :
    ∀ (a b : List Char),
    l.foldl (fun acc q => acc ++ ' ' :: collapsePart q) (a ++ b) =
      a ++ l.foldl (fun acc q => acc ++ ' ' :: collapsePart q) b := by
  induction l with
  | nil => intro a b; rfl
  | cons q l' ih =>
    intro a b
    simp only [List.foldl_cons, List.append_assoc]
    exact ih a (b ++ ' ' :: collapsePart q)

/-- `collapseArgs` joins the collapsed parts with single spaces. -/
theorem collapseArgs_cons (p : CPart) (rest : List CPart) :
    collapseArgs (p :: rest) =
      collapsePart p ++
        (if rest.isEmpty then [] else ' ' :: collapseArgs rest) := by
  cases rest with
  | nil => simp [collapseArgs]
  | cons q R =>
    simp only [collapseArgs, List.foldl_cons, List.isEmpty_cons,
      Bool.false_eq_true, if_false]
    rw [show collapsePart p ++ ' ' :: collapsePart q =
      (collapsePart p ++ [' ']) ++ collapsePart q from by simp,
      collapse_foldl_append R]
    simp

/-- A collapsed line has at least one character per part beyond the
first. -/
theorem parts_le_collapse (P : List CPart) :
    P.length ≤ (collapseArgs P).length + 1 := by
  induction P with
  | nil => simp
  | cons p R ih =>
    rw [collapseArgs_cons]
    cases R with
    | nil => simp
    | cons q R' =>
      simp only [List.isEmpty_cons, Bool.false_eq_true, if_false,
        List.length_append, List.length_cons] at *
      omega

/-- A collapsed `partOk` part begins with a character that cannot
continue a separator (`sepOkSuf`). -/
theorem collapsePart_head (q : CPart) (hq : partOk q = true) :
    ∃ c t, collapsePart q = c :: t ∧ isWsChar c = false ∧ ¬c = '#' := by
  obtain ⟨o?, v?⟩ := q
  cases o? with
  | some o =>
    simp only [partOk, Bool.and_eq_true, Bool.not_eq_true'] at hq
    obtain ⟨⟨⟨ho, _⟩, _⟩, _⟩ := hq
    cases v? with
    | none =>
      refine ⟨'-', o, ?_, by decide, by decide⟩
      simp [collapsePart, ho]
    | some v =>
      refine ⟨'-', o ++ '=' :: protectString v, ?_, by decide, by decide⟩
      simp [collapsePart, ho]
  | none =>
    cases v? with
    | none => simp [partOk] at hq
    | some v =>
      simp only [partOk, Bool.and_eq_true, Bool.not_eq_true'] at hq
      obtain ⟨htag, hrest⟩ := hq
      simp only [collapsePart, Option.getD_some, protectString, htag,
        Bool.false_eq_true, if_false]
      by_cases hesc : (v.isEmpty || v.any protEscChar) = true
      · rw [if_pos hesc]
        exact ⟨'"', v.flatMap escChar ++ ['"'], rfl, by decide, by decide⟩
      · rw [if_neg hesc]
        simp only [Bool.or_eq_true, not_or, Bool.not_eq_true] at hesc
        obtain ⟨hne, hany⟩ := hesc
        cases v with
        | nil => simp at hne
        | cons c t =>
          rw [hany] at hrest
          simp only [Bool.false_or, Bool.and_eq_true, Bool.not_eq_true',
            decide_eq_false_iff_not] at hrest
          refine ⟨c, t, rfl, ?_, hrest.2⟩
          have hc : protEscChar c = false := by
            have := List.any_eq_false.mp hany c (by simp)
            simpa using this
          exact (protEsc_elim c hc).2.2.2.2.2.2.2.2

end Scpi

namespace Scpi

/-- Along a run of clean value characters (with a clean head), `_argX`
never matches: interior positions have a non-whitespace character on
the left, so `OPTION` stays disarmed and `#` starts no comment. -/
theorem firstTok_argX_run (v pre rest : List Char)
    (hclean : ∀ c ∈ v, protEscChar c = false)
    (hhead : ∀ c t, v = c :: t → ¬c = '-' ∧ ¬c = '#') :
    ∀ a c b, v = a ++ c :: b →
      firstTok argXc (a.reverse ++ pre) (c :: (b ++ rest)) = none := by
  intro a c b hab
  have hc : protEscChar c = false := hclean c (by rw [hab]; simp)
  rcases List.eq_nil_or_concat a with rfl | ⟨L, e, rfl⟩
  · simp only [List.nil_append] at hab
    have hh := hhead c b hab
    simp only [List.reverse_nil, List.nil_append]
    exact firstTok_argX_none pre c (b ++ rest) hc
      (fun h => absurd h hh.1) (fun h => absurd h hh.2)
  · have he : protEscChar e = false := hclean e (by rw [hab]; simp)
    have hew : isWsChar e = false := (protEsc_elim e he).2.2.2.2.2.2.2.2
    rw [List.concat_eq_append, List.reverse_append, List.reverse_singleton,
      List.singleton_append, List.cons_append]
    exact firstTok_argX_none (e :: (L.reverse ++ pre)) c (b ++ rest) hc
      (fun _ => by simp [hew]) (fun _ => by simp)

/-- Same for `_optArgX` from a nonempty left context (the scan of an
option value starts just past the `=`). -/
theorem firstTok_optArgX_run (v pre rest : List Char)
    (hclean : ∀ c ∈ v, protEscChar c = false) (hpre : ¬pre = []) :
    ∀ a c b, v = a ++ c :: b →
      firstTok optArgXc (a.reverse ++ pre) (c :: (b ++ rest)) = none := by
  intro a c b hab
  have hc : protEscChar c = false := hclean c (by rw [hab]; simp)
  have hpe : pre.isEmpty = false := by
    cases pre with
    | nil => exact absurd rfl hpre
    | cons d t => rfl
  rcases List.eq_nil_or_concat a with rfl | ⟨L, e, rfl⟩
  · simp only [List.reverse_nil, List.nil_append]
    exact firstTok_optArgX_none pre c (b ++ rest) hc (fun _ => hpe)
  · rw [List.concat_eq_append, List.reverse_append, List.reverse_singleton,
      List.singleton_append, List.cons_append]
    exact firstTok_optArgX_none (e :: (L.reverse ++ pre)) c (b ++ rest) hc
      (fun _ => by simp)

/-- Same for `_optX` along a run of clean option-name characters. -/
theorem firstTok_optX_run (o pre rest : List Char)
    (hclean : ∀ c ∈ o, optNameChar c = true) :
    ∀ a c b, o = a ++ c :: b →
      firstTok optXc (a.reverse ++ pre) (c :: (b ++ rest)) = none := by
  intro a c b hab
  have hc := hclean c (by rw [hab]; simp)
  simp only [optNameChar, Bool.and_eq_true, Bool.not_eq_true',
    decide_eq_false_iff_not] at hc
  exact firstTok_optX_none (a.reverse ++ pre) c (b ++ rest)
    hc.1.1 hc.1.2 hc.2

/-- Ending a scan whose accumulator is already set: at the end of the
text the scan stops with no end token; at a separator space (ahead of
a clean character) the `SPACE` end token is consumed. -/
theorem scan_finish (cfg skipT endT : List Tok) (f : Nat) (x : List Char)
    (pre r2 : List Char) (sep : Bool)
    (hfst : sep = true → firstTok cfg pre (' ' :: r2) =
      some (Tok.space, [' '], r2))
    (hend : Tok.space ∈ endT) (hnosep : sep = false → r2 = []) :
    ∃ tk pre2, expandTextGo (f + 1) cfg skipT endT (some x) pre
        (if sep then ' ' :: r2 else []) = .ok ⟨some x, pre2, r2, tk⟩ ∧
      ¬tk = some ['='] ∧ (sep = true → pre2.head? = some ' ') ∧
      (sep = false → pre2 = pre) := by
  cases sep with
  | false =>
    obtain rfl := hnosep rfl
    refine ⟨none, pre, ?_, by simp, by simp, fun _ => rfl⟩
    rw [expandTextGo]
    simp
  | true =>
    have hf := hfst rfl
    refine ⟨some [' '], ' ' :: pre, ?_, by decide, fun _ => rfl, by simp⟩
    simp only [if_true]
    rw [expandTextGo]
    simp only [List.isEmpty_cons, Bool.false_eq_true, if_false]
    rw [searchTok, hf]
    simp only []
    rw [if_neg (by simp)]
    rw [if_pos hend]
    simp

/-- The option-name scan stops at `=`, consuming it as the end
token. -/
theorem optX_eq_end (f : Nat) (x : List Char) (pre tail : List Char) :
    expandTextGo (f + 1) optXc [] [Tok.space, Tok.equalsign] (some x) pre
      ('=' :: tail) = .ok ⟨some x, '=' :: pre, tail, some ['=']⟩ := by
  rw [expandTextGo]
  simp only [List.isEmpty_cons, Bool.false_eq_true, if_false]
  rw [searchTok, firstTok_optX_eq]
  simp only []
  rw [if_neg (by simp)]
  rw [if_pos (by decide : Tok.equalsign ∈ [Tok.space, Tok.equalsign])]
  simp

/-- `getArg` at the end of the line yields `(None, None)`. -/
theorem getArg_nil (f : Nat) (pre : List Char) :
    getArgM (f + 1) pre [] = .ok (none, none, pre, []) := by
  simp only [getArgM]
  rw [expandTextGo]
  simp

end Scpi

namespace Scpi

/-- A double-quoted value at the head of a scan: the opening quote
dispatches to the quote scan, which cooks the escaped body back to
the original value; scanning resumes after the closing quote. -/
theorem scan_dq_value (cfg skipT endT : List Tok) (g : Nat) (v : List Char)
    (pre tail : List Char)
    (hfst : firstTok cfg pre ('"' :: (v.flatMap escChar ++ '"' :: tail)) =
      some (Tok.doublequote, ['"'], v.flatMap escChar ++ '"' :: tail))
    (hskip : ¬Tok.doublequote ∈ skipT) (hendm : ¬Tok.doublequote ∈ endT)
    (hfuel : v.length + 2 ≤ g) :
    expandTextGo (g + 1) cfg skipT endT none pre
        ('"' :: (v.flatMap escChar ++ '"' :: tail)) =
      expandTextGo g cfg skipT endT (some v)
        ('"' :: (v.flatMap escChar).reverse ++ '"' :: pre) tail := by
  obtain ⟨h, rfl⟩ : ∃ h, g = h + 1 := ⟨g - 1, by omega⟩
  rw [expandTextGo]
  simp only [List.isEmpty_cons, Bool.false_eq_true, if_false]
  rw [searchTok, hfst]
  dsimp only
  rw [if_neg (by simp [hskip])]
  rw [if_neg hendm]
  simp only [List.reverse_cons, List.reverse_nil, List.nil_append,
    List.singleton_append]
  simp only [processTok]
  rw [dq_scan v (h + 1) none ('"' :: pre) tail (by omega)]
  simp

end Scpi

namespace Scpi

/-- `getArg` on a single collapsed `partOk` part (followed by a
separator space and a clean character, or by the end of the line)
returns exactly the part's `(option, value)` pair and consumes the
separator. -/
theorem getArg_part (p : CPart) (f : Nat) (pre r2 : List Char) (sep : Bool)
    (hok : partOk p = true) (harm : armOk pre = true)
    (hsep : sep = true → sepOkSuf r2) (hnosep : sep = false → r2 = [])
    (hfuel : (collapsePart p).length + 4 ≤ f) :
    ∃ pre2,
      getArgM f pre (collapsePart p ++ (if sep then ' ' :: r2 else [])) =
        .ok (p.1, p.2, pre2, r2) ∧
      (sep = true → pre2.head? = some ' ') := by
  obtain ⟨g, rfl⟩ : ∃ g, f = g + 1 := ⟨f - 1, by omega⟩
  obtain ⟨o?, v?⟩ := p
  cases o? with
  | none =>
    cases v? with
    | none => simp [partOk] at hok
    | some v =>
      simp only [partOk, Bool.and_eq_true, Bool.not_eq_true'] at hok
      obtain ⟨htag, hdisj⟩ := hok
      have hcp0 : collapsePart (none, some v) = protectString v := by
        simp [collapsePart]
      by_cases hq : (v.isEmpty || v.any protEscChar) = true
      · -- quoted value
        have hcp : collapsePart (none, some v) =
            '"' :: v.flatMap escChar ++ ['"'] := by
          rw [hcp0]
          simp only [protectString, htag, Bool.false_eq_true, if_false,
            hq, if_true]
          rfl
        rw [hcp] at hfuel ⊢
        simp only [List.length_cons, List.length_append, List.length_cons,
          List.length_nil] at hfuel
        have hvlen := flatMap_escChar_len v
        obtain ⟨g', rfl⟩ : ∃ g', g = g' + 1 := ⟨g - 1, by omega⟩
        have hassoc : ('"' :: v.flatMap escChar ++ ['"']) ++
            (if sep then ' ' :: r2 else []) =
            '"' :: (v.flatMap escChar ++ '"' ::
              (if sep then ' ' :: r2 else [])) := by
          simp
        rw [hassoc]
        have hstep := scan_dq_value argXc [Tok.space] [Tok.space] (g' + 1) v
          pre (if sep then ' ' :: r2 else [])
          (firstTok_argX_dq pre _) (by decide) (by decide) (by omega)
        obtain ⟨tk, pre2, hfin, htk, hsp, hns⟩ := scan_finish argXc
          [Tok.space] [Tok.space] g' v
          ('"' :: (v.flatMap escChar).reverse ++ '"' :: pre) r2 sep
          (fun hs => firstTok_argX_sep _ r2 (hsep hs)) (by decide) hnosep
        refine ⟨pre2, ?_, hsp⟩
        simp only [getArgM, hstep, hfin]
      · -- plain value
        have hne : v.isEmpty = false := by
          cases hv : v.isEmpty
          · rfl
          · exfalso; apply hq; simp [hv]
        have hany : v.any protEscChar = false := by
          cases hv : v.any protEscChar
          · rfl
          · exfalso; apply hq; simp [hv]
        have hclean : ∀ c ∈ v, protEscChar c = false := by
          intro c hc
          simpa using List.any_eq_false.mp hany c hc
        have hheads : ∀ c t, v = c :: t → ¬c = '-' ∧ ¬c = '#' := by
          intro c t hv
          rw [hany] at hdisj
          subst hv
          simp only [Bool.false_or, Bool.and_eq_true, Bool.not_eq_true',
            decide_eq_false_iff_not] at hdisj
          exact hdisj
        have hcp : collapsePart (none, some v) = v := by
          rw [hcp0]
          simp [protectString, htag, hne, hany]
        rw [hcp] at hfuel ⊢
        have hrun := run_shift_chain argXc [Tok.space] [Tok.space] v g none
          pre (if sep then ' ' :: r2 else [])
          (firstTok_argX_run v pre _ hclean hheads)
        obtain ⟨tk, pre2, hfin, htk, hsp, hns⟩ := scan_finish argXc
          [Tok.space] [Tok.space] g v (v.reverse ++ pre) r2 sep
          (fun hs => firstTok_argX_sep _ r2 (hsep hs)) (by decide) hnosep
        refine ⟨pre2, ?_, hsp⟩
        simp only [getArgM, hrun, hne, Bool.false_eq_true, if_false,
          Option.getD_none, List.nil_append, hfin]
  | some o =>
    simp only [partOk, Bool.and_eq_true, Bool.not_eq_true'] at hok
    obtain ⟨⟨⟨ho, hof⟩, hall⟩, hvo⟩ := hok
    cases o with
    | nil => simp at ho
    | cons oc or' =>
    have hoptF : isOptFollow oc = true := hof
    have hcleanAll : ∀ c ∈ oc :: or', optNameChar c = true :=
      List.all_eq_true.mp hall
    cases v? with
    | none =>
      have hcp : collapsePart (some (oc :: or'), none) = '-' :: oc :: or' := by
        simp [collapsePart]
      rw [hcp] at hfuel ⊢
      obtain ⟨h, rfl⟩ : ∃ h, g = h + 1 := ⟨g - 1, by omega⟩
      have hrun := run_shift_chain optXc [] [Tok.space, Tok.equalsign]
        (oc :: or') h none ('-' :: pre) (if sep then ' ' :: r2 else [])
        (firstTok_optX_run (oc :: or') ('-' :: pre) _ hcleanAll)
      obtain ⟨tk, pre2, hfin, htk, hsp, hns⟩ := scan_finish optXc []
        [Tok.space, Tok.equalsign] h (oc :: or')
        ((oc :: or').reverse ++ '-' :: pre) r2 sep
        (fun hs => firstTok_optX_sep _ r2 (hsep hs)) (by decide) hnosep
      have hproc : processTok (h + 1) Tok.option ['-'] ('-' :: pre)
          (oc :: (or' ++ (if sep then ' ' :: r2 else []))) =
          .error (.optionExc (some (oc :: or')) none pre2 r2) := by
        simp only [processTok]
        rw [show oc :: (or' ++ (if sep then ' ' :: r2 else [])) =
          (oc :: or') ++ (if sep then ' ' :: r2 else []) from rfl, hrun]
        simp only [List.isEmpty_cons, Bool.false_eq_true, if_false,
          Option.getD_none, List.nil_append, hfin]
        rw [if_neg htk]
      have hscan : expandTextGo (h + 1 + 1) argXc [Tok.space] [Tok.space]
          none pre ('-' :: oc :: (or' ++ (if sep then ' ' :: r2 else []))) =
          .error (.optionExc (some (oc :: or')) none pre2 r2) := by
        rw [expandTextGo]
        simp only [List.isEmpty_cons, Bool.false_eq_true, if_false]
        rw [searchTok,
          firstTok_argX_option pre oc (or' ++ (if sep then ' ' :: r2 else []))
            harm hoptF]
        dsimp only
        rw [if_neg (by simp)]
        rw [if_neg (by decide : ¬(Tok.option ∈ [Tok.space]))]
        simp only [List.reverse_cons, List.reverse_nil, List.nil_append,
          List.singleton_append]
        rw [hproc]
      refine ⟨pre2, ?_, hsp⟩
      rw [show ('-' :: oc :: or') ++ (if sep then ' ' :: r2 else []) =
        '-' :: oc :: (or' ++ (if sep then ' ' :: r2 else [])) from by simp]
      simp only [getArgM, hscan]
    | some v =>
      have htag : v.any protTagChar = false := by simpa using hvo
      have hcp : collapsePart (some (oc :: or'), some v) =
          '-' :: (oc :: or') ++ '=' :: protectString v := by
        simp [collapsePart]
      rw [hcp] at hfuel ⊢
      simp only [List.length_append, List.length_cons] at hfuel
      obtain ⟨h, rfl⟩ : ∃ h, g = h + 1 := ⟨g - 1, by omega⟩
      have hval : ∃ pre2 tk, (expandTextGo (h + 1) optArgXc [] [Tok.space]
          none ('=' :: ((oc :: or').reverse ++ '-' :: pre))
          (protectString v ++ (if sep then ' ' :: r2 else [])) =
            .ok ⟨some v, pre2, r2, tk⟩) ∧
          (sep = true → pre2.head? = some ' ') := by
        by_cases hq : (v.isEmpty || v.any protEscChar) = true
        · have hpv : protectString v = '"' :: v.flatMap escChar ++ ['"'] := by
            simp only [protectString, htag, Bool.false_eq_true, if_false,
              hq, if_true]
            rfl
          rw [hpv] at hfuel ⊢
          simp only [List.length_cons, List.length_append,
            List.length_nil] at hfuel
          have hvlen := flatMap_escChar_len v
          obtain ⟨h2, rfl⟩ : ∃ h2, h = h2 + 1 := ⟨h - 1, by omega⟩
          rw [show ('"' :: v.flatMap escChar ++ ['"']) ++
            (if sep then ' ' :: r2 else []) =
            '"' :: (v.flatMap escChar ++ '"' ::
              (if sep then ' ' :: r2 else [])) from by simp]
          rw [scan_dq_value optArgXc [] [Tok.space] (h2 + 1) v _ _
            (firstTok_optArgX_dq _ _) (by decide) (by decide) (by omega)]
          obtain ⟨tk, pre2, hfin, htk, hsp, hns⟩ := scan_finish optArgXc []
            [Tok.space] h2 v _ r2 sep
            (fun hs => firstTok_optArgX_sep _ r2 (hsep hs)) (by decide) hnosep
          exact ⟨pre2, tk, hfin, hsp⟩
        · have hne : v.isEmpty = false := by
            cases hv : v.isEmpty
            · rfl
            · exfalso; apply hq; simp [hv]
          have hany : v.any protEscChar = false := by
            cases hv : v.any protEscChar
            · rfl
            · exfalso; apply hq; simp [hv]
          have hclean : ∀ c ∈ v, protEscChar c = false := by
            intro c hc
            simpa using List.any_eq_false.mp hany c hc
          have hpv : protectString v = v := by
            simp [protectString, htag, hne, hany]
          rw [hpv]
          have hrun := run_shift_chain optArgXc [] [Tok.space] v h none
            ('=' :: ((oc :: or').reverse ++ '-' :: pre))
            (if sep then ' ' :: r2 else [])
            (firstTok_optArgX_run v _ _ hclean (by simp))
          obtain ⟨tk, pre2, hfin, htk, hsp, hns⟩ := scan_finish optArgXc []
            [Tok.space] h v
            (v.reverse ++ '=' :: ((oc :: or').reverse ++ '-' :: pre)) r2 sep
            (fun hs => firstTok_optArgX_sep _ r2 (hsep hs)) (by decide) hnosep
          refine ⟨pre2, tk, ?_, hsp⟩
          rw [hrun]
          simp only [hne, Bool.false_eq_true, if_false, Option.getD_none,
            List.nil_append, hfin]
      obtain ⟨pre2, tk, hvs, hsp⟩ := hval
      have hproc : processTok (h + 1) Tok.option ['-'] ('-' :: pre)
          (oc :: (or' ++ '=' :: (protectString v ++
            (if sep then ' ' :: r2 else [])))) =
          .error (.optionExc (some (oc :: or')) (some v) pre2 r2) := by
        simp only [processTok]
        rw [show oc :: (or' ++ '=' :: (protectString v ++
            (if sep then ' ' :: r2 else []))) =
          (oc :: or') ++ ('=' :: (protectString v ++
            (if sep then ' ' :: r2 else []))) from rfl,
          run_shift_chain optXc [] [Tok.space, Tok.equalsign] (oc :: or') h
            none ('-' :: pre)
            ('=' :: (protectString v ++ (if sep then ' ' :: r2 else [])))
            (firstTok_optX_run (oc :: or') ('-' :: pre) _ hcleanAll)]
        simp only [List.isEmpty_cons, Bool.false_eq_true, if_false,
          Option.getD_none, List.nil_append]
        rw [optX_eq_end h (oc :: or') _ _]
        dsimp only
        rw [if_pos rfl]
        rw [hvs]
      have hscan : expandTextGo (h + 1 + 1) argXc [Tok.space] [Tok.space]
          none pre ('-' :: oc :: (or' ++ '=' :: (protectString v ++
            (if sep then ' ' :: r2 else [])))) =
          .error (.optionExc (some (oc :: or')) (some v) pre2 r2) := by
        rw [expandTextGo]
        simp only [List.isEmpty_cons, Bool.false_eq_true, if_false]
        rw [searchTok,
          firstTok_argX_option pre oc (or' ++ '=' :: (protectString v ++
            (if sep then ' ' :: r2 else []))) harm hoptF]
        dsimp only
        rw [if_neg (by simp)]
        rw [if_neg (by decide : ¬(Tok.option ∈ [Tok.space]))]
        simp only [List.reverse_cons, List.reverse_nil, List.nil_append,
          List.singleton_append]
        rw [hproc]
      refine ⟨pre2, ?_, hsp⟩
      rw [show ('-' :: (oc :: or') ++ '=' :: protectString v) ++
        (if sep then ' ' :: r2 else []) =
        '-' :: oc :: (or' ++ '=' :: (protectString v ++
          (if sep then ' ' :: r2 else []))) from by simp]
      simp only [getArgM, hscan]

end Scpi

namespace Scpi

/-- A `partOk` part never yields the `(None, None)` loop terminator. -/
theorem partOk_not_none (p : CPart) (h : partOk p = true) :
    ¬(p.1 = none ∧ p.2 = none) := by
  obtain ⟨o?, v?⟩ := p
  rintro ⟨h1, h2⟩
  dsimp only at h1 h2
  subst h1
  subst h2
  simp [partOk] at h

/-- One iteration of the `expandArgs` loop on a successful, non-final
`getArg`. -/
theorem argsGo_step (f : Nat) (pre suf : List Char) (acc : List RawPart)
    (o v : Option (List Char)) (pre2 suf2 : List Char)
    (hga : getArgM (f + 1) pre suf = .ok (o, v, pre2, suf2))
    (hnn : ¬(o = none ∧ v = none)) :
    expandArgsGo (f + 1) pre suf acc =
      expandArgsGo f pre2 suf2
        (acc ++ [(o, v, (pre2.take (pre2.length - pre.length)).reverse)]) := by
  rw [expandArgsGo, hga]
  rcases o with _ | x
  · rcases v with _ | y
    · exact absurd ⟨rfl, rfl⟩ hnn
    · rfl
  · rfl

/-- The `expandArgs` loop over a collapsed `partOk` part list
recovers the parts in order. -/
theorem expandArgsGo_parts (P : List CPart) :
    ∀ (fuel : Nat) (pre : List Char) (acc : List RawPart),
    (∀ p ∈ P, partOk p = true) → (armOk pre = true ∨ P = []) →
    (collapseArgs P).length + P.length + 5 ≤ fuel →
    ∃ parts',
      expandArgsGo fuel pre (collapseArgs P) acc = .ok (acc ++ parts') ∧
      parts'.map (fun t => (t.1, t.2.1)) = P := by
  induction P with
  | nil =>
    intro fuel pre acc _ _ hfuel
    obtain ⟨f, rfl⟩ : ∃ f, fuel = f + 1 := ⟨fuel - 1, by omega⟩
    refine ⟨[], ?_, rfl⟩
    rw [show collapseArgs [] = [] from rfl, expandArgsGo, getArg_nil]
    simp
  | cons p P' ih =>
    intro fuel pre acc hok harm hfuel
    have harm' : armOk pre = true := by
      rcases harm with h | h
      · exact h
      · exact absurd h (by simp)
    obtain ⟨f, rfl⟩ : ∃ f, fuel = f + 1 := ⟨fuel - 1, by omega⟩
    have hokp : partOk p = true := hok p (by simp)
    have hcc := collapseArgs_cons p P'
    cases P' with
    | nil =>
      simp only [List.isEmpty_nil, if_true, List.append_nil] at hcc
      rw [hcc] at hfuel
      obtain ⟨pre2, hga, _⟩ := getArg_part p (f + 1) pre [] false hokp harm'
        (fun h => nomatch h) (fun _ => rfl)
        (by simp only [List.length_cons, List.length_nil] at hfuel; omega)
      simp only [Bool.false_eq_true, if_false, List.append_nil] at hga
      rw [hcc,
        argsGo_step f pre (collapsePart p) acc p.1 p.2 pre2 [] hga
          (partOk_not_none p hokp)]
      obtain ⟨parts', hrec, hmap⟩ := ih f pre2
        (acc ++ [(p.1, p.2, (pre2.take (pre2.length - pre.length)).reverse)])
        (by intro q hq; cases hq) (Or.inr rfl)
        (by
          simp only [List.length_cons, List.length_nil] at hfuel
          simp only [collapseArgs, List.length_nil]
          omega)
      rw [show collapseArgs [] = [] from rfl] at hrec
      refine ⟨(p.1, p.2,
        (pre2.take (pre2.length - pre.length)).reverse) :: parts', ?_, ?_⟩
      · rw [hrec]
        simp
      · simp [hmap]
    | cons q R =>
      simp only [List.isEmpty_cons, Bool.false_eq_true, if_false] at hcc
      rw [hcc] at hfuel
      simp only [List.length_append, List.length_cons] at hfuel
      have hsep : sepOkSuf (collapseArgs (q :: R)) := by
        obtain ⟨c, t, hqc, hws, hhash⟩ :=
          collapsePart_head q (hok q (by simp))
        rw [collapseArgs_cons, hqc]
        exact ⟨hws, hhash⟩
      obtain ⟨pre2, hga, hsp⟩ := getArg_part p (f + 1) pre
        (collapseArgs (q :: R)) true hokp harm'
        (fun _ => hsep) (fun h => nomatch h) (by omega)
      simp only [if_true] at hga
      rw [hcc,
        argsGo_step f pre
          (collapsePart p ++ ' ' :: collapseArgs (q :: R)) acc p.1 p.2 pre2
          (collapseArgs (q :: R)) hga (partOk_not_none p hokp)]
      have harm2 : armOk pre2 = true := by
        have hh := hsp rfl
        cases pre2 with
        | nil => simp at hh
        | cons a b =>
          simp only [List.head?_cons, Option.some.injEq] at hh
          subst hh
          simp [armOk, isWsChar]
      obtain ⟨parts', hrec, hmap⟩ := ih f pre2
        (acc ++ [(p.1, p.2, (pre2.take (pre2.length - pre.length)).reverse)])
        (fun r hr => hok r (by simp [hr])) (Or.inl harm2)
        (by simp only [List.length_cons]; omega)
      refine ⟨(p.1, p.2,
        (pre2.take (pre2.length - pre.length)).reverse) :: parts', ?_, ?_⟩
      · rw [hrec]
        simp
      · simp [hmap]

/-- `expandArgs` on a collapsed `partOk` part list succeeds and
returns the parts in order. -/
theorem expandArgsM_parts (P : List CPart) (h : ∀ p ∈ P, partOk p = true) :
    ∃ parts, expandArgsM (collapseArgs P) = .ok parts ∧
      parts.map (fun t => (t.1, t.2.1)) = P := by
  have hlen := parts_le_collapse P
  obtain ⟨parts, heq, hmap⟩ := expandArgsGo_parts P
    ((collapseArgs P).length * 2 + 16) [] [] h (Or.inl rfl) (by omega)
  exact ⟨parts, by simpa [expandArgsM] using heq, hmap⟩

end Scpi

namespace Scpi

/-- **C1** (amended).  Round trip of the command-line parser: for a
part list whose parts are admissible — nonempty option names drawn
from clean characters and starting in the `OPTION` look-ahead class
`[a-zA-Z.:_]`, no `(None, None)` parts, values free of binary
characters and newlines, and a value that collapses without quoting
not beginning with `-` or `#` — expanding the line collapsed with
`QUOTE_AUTO` quoting recovers exactly the original `(option, value)`
pairs.  (Without the value provisos the claim fails: see the
counterexample, where a positional value `-a` collapses unquoted and
re-parses as the option `a`.) -/
theorem c1_round_trip (P : List CPart) (h : ∀ p ∈ P, partOk p = true) :
    ∃ parts, expandArgsM (collapseArgs P) = .ok parts ∧
      parts.map (fun t => (t.1, t.2.1)) = P :=
  expandArgsM_parts P h

/-- **C1 counterexample.**  The single positional part `-a` contains
no character of `_protectEscapes`, so `QUOTE_AUTO` emits it bare; the
expansion then matches the `OPTION` token at the start of the line
and returns the named part `(a, None)` instead of `(None, -a)`. -/
theorem c1_counterexample :
    ∃ parts,
      expandArgsM (collapseArgs
        [((none : Option (List Char)), some ['-', 'a'])]) = .ok parts ∧
      ¬parts.map (fun t => (t.1, t.2.1)) =
        [((none : Option (List Char)), some ['-', 'a'])] := by
  have hcol : collapseArgs [((none : Option (List Char)), some ['-', 'a'])] =
      collapseArgs [(some ['a'], (none : Option (List Char)))] := by decide
  obtain ⟨parts, heq, hmap⟩ := expandArgsM_parts
    [(some ['a'], (none : Option (List Char)))] (by decide)
  refine ⟨parts, ?_, ?_⟩
  · rw [hcol]
    exact heq
  · rw [hmap]
    decide

/-- **C1 witness.**  The round trip at the concrete part list
`hi -o="a b" -flag`. -/
theorem c1_round_trip_witness :
    ∃ parts, expandArgsM (collapseArgs
      [((none : Option (List Char)), some ['h', 'i']),
       (some ['o'], some ['a', ' ', 'b']),
       (some ['f', 'l', 'a', 'g'], (none : Option (List Char)))]) =
        .ok parts ∧
      parts.map (fun t => (t.1, t.2.1)) =
        [((none : Option (List Char)), some ['h', 'i']),
         (some ['o'], some ['a', ' ', 'b']),
         (some ['f', 'l', 'a', 'g'], (none : Option (List Char)))] :=
  c1_round_trip _ (by decide)

end Scpi
